import Mathlib

/-!
Verification of the 00028874 carrier-aggregation codec (decoder, encoder,
shared combo model, validator) against its natural-language specification.

The development shallowly embeds the JavaScript sources:
  * `shared/combo.js`   — class/CC conversion, stream counting, UL-CA detection,
    grouping keys, carrier normalization;
  * `shared/bands.js`   — the LTE band registry (duplex modes);
  * `shared/validation.js` — the structural combo validator;
  * `decoder/28874decoder.jsx` — the tagged byte-stream decoder;
  * `encoder/28874encoder.jsx` — the three-strategy encoder.

Modelling conventions, used throughout:
  * JavaScript numbers holding byte/uint16 values are `Nat`; masking
    (`& 0xff`, `& 0xffff`) is `% 256` / `% 65536` at the same places the
    source masks.
  * A JS record field that may be `undefined`/absent is modelled as `0`
    (for numeric fields — `undefined` and `0` behave identically under the
    source's `||` fallbacks) or as `Option` (for string fields).
  * Byte buffers are `List Nat`, each element a byte value; `DataView`
    reads mask with `% 256` exactly as a real byte is bounded.
  * The source's `Array.prototype.sort` is a stable sort; we use
    `List.insertionSort`, which is stable, with the same comparator.
-/

namespace EDcoder

/-! ## shared/combo.js — class conversion and the combo model -/

/-- A value passed to `classToCC`, which the source accepts either as a
letter string or as a number. -/
inductive ClassVal where
  | ltr (c : Char)
  | num (n : Nat)
  deriving DecidableEq, Repr

/-- `classToCC` from `shared/combo.js`: a letter A–F maps to 1–6; a number
already in 1–6 is returned; everything else defaults to 1 (a failed string
falls through to the number branch, which also fails for a string). -/
def classToCC : ClassVal → Nat
  | .ltr c =>
      let code := c.toUpper.toNat - 0x40
      if 1 ≤ code ∧ code ≤ 6 then code else 1
  | .num n => if 1 ≤ n ∧ n ≤ 6 then n else 1

/-- `classNumToLetter` from `shared/combo.js`. -/
def classNumToLetter (n : Nat) : Char :=
  if 1 ≤ n ∧ n ≤ 26 then Char.ofNat (0x40 + n) else 'A'

/-- `classLetterToNum` from `shared/combo.js`; `none` models a missing or
non-string argument, for which the `typeof` guard fails and 1 is returned. -/
def classLetterToNum : Option Char → Nat
  | some c =>
      let code := c.toUpper.toNat - 0x40
      if 1 ≤ code ∧ code ≤ 26 then code else 1
  | none => 1

/-- A carrier record.  The source keeps a legacy field set
(`band`/`bclass`/`ant`/`ulclass`, numeric) and a new field set
(`dlClass`/`mimoDl`/`ulClass`/`mimoUl`); absent numeric fields are 0 (JS
`undefined` and `0` coincide under the `||` fallbacks the source uses),
absent string fields are `none`. -/
structure Carrier where
  band : Nat := 0
  dlClass : Option Char := none
  mimoDl : Nat := 0
  ulClass : Option Char := none
  mimoUl : Nat := 0
  bclass : Nat := 0
  ant : Nat := 0
  ulclass : Nat := 0
  deriving DecidableEq, Repr

/-- The all-zero carrier used by `padCarriers` (`{band: 0, bclass: 0,
ant: 0, ulclass: 0}`). -/
def zeroCarrier : Carrier := {}

/-- `c.dlClass || c.bclass`, as fed to `classToCC`. -/
def dlClassVal (c : Carrier) : ClassVal :=
  match c.dlClass with
  | some ch => .ltr ch
  | none => .num c.bclass

/-- `c.ulClass || c.ulclass`, as fed to `classToCC`. -/
def ulClassVal (c : Carrier) : ClassVal :=
  match c.ulClass with
  | some ch => .ltr ch
  | none => .num c.ulclass

/-- `calculateCarrierStreams` from `shared/combo.js`:
`classToCC(dlClass || bclass) * (mimoDl || ant || 2)`. -/
def calculateCarrierStreams (c : Carrier) : Nat :=
  classToCC (dlClassVal c) *
    (if c.mimoDl ≠ 0 then c.mimoDl else if c.ant ≠ 0 then c.ant else 2)

/-- `calculateStreams` from `shared/combo.js`: the sum of
`calculateCarrierStreams` over the carriers (0 for an empty list). -/
def calculateStreams (carriers : List Carrier) : Nat :=
  (carriers.map calculateCarrierStreams).sum

/-- The truthiness test `ulClass && ulClass !== 0 && ulClass !== '0'`
applied to `c.ulClass || c.ulclass` (used by `hasULCA`/`getULCarriers`). -/
def carrierHasUL (c : Carrier) : Bool :=
  match c.ulClass with
  | some ch => ch ≠ '0'
  | none => c.ulclass ≠ 0

/-- `hasULCA` from `shared/combo.js`: more than one carrier has UL. -/
def hasULCA (carriers : List Carrier) : Bool :=
  1 < (carriers.filter carrierHasUL).length

/-- `getULCarriers` from `shared/combo.js`. -/
def getULCarriers (carriers : List Carrier) : List Carrier :=
  carriers.filter carrierHasUL

/-- `countULCC` from `shared/combo.js`. -/
def countULCC (carriers : List Carrier) : Nat :=
  ((getULCarriers carriers).map (fun c => classToCC (ulClassVal c))).sum

/-- The per-slot triple `band : (bclass || classLetterToNum dlClass) :
(ant || mimoDl || 0)` of `getDLKey` from `shared/combo.js`.  The source
renders the six triples as a `':'`/`'|'`-joined decimal string; that
rendering is injective on triples, so we keep the triples themselves as
the key (grouping by the string and grouping by the triple list agree). -/
def dlKeySlot (c : Carrier) : Nat × Nat × Nat :=
  (c.band,
   if c.bclass ≠ 0 then c.bclass else classLetterToNum c.dlClass,
   if c.ant ≠ 0 then c.ant else if c.mimoDl ≠ 0 then c.mimoDl else 0)

/-- `getDLKey` from `shared/combo.js`: normalize to exactly six positional
slots (missing slots become the all-zero carrier) and take each slot's
triple. -/
def getDLKey (carriers : List Carrier) : List (Nat × Nat × Nat) :=
  (List.range 6).map (fun i => dlKeySlot (carriers.getD i zeroCarrier))

/-! ## shared/bands.js — the band registry (duplex modes)

Only the duplex mode and table membership are consumed by the validator;
the frequency/name metadata of each entry is not read by any code under
verification and is omitted from the embedding. -/

/-- Duplex mode of a band. -/
inductive Duplex where
  | FDD
  | TDD
  | SDL
  deriving DecidableEq, Repr

/-- `getBandDuplexMode` from `shared/bands.js`: the duplex mode recorded in
the `BANDS` table, `none` when the band is absent.  The band numbers and
modes transcribe the table verbatim. -/
def getBandDuplexMode (band : Nat) : Option Duplex :=
  if band = 29 ∨ band = 32 ∨ band = 67 ∨ band = 69 ∨ band = 75 ∨ band = 76 then
    some .SDL
  else if 33 ≤ band ∧ band ≤ 53 then
    some .TDD
  else if (1 ≤ band ∧ band ≤ 14) ∨ (17 ≤ band ∧ band ≤ 28) ∨
      (30 ≤ band ∧ band ≤ 31) ∨ (65 ≤ band ∧ band ≤ 66) ∨ band = 68 ∨
      (70 ≤ band ∧ band ≤ 74) ∨ band = 85 ∨ (87 ≤ band ∧ band ≤ 88) then
    some .FDD
  else
    none

/-- `bandHasUplink` from `shared/bands.js`. -/
def bandHasUplink (band : Nat) : Bool :=
  getBandDuplexMode band = some .FDD ∨ getBandDuplexMode band = some .TDD

/-- The result of `analyzeBandDuplexModes` from `shared/bands.js`. -/
structure DuplexAnalysis where
  hasFDD : Bool
  hasTDD : Bool
  hasSDL : Bool
  isMixed : Bool
  deriving DecidableEq, Repr

/-- `analyzeBandDuplexModes` from `shared/bands.js`. -/
def analyzeBandDuplexModes (bandNumbers : List Nat) : DuplexAnalysis :=
  let modes := bandNumbers.filterMap getBandDuplexMode
  let hasFDD := modes.contains .FDD
  let hasTDD := modes.contains .TDD
  let hasSDL := modes.contains .SDL
  { hasFDD, hasTDD, hasSDL, isMixed := hasFDD && hasTDD }

/-! ## shared/validation.js — the combo validator -/

/-- A validation error or warning (the optional `details` payload, a loose
JS object used only for display, is omitted). -/
structure VError where
  code : String
  message : String
  severity : String
  deriving DecidableEq, Repr

/-- `createError` from `shared/validation.js`. -/
def createError (code message : String) : VError :=
  { code, message, severity := "error" }

/-- `createWarning` from `shared/validation.js`. -/
def createWarning (code message : String) : VError :=
  { code, message, severity := "warning" }

/-- A validation result. -/
structure VResult where
  valid : Bool
  errors : List VError
  warnings : List VError
  deriving DecidableEq, Repr

/-- `createResult` from `shared/validation.js`:
`valid = (errors.length === 0)`. -/
def createResult (errors warnings : List VError) : VResult :=
  { valid := errors.isEmpty, errors, warnings }

/-- Render a list of band numbers as the source's `join(', ')`. -/
def joinBands (bands : List Nat) : String :=
  String.intercalate ", " (bands.map Nat.repr)

/-- `validateNoFDDTDDMix` from `shared/validation.js`. -/
def validateNoFDDTDDMix (carriers : List Carrier) : Option VError :=
  if carriers.isEmpty then none
  else
    let bandNumbers := carriers.map (·.band)
    let analysis := analyzeBandDuplexModes bandNumbers
    if analysis.isMixed then
      let fddBands := bandNumbers.filter (fun b => getBandDuplexMode b = some .FDD)
      let tddBands := bandNumbers.filter (fun b => getBandDuplexMode b = some .TDD)
      some (createError "FDD_TDD_MIX"
        ("FDD and TDD bands cannot be mixed in one combo. FDD bands: " ++
          joinBands fddBands ++ ". TDD bands: " ++ joinBands tddBands ++ "."))
    else none

/-- The total CC count `Σ classToCC(dlClass || bclass)` shared by
`validateTotalCCLimit` and `validateDLCCLimit`. -/
def totalCCOf (carriers : List Carrier) : Nat :=
  (carriers.map (fun c => classToCC (dlClassVal c))).sum

/-- `validateTotalCCLimit` from `shared/validation.js`. -/
def validateTotalCCLimit (carriers : List Carrier) (maxCC : Nat) : Option VError :=
  if carriers.isEmpty then none
  else
    let totalCC := totalCCOf carriers
    if maxCC < totalCC then
      some (createError "EXCEED_MAX_CC"
        ("Total CC count (" ++ Nat.repr totalCC ++ ") exceeds maximum (" ++
          Nat.repr maxCC ++ ")."))
    else none

/-- `validateDLCCLimit` from `shared/validation.js`. -/
def validateDLCCLimit (carriers : List Carrier) (maxDLCC : Nat) : Option VError :=
  if carriers.isEmpty then none
  else
    let totalDLCC := totalCCOf carriers
    if maxDLCC < totalDLCC then
      some (createError "EXCEED_MAX_DL_CC"
        ("Total DL CC count (" ++ Nat.repr totalDLCC ++ ") exceeds maximum (" ++
          Nat.repr maxDLCC ++ ")."))
    else none

/-- `validateULSCellLimit` from `shared/validation.js`: count UL carriers
at positions other than `pcellIndex`. -/
def validateULSCellLimit (carriers : List Carrier) (pcellIndex maxULSCell : Nat) :
    Option VError :=
  if carriers.isEmpty then none
  else
    let ulSCellCount :=
      (carriers.enum.filter (fun p => p.1 ≠ pcellIndex && carrierHasUL p.2)).length
    if maxULSCell < ulSCellCount then
      some (createError "EXCEED_MAX_UL_SCELL"
        ("UL SCell count (" ++ Nat.repr ulSCellCount ++ ") exceeds maximum (" ++
          Nat.repr maxULSCell ++ ")."))
    else none

/-- `validateTotalULLimit` from `shared/validation.js`. -/
def validateTotalULLimit (carriers : List Carrier) (maxTotalUL : Nat) : Option VError :=
  if carriers.isEmpty then none
  else
    let ulCarriers := getULCarriers carriers
    if maxTotalUL < ulCarriers.length then
      some (createError "EXCEED_MAX_TOTAL_UL"
        ("Total UL carrier count (" ++ Nat.repr ulCarriers.length ++
          ") exceeds maximum (" ++ Nat.repr maxTotalUL ++ ")."))
    else none

/-- `validateBandsExist` from `shared/validation.js` (a warning). -/
def validateBandsExist (carriers : List Carrier) : Option VError :=
  if carriers.isEmpty then none
  else
    let unknownBands := (carriers.map (·.band)).filter
      (fun b => (getBandDuplexMode b).isNone)
    if unknownBands.isEmpty then none
    else
      some (createWarning "INVALID_BAND"
        ("Unknown bands: " ++ joinBands unknownBands ++
          ". These may not be valid LTE bands."))

/-- The SDL-with-uplink test of `validateSDLNoUplink`.  The source checks
`ulClass && ulClass !== 0` on `c.ulClass || c.ulclass` — note that, unlike
`carrierHasUL`, the string `'0'` is not excluded here. -/
def sdlHasUL (c : Carrier) : Bool :=
  getBandDuplexMode c.band = some .SDL &&
    (match c.ulClass with
     | some _ => true
     | none => c.ulclass ≠ 0)

/-- `validateSDLNoUplink` from `shared/validation.js`. -/
def validateSDLNoUplink (carriers : List Carrier) : Option VError :=
  if carriers.isEmpty then none
  else
    let sdlWithUL := carriers.filter sdlHasUL
    if sdlWithUL.isEmpty then none
    else
      some (createError "SDL_WITH_UL"
        ("SDL bands cannot have uplink: " ++
          String.intercalate ", " (sdlWithUL.map (fun c => "B" ++ Nat.repr c.band)) ++
          "."))

/-- `validateNotEmpty` from `shared/validation.js`. -/
def validateNotEmpty (carriers : List Carrier) : Option VError :=
  if carriers.isEmpty then
    some (createError "EMPTY_COMBO" "Combo must have at least one carrier.")
  else none

/-- A device profile (`shared/validation.js`).  `maxTotalUL = 0` models an
absent/falsy field, matching the source's `if (profile.maxTotalUL)` guard. -/
structure DeviceProfile where
  name : String
  maxDLCC : Nat
  maxULSCell : Nat
  maxTotalUL : Nat := 0
  supportedBands : List Nat
  bandMimo : List (Nat × List Nat)
  deriving DecidableEq, Repr

/-- Look up `profile.bandMimo[band]` in the association list. -/
def bandMimoLookup (profile : DeviceProfile) (band : Nat) : Option (List Nat) :=
  (profile.bandMimo.find? (fun p => p.1 = band)).map (·.2)

/-- `validateAgainstProfile` from `shared/validation.js` (a mixed list of
errors and warnings, distinguished by their `severity`). -/
def validateAgainstProfile (carriers : List Carrier) (profile : DeviceProfile) :
    List VError :=
  if carriers.isEmpty then []
  else
    let bandErrs :=
      if profile.supportedBands.isEmpty then []
      else
        let unsupportedBands := (carriers.map (·.band)).filter
          (fun b => ¬ profile.supportedBands.contains b)
        if unsupportedBands.isEmpty then []
        else [createError "UNSUPPORTED_BAND"
          ("Bands not supported by " ++ profile.name ++ ": " ++
            joinBands unsupportedBands ++ ".")]
    let mimoErrs :=
      if profile.bandMimo.isEmpty then []
      else carriers.filterMap (fun c =>
        let mimo := if c.mimoDl ≠ 0 then c.mimoDl else if c.ant ≠ 0 then c.ant else 2
        match bandMimoLookup profile c.band with
        | some supportedMimo =>
            if ¬ supportedMimo.contains mimo then
              some (createWarning "UNSUPPORTED_MIMO"
                ("MIMO " ++ Nat.repr mimo ++ " not supported on Band " ++
                  Nat.repr c.band ++ ". Supported: " ++ joinBands supportedMimo ++ "."))
            else none
        | none => none)
    let ccErrs := (validateDLCCLimit carriers profile.maxDLCC).toList
    let ulScellErrs := (validateULSCellLimit carriers 0 profile.maxULSCell).toList
    let totalULErrs :=
      if profile.maxTotalUL ≠ 0 then (validateTotalULLimit carriers profile.maxTotalUL).toList
      else []
    bandErrs ++ mimoErrs ++ ccErrs ++ ulScellErrs ++ totalULErrs

/-- The options object of `validateCombo`, with the source's defaults. -/
structure VOptions where
  maxCC : Nat := 6
  maxDLCC : Nat := 5
  maxULSCell : Nat := 1
  maxTotalUL : Nat := 2
  pcellIndex : Nat := 0
  profile : Option DeviceProfile := none
  allowFDDTDDMix : Bool := false
  deriving DecidableEq, Repr

/-- `validateCombo` from `shared/validation.js`: run every rule, collect
errors and warnings, and return `createResult`. -/
def validateCombo (carriers : List Carrier) (options : VOptions) : VResult :=
  match validateNotEmpty carriers with
  | some emptyError => createResult [emptyError] []
  | none =>
    let warnings0 := (validateBandsExist carriers).toList
    let mixErrs :=
      if ¬ options.allowFDDTDDMix then (validateNoFDDTDDMix carriers).toList else []
    let sdlErrs := (validateSDLNoUplink carriers).toList
    let ccErrs := (validateTotalCCLimit carriers options.maxCC).toList
    let dlCCErrs := (validateDLCCLimit carriers options.maxDLCC).toList
    let ulSCellErrs :=
      (validateULSCellLimit carriers options.pcellIndex options.maxULSCell).toList
    let totalULErrs := (validateTotalULLimit carriers options.maxTotalUL).toList
    let profileResults :=
      match options.profile with
      | some profile => validateAgainstProfile carriers profile
      | none => []
    let errors := mixErrs ++ sdlErrs ++ ccErrs ++ dlCCErrs ++ ulSCellErrs ++
      totalULErrs ++ profileResults.filter (fun e => e.severity = "error")
    let warnings := warnings0 ++ profileResults.filter (fun e => e.severity ≠ "error")
    createResult errors warnings

/-! ## Byte-level primitives

Buffers are lists of byte values.  `DataView` reads mask to the field
width; the writers mask exactly where the source masks (`& 0xffff`,
`& 0xff`), so written buffers contain genuine byte values. -/

/-- A byte buffer. -/
abbrev Bytes := List Nat

/-- `readUint16` (little-endian): fails — `Unexpected end of file` in the
source — when fewer than two bytes remain. -/
def readU16 : Bytes → Option (Nat × Bytes)
  | b0 :: b1 :: r => some (b0 % 256 + 256 * (b1 % 256), r)
  | _ => none

/-- `readUint8`: fails when no byte remains. -/
def readU8 : Bytes → Option (Nat × Bytes)
  | b :: r => some (b % 256, r)
  | _ => none

/-- `skipBytes`: advances the cursor without a bounds check; running past
the end simply leaves nothing to read (as in the source, where `fptr` may
exceed `fileSize` and the loop then stops). -/
def skipB (n : Nat) (bs : Bytes) : Bytes := bs.drop n

/-- `writeUint16 (val & 0xffff)`, little-endian. -/
def writeU16 (v : Nat) : Bytes := [v % 256, v % 65536 / 256]

/-- `writeUint8 (val & 0xff)`. -/
def writeU8 (v : Nat) : Bytes := [v % 256]

/-- `writeZeros`. -/
def zeroBytes (n : Nat) : Bytes := List.replicate n 0

/-! ## decoder/28874decoder.jsx -/

/-- `[0, 0, 0, 0, 0, 0]` — a freshly reset 6-slot array. -/
def zeros6 : List Nat := [0, 0, 0, 0, 0, 0]

/-- A combo reconstructed by the decoder.  `dlKey` keeps the per-slot
triples whose decimal rendering the source stores (see `dlKeySlot`). -/
structure DecCombo where
  text : String
  streams : Nat
  hasULCA : Bool
  descType : Nat
  groupIdx : Int
  dlKey : List (Nat × Nat × Nat)
  rawBand : List Nat
  rawBclass : List Nat
  rawAnt : List Nat
  rawUlclass : List Nat
  deriving DecidableEq, Repr

/-- An original descriptor group recorded by the decoder; `combos` holds
the indices of the member combos in the flat output list. -/
structure DecGroup where
  descType : Nat
  band : List Nat
  bclass : List Nat
  ant : List Nat
  combos : List Nat
  deriving DecidableEq, Repr

/-- The decoder's output object.  The `compressionRatio` display string
(computed with floating-point `toFixed`) is omitted; no code under
verification reads it. -/
structure DecOutput where
  fileSize : Nat
  originalSize : Nat
  wasCompressed : Bool
  formatVersion : Nat
  numDescriptors : Nat
  combos : List DecCombo
  numCombos : Nat
  maxStreams : Nat
  errors : List String
  stat137 : Nat
  stat138 : Nat
  stat201 : Nat
  stat202 : Nat
  stat333 : Nat
  stat334 : Nat
  groups : List DecGroup
  deriving DecidableEq, Repr

/-- The decoder's loop-local slot arrays and current-group cursor
(`currentGroupIdx` is `-1` until the first DL header). -/
structure SlotState where
  band : List Nat
  bclass : List Nat
  ulclass : List Nat
  ant : List Nat
  currentDescType : Nat
  currentGroupIdx : Int
  deriving DecidableEq, Repr

/-- The slot state at loop entry. -/
def initSlots : SlotState :=
  { band := zeros6, bclass := zeros6, ulclass := zeros6, ant := zeros6,
    currentDescType := 137, currentGroupIdx := -1 }

/-- The walk of `buildCombo`'s `for (let i = 0; i < 6; i++)` loop over the
four parallel slot arrays (always of length 6), accumulating the combo
text, the stream count and the has-a-carrier flag. -/
def buildComboAux (showMimo : Bool) :
    List (Nat × Nat × Nat × Nat) → String × Nat × Bool → String × Nat × Bool
  | [], acc => acc
  | (band, bclass, ant, ulclass) :: rest, (comboStr, st, hasCarrier) =>
    if band = 0 then buildComboAux showMimo rest (comboStr, st, hasCarrier)
    else
      let comboStr := comboStr ++ (if hasCarrier then "-" else "")
      let comboStr := comboStr ++ Nat.repr band
      let comboStr := comboStr ++ String.singleton (Char.ofNat (bclass + 0x40))
      let comboStr := comboStr ++
        (if showMimo ∧ ant ≠ 0 then Nat.repr ant else "")
      let comboStr := comboStr ++
        (if ulclass ≠ 0 then String.singleton (Char.ofNat (ulclass + 0x40)) else "")
      let ccCount := classToCC (.num bclass)
      let mimo := if ant ≠ 0 then ant else 2
      buildComboAux showMimo rest (comboStr, st + ccCount * mimo, true)

/-- `buildCombo` from the decoder.  The `ulca` argument is accepted and
ignored exactly as in the source (which recomputes UL-CA from the slot
array).  Returns `none` when no slot holds a carrier. -/
def buildCombo (band bclass ant ulclass : List Nat) (_ulca : Nat) (showMimo : Bool)
    (descType : Nat) (groupIdx : Int) : Option DecCombo :=
  let slots := band.zip (bclass.zip (ant.zip ulclass))
  let acc := buildComboAux showMimo slots ("", 0, false)
  if acc.2.2 then
    some { text := acc.1, streams := acc.2.1,
           hasULCA := 1 < (ulclass.filter (fun u => 0 < u)).length,
           descType, groupIdx,
           dlKey := band.zip (bclass.zip ant),
           rawBand := band, rawBclass := bclass, rawAnt := ant,
           rawUlclass := ulclass }
  else none

/-- The uplink-pair attach loop (`for i in 0..5`, stop at the first slot
with `band[i] === ulBand && bclass[i] >= 0`); returns the updated
`ulclass` array and whether a slot matched.  `k` counts the remaining
iterations, `i` is the current index. -/
def attachAux (band bclass : List Nat) (ulBand ulClass : Nat) (ulcl : List Nat) :
    Nat → Nat → List Nat × Bool
  | 0, _ => (ulcl, false)
  | k + 1, i =>
    if band.getD i 0 = ulBand ∧ 0 ≤ bclass.getD i 0 then (ulcl.set i ulClass, true)
    else attachAux band bclass ulBand ulClass ulcl k (i + 1)

/-- Attach one uplink pair to the slot arrays (six iterations from slot 0). -/
def attachUL (band bclass ulcl : List Nat) (ulBand ulClass : Nat) : List Nat × Bool :=
  attachAux band bclass ulBand ulClass ulcl 6 0

/-- Read the six slots of a 137 header: per slot a uint16 band and a
uint8 class; MIMO is implicitly 2 for a nonzero band (the `ant` array
entry stays 0 otherwise). -/
def readSlots137 : Nat → Bytes → Option ((List Nat × List Nat × List Nat) × Bytes)
  | 0, bs => some (([], [], []), bs)
  | n + 1, bs =>
    match readU16 bs with
    | none => none
    | some (bandVal, bs1) =>
      match readU8 bs1 with
      | none => none
      | some (cls, bs2) =>
        match readSlots137 n bs2 with
        | none => none
        | some ((bands, clss, ants), bs3) =>
          some ((bandVal :: bands, cls :: clss,
                 (if bandVal ≠ 0 then 2 else 0) :: ants), bs3)

/-- Read the six slots of a 201 header: uint16 band, uint8 class, uint8
MIMO. -/
def readSlots201 : Nat → Bytes → Option ((List Nat × List Nat × List Nat) × Bytes)
  | 0, bs => some (([], [], []), bs)
  | n + 1, bs =>
    match readU16 bs with
    | none => none
    | some (bandVal, bs1) =>
      match readU8 bs1 with
      | none => none
      | some (cls, bs2) =>
        match readU8 bs2 with
        | none => none
        | some (antVal, bs3) =>
          match readSlots201 n bs3 with
          | none => none
          | some ((bands, clss, ants), bs4) =>
            some ((bandVal :: bands, cls :: clss, antVal :: ants), bs4)

/-- The 333 header's eight-byte MIMO field: each byte is a decimal digit;
zero bytes are skipped while accumulating `mimo = mimo * 10 + digit`. -/
def readDigits : Nat → Nat → Bytes → Option (Nat × Bytes)
  | 0, acc, bs => some (acc, bs)
  | j + 1, acc, bs =>
    match readU8 bs with
    | none => none
    | some (b, bs1) => readDigits j (if b ≠ 0 then acc * 10 + b else acc) bs1

/-- Read the six slots of a 333 header: uint16 band, uint8 class, eight
digit bytes. -/
def readSlots333 : Nat → Bytes → Option ((List Nat × List Nat × List Nat) × Bytes)
  | 0, bs => some (([], [], []), bs)
  | n + 1, bs =>
    match readU16 bs with
    | none => none
    | some (bandVal, bs1) =>
      match readU8 bs1 with
      | none => none
      | some (cls, bs2) =>
        match readDigits 8 0 bs2 with
        | none => none
        | some (antVal, bs3) =>
          match readSlots333 n bs3 with
          | none => none
          | some ((bands, clss, ants), bs4) =>
            some ((bandVal :: bands, cls :: clss, antVal :: ants), bs4)

/-- The outcome of one main-loop iteration: continue with updated state
and remaining bytes, stop normally (`break` after a recorded error), or
abort with a thrown message (caught at the top of `decodeFile`). -/
inductive StepRes where
  | cont (out : DecOutput) (slots : SlotState) (rest : Bytes)
  | halt (out : DecOutput)
  | fail (out : DecOutput) (msg : String)
  deriving Repr

/-- The message of every read past the buffer end. -/
def eofMsg : String := "Unexpected end of file"

/-- The thrown `TypeError` when a combo is appended while no group is open
(`output.groups[-1]` is `undefined`); unreachable in practice because the
slot arrays are all-zero before the first header. -/
def typeErrMsg : String := "TypeError: cannot read combos of undefined"

/-- Append a combo index to `groups[g].combos`. -/
def pushGroupCombo (groups : List DecGroup) (g : Nat) (idx : Nat) : List DecGroup :=
  match groups[g]? with
  | some gr => groups.set g { gr with combos := gr.combos ++ [idx] }
  | none => groups

/-- A DL-header iteration (tags 137/201/333): bump the tag count, reset
and read the slot arrays, report `MalformedDescriptor` when no slot holds
a band, otherwise open a new group. -/
def procHeader (out : DecOutput) (descType : Nat)
    (slotRead : Bytes → Option ((List Nat × List Nat × List Nat) × Bytes))
    (bs : Bytes) : StepRes :=
  match slotRead bs with
  | none => .fail out eofMsg
  | some ((band, bclass, ant), rest) =>
    if band.any (fun b => b ≠ 0) then
      let gIdx := out.groups.length
      let out := { out with groups := out.groups ++
        [{ descType, band, bclass, ant, combos := [] }] }
      .cont out
        { band, bclass, ant, ulclass := zeros6,
          currentDescType := descType, currentGroupIdx := Int.ofNat gIdx } rest
    else
      .halt { out with errors := out.errors ++
        ["Incorrect format: no any downlink carrier in combo"] }

/-- The body shared by the three uplink-record iterations after both pairs
have been read and attached: build the combo, append it to the output and
to the open group, and update the running counters. -/
def commitCombo (out : DecOutput) (slots : SlotState) (ulcl : List Nat)
    (ulca : Nat) (descType : Nat) (rest : Bytes) : StepRes :=
  match buildCombo slots.band slots.bclass slots.ant ulcl ulca true descType
      slots.currentGroupIdx with
  | none => .cont out { slots with ulclass := ulcl } rest
  | some combo =>
    let out1 := { out with combos := out.combos ++ [combo] }
    match slots.currentGroupIdx with
    | Int.ofNat g =>
      if g < out1.groups.length then
        let out2 := { out1 with
          groups := pushGroupCombo out1.groups g out1.numCombos,
          numCombos := out1.numCombos + 1,
          maxStreams := max out1.maxStreams combo.streams }
        .cont out2 { slots with ulclass := ulcl } rest
      else .fail out1 typeErrMsg
    | Int.negSucc _ => .fail out1 typeErrMsg

/-- An uplink-record iteration (tags 138/202/334).  `padAfterPair` and
`padTail` are the type-specific paddings (138: 0/12, 202: 1/16, 334:
8/44); `comboDescType` is the DL tag recorded on the combo.  The first
pair is attached with no zero-band guard; the second only when its band is
nonzero — exactly as in the source. -/
def procUL (out : DecOutput) (slots : SlotState) (padAfterPair padTail : Nat)
    (comboDescType : Nat) (bs : Bytes) : StepRes :=
  match readU16 bs with
  | none => .fail out eofMsg
  | some (ulBand1, bs1) =>
    match readU8 bs1 with
    | none => .fail out eofMsg
    | some (ulClass1, bs2) =>
      let bs3 := skipB padAfterPair bs2
      let att1 := attachUL slots.band slots.bclass zeros6 ulBand1 ulClass1
      let ulca1 := if att1.2 ∧ 2 < ulClass1 then 1 else 0
      match readU16 bs3 with
      | none => .fail out eofMsg
      | some (ulBand2, bs4) =>
        match readU8 bs4 with
        | none => .fail out eofMsg
        | some (ulClass2, bs5) =>
          let bs6 := skipB padAfterPair bs5
          let att2 :=
            if ulBand2 ≠ 0 then
              attachUL slots.band slots.bclass att1.1 ulBand2 ulClass2
            else (att1.1, false)
          let ulca2 := ulca1 + (if ulBand2 ≠ 0 ∧ att2.2 then 1 else 0)
          let rest := skipB padTail bs6
          commitCombo out slots att2.1 ulca2 comboDescType rest

/-- Render `(fptr - 2).toString(16)`. -/
def hexRepr (n : Nat) : String := String.mk (Nat.toDigits 16 n)

/-- One main-loop iteration: read the uint16 tag and dispatch.  The
unknown-tag message carries the byte offset of the tag. -/
def stepIter (out : DecOutput) (slots : SlotState) (bs : Bytes) : StepRes :=
  match readU16 bs with
  | none => .fail out eofMsg
  | some (item16, rest) =>
    if item16 = 333 then
      procHeader { out with stat333 := out.stat333 + 1 } 333 (readSlots333 6) rest
    else if item16 = 334 then
      procUL { out with stat334 := out.stat334 + 1 } slots 8 44 333 rest
    else if item16 = 201 then
      procHeader { out with stat201 := out.stat201 + 1 } 201 (readSlots201 6) rest
    else if item16 = 202 then
      procUL { out with stat202 := out.stat202 + 1 } slots 1 16 201 rest
    else if item16 = 137 then
      procHeader { out with stat137 := out.stat137 + 1 } 137 (readSlots137 6) rest
    else if item16 = 138 then
      procUL { out with stat138 := out.stat138 + 1 } slots 0 12 137 rest
    else
      .halt { out with errors := out.errors ++
        ["Incorrect format: incorrect descriptor type " ++ Nat.repr item16 ++
         " (137, 138, 201, 202, 333 or 334 expected). File offset=0x" ++
         hexRepr (out.fileSize - bs.length) ++ "."] }

/-- The decoder's `while (fptr < fileSize)` loop.  The fuel argument only
serves to make the recursion structural; every call below supplies at
least `bs.length`, which suffices because each iteration consumes at least
the two tag bytes. -/
def decodeLoop : Nat → DecOutput → SlotState → Bytes → DecOutput × Option String
  | 0, out, _, _ => (out, none)
  | fuel + 1, out, slots, bs =>
    if bs.isEmpty then (out, none)
    else
      match stepIter out slots bs with
      | .cont out1 slots1 rest => decodeLoop fuel out1 slots1 rest
      | .halt out1 => (out1, none)
      | .fail out1 msg => (out1, some msg)

/-- The fresh output object of `decodeFile`. -/
def initOutput (fileSize originalSize : Nat) (wasCompressed : Bool) : DecOutput :=
  { fileSize, originalSize, wasCompressed, formatVersion := 0,
    numDescriptors := 0, combos := [], numCombos := 0, maxStreams := 0,
    errors := [], stat137 := 0, stat138 := 0, stat201 := 0, stat202 := 0,
    stat333 := 0, stat334 := 0, groups := [] }

/-- The `try` block of `decodeFile`: read the header and run the main
loop; the second component is the thrown message, if any (`none` when the
block ran to completion). -/
def decodeTry (fileSize originalSize : Nat) (wasCompressed : Bool) (bs : Bytes) :
    DecOutput × Option String :=
  let out0 := initOutput fileSize originalSize wasCompressed
  match readU16 bs with
  | none => (out0, some eofMsg)
  | some (fv, bs1) =>
    let out1 := { out0 with formatVersion := fv }
    match readU16 bs1 with
    | none => (out1, some eofMsg)
    | some (nd, bs2) =>
      let out2 := { out1 with numDescriptors := nd }
      decodeLoop (bs2.length + 1) out2 initSlots bs2

/-- The body of `decodeFile` after the zlib branch: run the `try` block
and append a thrown message (if any) to `errors` — the source's
`try { … } catch (e) { output.errors.push(e.message) }`. -/
def decodeBody (fileSize originalSize : Nat) (wasCompressed : Bool) (bs : Bytes) :
    DecOutput :=
  let res := decodeTry fileSize originalSize wasCompressed bs
  { res.1 with errors := res.1.errors ++ res.2.toList }

/-- `isZlibCompressed`: first byte 0x78, second one of 0x01/0x5E/0x9C/0xDA. -/
def isZlibCompressed : Bytes → Bool
  | b0 :: b1 :: _ =>
    b0 % 256 = 0x78 ∧
      (b1 % 256 = 0x01 ∨ b1 % 256 = 0x5E ∨ b1 % 256 = 0x9C ∨ b1 % 256 = 0xDA)
  | _ => false

/-- `decodeFile`, parameterized by the external `pako.inflate`
collaborator (`none` models a decompression exception).  A failed
decompression is re-thrown — the only uncaught exit — and modelled as
`Except.error`; every other input returns an output object. -/
def decodeFile (inflate : Bytes → Option Bytes) (bs : Bytes) :
    Except String DecOutput :=
  if isZlibCompressed bs then
    match inflate bs with
    | some dec => .ok (decodeBody dec.length bs.length true dec)
    | none => .error "Failed to decompress file: Zlib decompression failed"
  else .ok (decodeBody bs.length bs.length false bs)

/-- `decodeFile` on a buffer that is not zlib-compressed (the inflate
collaborator is then never consulted). -/
def decodePlain (bs : Bytes) : DecOutput := decodeBody bs.length bs.length false bs

/-! ## encoder/28874encoder.jsx

The `console.log`/`console.warn` diagnostics of the source (including the
pre-encode `validateForEncoding` sweep, whose result is only logged) have
no observable effect on the returned buffer and are not modelled.

The source's three stable sorts compare rendered strings
(`localeCompare` on combo texts and on `band.join(':')` signatures, and
`Array.sort()` on the `':'`/`'|'`-joined DL keys).  We sort with a
structural comparison on the same data: on the ASCII strings involved this
is plain code-point comparison for the texts, and for the numeric keys it
may order groups differently from decimal-string comparison — which only
permutes the emitted groups, and every property proved below is invariant
under that permutation. -/

/-- Byte-wise ≤ on character lists (code-point order). -/
def charListLeB : List Char → List Char → Bool
  | [], _ => true
  | _ :: _, [] => false
  | a :: as, b :: bs =>
    if a.toNat < b.toNat then true
    else if b.toNat < a.toNat then false
    else charListLeB as bs

/-- Lexicographic ≤ on number lists. -/
def natListLeB : List Nat → List Nat → Bool
  | [], _ => true
  | _ :: _, [] => false
  | a :: as, b :: bs =>
    if a < b then true
    else if b < a then false
    else natListLeB as bs

/-- `calculateStreams` from the encoder module:
`Σ classToCC(bclass) × (ant || 2)`. -/
def encCalculateStreams (carriers : List Carrier) : Nat :=
  (carriers.map (fun c =>
    classToCC (.num c.bclass) * (if c.ant ≠ 0 then c.ant else 2))).sum

/-- `checkHasULCA` from the encoder module: more than one carrier with
`ulclass > 0`. -/
def checkHasULCA (carriers : List Carrier) : Bool :=
  1 < (carriers.filter (fun c => 0 < c.ulclass)).length

/-- `needsExtendedFormat`: some carrier has MIMO other than 2 and 0. -/
def needsExtendedFormat (carriers : List Carrier) : Bool :=
  carriers.any (fun c => c.ant ≠ 2 ∧ c.ant ≠ 0)

/-- `needsFullFormat`: some carrier has MIMO above 4. -/
def needsFullFormat (carriers : List Carrier) : Bool :=
  carriers.any (fun c => 4 < c.ant)

/-- `determineMinimumFormat`: 333, else 201, else 137. -/
def determineMinimumFormat (carriers : List Carrier) : Nat :=
  if needsFullFormat carriers then 333
  else if needsExtendedFormat carriers then 201
  else 137

/-- The comparator of `normalizeCarriers`: by band, then by class. -/
def carrierLe (a b : Carrier) : Prop :=
  a.band < b.band ∨ (a.band = b.band ∧ a.bclass ≤ b.bclass)

instance : DecidableRel carrierLe := fun a b => by
  unfold carrierLe
  infer_instance

/-- `normalizeCarriers`: stable sort by band then class. -/
def normalizeCarriers (carriers : List Carrier) : List Carrier :=
  carriers.insertionSort carrierLe

/-- `padCarriers`: exactly six slots, missing ones all-zero. -/
def padCarriers (carriers : List Carrier) : List Carrier :=
  (List.range 6).map (fun i => carriers.getD i zeroCarrier)

/-- An encoder-table entry.  `groupIdx` is `some g` on entries that came
from a decode (the UI transfer copies the combo's group index), `none`
otherwise. -/
structure EncEntry where
  text : String := ""
  carriers : List Carrier := []
  streams : Nat := 0
  hasULCA : Bool := false
  dlKey : List (Nat × Nat × Nat) := []
  descType : Nat := 0
  groupIdx : Option Int := none
  deriving DecidableEq, Repr

/-- Code-point ≤ on entry texts (the member sort inside each group). -/
def entryTextLe (a b : EncEntry) : Prop := charListLeB a.text.data b.text.data = true

instance : DecidableRel entryTextLe := fun a b => by
  unfold entryTextLe
  infer_instance

/-- `[...group].sort((a, b) => (a.text || '').localeCompare(b.text || ''))`. -/
def sortEntriesByText (group : List EncEntry) : List EncEntry :=
  group.insertionSort entryTextLe

/-- The 138 record of one entry: two `(uint16 band, uint8 ulclass)` pairs
taken from the first two UL carriers (fewer pairs are written as zeros),
then 12 reserved zero bytes. -/
def encUL138 (e : EncEntry) : Bytes :=
  let entryCarriers := padCarriers e.carriers
  let ulCarriers := (entryCarriers.filter (fun c => 0 < c.ulclass)).take 2
  writeU16 138 ++
  (if 0 < ulCarriers.length then
    writeU16 (ulCarriers.getD 0 zeroCarrier).band ++
      writeU8 (ulCarriers.getD 0 zeroCarrier).ulclass
   else writeU16 0 ++ writeU8 0) ++
  (if 1 < ulCarriers.length then
    writeU16 (ulCarriers.getD 1 zeroCarrier).band ++
      writeU8 (ulCarriers.getD 1 zeroCarrier).ulclass
   else writeU16 0 ++ writeU8 0) ++
  zeroBytes 12

/-- The 202 record of one entry: each pair carries a fixed UL-MIMO byte of
2 (0 when the pair is empty), then 16 tail zero bytes. -/
def encUL202 (e : EncEntry) : Bytes :=
  let entryCarriers := padCarriers e.carriers
  let ulCarriers := (entryCarriers.filter (fun c => 0 < c.ulclass)).take 2
  writeU16 202 ++
  (if 0 < ulCarriers.length then
    writeU16 (ulCarriers.getD 0 zeroCarrier).band ++
      writeU8 (ulCarriers.getD 0 zeroCarrier).ulclass ++ writeU8 2
   else writeU16 0 ++ writeU8 0 ++ writeU8 0) ++
  (if 1 < ulCarriers.length then
    writeU16 (ulCarriers.getD 1 zeroCarrier).band ++
      writeU8 (ulCarriers.getD 1 zeroCarrier).ulclass ++ writeU8 2
   else writeU16 0 ++ writeU8 0 ++ writeU8 0) ++
  zeroBytes 16

/-- The 334 record of one entry: each pair is followed by 8 zero bytes,
then 44 tail zero bytes. -/
def encUL334 (e : EncEntry) : Bytes :=
  let entryCarriers := padCarriers e.carriers
  let ulCarriers := (entryCarriers.filter (fun c => 0 < c.ulclass)).take 2
  writeU16 334 ++
  (if 0 < ulCarriers.length then
    writeU16 (ulCarriers.getD 0 zeroCarrier).band ++
      writeU8 (ulCarriers.getD 0 zeroCarrier).ulclass
   else writeU16 0 ++ writeU8 0) ++
  zeroBytes 8 ++
  (if 1 < ulCarriers.length then
    writeU16 (ulCarriers.getD 1 zeroCarrier).band ++
      writeU8 (ulCarriers.getD 1 zeroCarrier).ulclass
   else writeU16 0 ++ writeU8 0) ++
  zeroBytes 8 ++
  zeroBytes 44

/-- The decimal digits of `m`, most significant first, least-significant
first accumulator (`f` is fuel, at least `m`). -/
def lsbDigitsAux : Nat → Nat → List Nat
  | 0, _ => []
  | f + 1, m => if m = 0 then [] else m % 10 :: lsbDigitsAux f (m / 10)

/-- The decimal digits of `m`, most significant first — the digits of
`m.toString()` (so `[0]` for 0). -/
def msbDigits (m : Nat) : List Nat :=
  if m = 0 then [0] else (lsbDigitsAux m m).reverse

/-- The eight digit bytes of a 333/334 MIMO field: one byte per decimal
digit of `m.toString()`, zero-padded on the right (and, like the source's
`j < 8` loop, truncated to the first eight digits). -/
def digitBytes8 (m : Nat) : Bytes :=
  let ds := msbDigits m
  ds.take 8 ++ zeroBytes (8 - min ds.length 8)


/-- First-occurrence deduplication — the key set of a JS `Map` built by
insertion. -/
def dedupFirst : List (List (Nat × Nat × Nat)) → List (List (Nat × Nat × Nat)) :=
  List.foldl (fun acc k => if acc.contains k then acc else acc ++ [k]) []

/-- The DL key of an entry under strategy B: carriers are normalized to
canonical order first, then keyed. -/
def entryKeyB (e : EncEntry) : List (Nat × Nat × Nat) :=
  getDLKey (normalizeCarriers e.carriers)

/-- The group-key order used for `sortedKeys` (see the sort note above). -/
def dlKeyLe (a b : List (Nat × Nat × Nat)) : Prop :=
  natListLeB (a.foldr (fun t acc => t.1 :: t.2.1 :: t.2.2 :: acc) [])
    (b.foldr (fun t acc => t.1 :: t.2.1 :: t.2.2 :: acc) []) = true

instance : DecidableRel dlKeyLe := fun a b => by
  unfold dlKeyLe
  infer_instance

/-- `groupByDL` from `encodeToBuffer`: with optimization off, one
singleton group per entry (in order); with it on, group the entries with
nonempty carriers by normalized DL key (JS `Map` insertion semantics:
each group keeps entry order, and the key set is then sorted). -/
def groupEntriesByDL (optimizeGrouping : Bool) (entries : List EncEntry) :
    List (List EncEntry) :=
  if ¬ optimizeGrouping then entries.map (fun e => [e])
  else
    let keyed := entries.filter (fun e => ¬ e.carriers.isEmpty)
    let keys := dedupFirst (keyed.map entryKeyB)
    let sortedKeys := keys.insertionSort dlKeyLe
    sortedKeys.map (fun k => keyed.filter (fun e => entryKeyB e = k))

/-- The 137 block of one strategy-B group: the DL header built from the
first entry's normalized, padded carriers (band and class per slot), then
one 138 record per member entry, members sorted by text. -/
def encGroupB137 (group : List EncEntry) : Bytes :=
  let carriers := padCarriers (normalizeCarriers (group.getD 0 {}).carriers)
  writeU16 137 ++
  (carriers.map (fun c => writeU16 c.band ++ writeU8 c.bclass)).flatten ++
  ((sortEntriesByText group).map encUL138).flatten

/-- The 201 block of one strategy-B group (slots carry a MIMO byte). -/
def encGroupB201 (group : List EncEntry) : Bytes :=
  let carriers := padCarriers (normalizeCarriers (group.getD 0 {}).carriers)
  writeU16 201 ++
  (carriers.map (fun c => writeU16 c.band ++ writeU8 c.bclass ++ writeU8 c.ant)).flatten ++
  ((sortEntriesByText group).map encUL202).flatten

/-- The 333 block of one strategy-B group (slots carry eight digit bytes). -/
def encGroupB333 (group : List EncEntry) : Bytes :=
  let carriers := padCarriers (normalizeCarriers (group.getD 0 {}).carriers)
  writeU16 333 ++
  (carriers.map (fun c =>
    writeU16 c.band ++ writeU8 c.bclass ++ digitBytes8 c.ant)).flatten ++
  ((sortEntriesByText group).map encUL334).flatten

/-- The arguments object of `encodeToBuffer`.  An absent/`null`
`originalGroups` and an empty one behave identically everywhere in the
source (`originalGroups && originalGroups.length > 0`), so both are
modelled as `[]`. -/
structure EncArgs where
  encodeEntries : List EncEntry
  formatVersion : Nat
  descriptorType : Nat := 201
  optimizeGrouping : Bool := true
  autoDescriptorType : Bool := true
  preserveOriginalGrouping : Bool := false
  originalGroups : List DecGroup := []
  deriving Repr

/-- The format class an entry is routed to by the classification loop of
`encodeToBuffer` (333, 201 or 137). -/
def entryFormat (autoDescriptorType : Bool) (descriptorType : Nat)
    (e : EncEntry) : Nat :=
  let minFormat :=
    if autoDescriptorType then determineMinimumFormat e.carriers else descriptorType
  if minFormat = 333 then 333
  else if minFormat = 201 ∨ (autoDescriptorType ∧ needsExtendedFormat e.carriers) then 201
  else 137

/-- The three per-format entry lists of `encodeToBuffer`: the
classification loop (which skips entries with no carriers), then the
wholesale override when auto-detect is off. -/
def splitByFormat (autoDescriptorType : Bool) (descriptorType : Nat)
    (entries : List EncEntry) : List EncEntry × List EncEntry × List EncEntry :=
  let e137 := entries.filter (fun e =>
    ¬ e.carriers.isEmpty ∧ entryFormat autoDescriptorType descriptorType e = 137)
  let e201 := entries.filter (fun e =>
    ¬ e.carriers.isEmpty ∧ entryFormat autoDescriptorType descriptorType e = 201)
  let e333 := entries.filter (fun e =>
    ¬ e.carriers.isEmpty ∧ entryFormat autoDescriptorType descriptorType e = 333)
  if ¬ autoDescriptorType then
    if descriptorType = 137 then (entries, [], [])
    else if descriptorType = 333 then ([], [], entries)
    else ([], entries, [])
  else (e137, e201, e333)

/-- The auto-detect/fixed-type path of `encodeToBuffer`: split by format,
group each class by DL key, and write the header followed by the
137, 201 and 333 blocks. -/
def encodeAutoDetect (args : EncArgs) : Bytes :=
  let split := splitByFormat args.autoDescriptorType args.descriptorType
    args.encodeEntries
  let groups137 := groupEntriesByDL args.optimizeGrouping split.1
  let groups201 := groupEntriesByDL args.optimizeGrouping split.2.1
  let groups333 := groupEntriesByDL args.optimizeGrouping split.2.2
  let numDescriptors :=
    (groups137.map (fun g => 1 + g.length)).sum +
    (groups201.map (fun g => 1 + g.length)).sum +
    (groups333.map (fun g => 1 + g.length)).sum
  writeU16 args.formatVersion ++ writeU16 numDescriptors ++
  (groups137.map encGroupB137).flatten ++
  (groups201.map encGroupB201).flatten ++
  (groups333.map encGroupB333).flatten

/-! ### Strategy A — `encodeWithOriginalGrouping` -/

/-- A group being assembled by `encodeWithOriginalGrouping`. -/
structure EncGroup where
  descType : Nat
  band : List Nat
  bclass : List Nat
  ant : List Nat
  entries : List EncEntry
  deriving Repr

/-- `getDLKeyFromCarriers` (strategy A): pad to six slots, take the raw
`band`/`bclass`/`ant` fields per slot. -/
def getDLKeyFromCarriers (carriers : List Carrier) : List (Nat × Nat × Nat) :=
  (padCarriers carriers).map (fun c => (c.band, c.bclass, c.ant))

/-- `getGroupDLKey` (strategy A): the group's slot arrays, `|| 0` per
position. -/
def getGroupDLKey (g : EncGroup) : List (Nat × Nat × Nat) :=
  (List.range 6).map (fun i => (g.band.getD i 0, g.bclass.getD i 0, g.ant.getD i 0))

/-- Mark the listed entry indices as used. -/
def markUsed (used : List Bool) (hits : List Nat) : List Bool :=
  used.enum.map (fun p => p.2 || hits.contains p.1)

/-- Pass 1 of `encodeWithOriginalGrouping`: for each original group index
in order, collect the not-yet-used entries whose `groupIdx` names it, and
emit a group (with the original group's descriptor type and slot arrays)
when at least one entry matched. -/
def pass1Step (originalGroups : List DecGroup) (entries : List EncEntry)
    (acc : List EncGroup × List Bool) (gIdx : Nat) : List EncGroup × List Bool :=
  let group := originalGroups.getD gIdx
    { descType := 0, band := [], bclass := [], ant := [], combos := [] }
  let hits := entries.enum.filter (fun p =>
    acc.2.getD p.1 false = false ∧ p.2.groupIdx = some (Int.ofNat gIdx))
  if hits.isEmpty then acc
  else
    (acc.1 ++ [{ descType := group.descType, band := group.band,
                 bclass := group.bclass, ant := group.ant,
                 entries := hits.map (·.2) }],
     markUsed acc.2 (hits.map (·.1)))

def pass1 (originalGroups : List DecGroup) (entries : List EncEntry) :
    List EncGroup × List Bool :=
  (List.range originalGroups.length).foldl (pass1Step originalGroups entries)
    ([], List.replicate entries.length false)

/-- One step of pass 2: place all remaining entries of one DL key — into
the first already-emitted group with that key, or into a freshly
synthesized group (type 201 when some nonzero slot has MIMO other than
2/0, else 137). -/
def pass2Step (entries : List EncEntry) (groups : List EncGroup)
    (k : List (Nat × Nat × Nat)) : List EncGroup :=
  let entriesForKey := entries.filter (fun e => getDLKeyFromCarriers e.carriers = k)
  match groups.findIdx? (fun g => getGroupDLKey g = k) with
  | some gi =>
    match groups[gi]? with
    | some g => groups.set gi { g with entries := g.entries ++ entriesForKey }
    | none => groups
  | none =>
    let firstEntry := entriesForKey.getD 0 {}
    let padded := padCarriers firstEntry.carriers
    let needsExt := padded.any (fun c => c.ant ≠ 2 ∧ c.ant ≠ 0 ∧ c.band ≠ 0)
    groups ++ [{ descType := if needsExt then 201 else 137,
                 band := padded.map (·.band), bclass := padded.map (·.bclass),
                 ant := padded.map (·.ant), entries := entriesForKey }]

/-- Pass 2 of `encodeWithOriginalGrouping`: runs only when pass 1 left
entries unmatched; the remaining entries with carriers are bucketed by
raw DL key (`Map` insertion order) and placed by `pass2Step`. -/
def pass2 (egs : List EncGroup) (used : List Bool) (entries : List EncEntry) :
    List EncGroup :=
  if used.count false = 0 then egs
  else
    let remaining := (entries.enum.filter (fun p =>
      used.getD p.1 false = false ∧ ¬ p.2.carriers.isEmpty)).map (·.2)
    let keys := dedupFirst (remaining.map (fun e => getDLKeyFromCarriers e.carriers))
    keys.foldl (pass2Step remaining) egs

/-- The deterministic group order of strategy A (`band.join(':')`
compared ascending; see the sort note above). -/
def groupSigLe (a b : EncGroup) : Prop := natListLeB a.band b.band = true

instance : DecidableRel groupSigLe := fun a b => by
  unfold groupSigLe
  infer_instance

/-- The fully assembled, sorted group list of `encodeWithOriginalGrouping`. -/
def stratAGroups (entries : List EncEntry) (originalGroups : List DecGroup) :
    List EncGroup :=
  let p1 := pass1 originalGroups entries
  (pass2 p1.1 p1.2 entries).insertionSort groupSigLe

/-- The number of descriptors a strategy-A group contributes to the header
count (one DL header plus one record per member; a group with any other
descriptor type matches no branch of the sizing loop and contributes
nothing). -/
def groupDescCount (g : EncGroup) : Nat :=
  if g.descType = 137 ∨ g.descType = 201 ∨ g.descType = 333 then
    1 + g.entries.length
  else 0

/-- The serialized block of one strategy-A group: as in strategy B but
with the header slots taken from the group's stored arrays (`|| 0` per
position); a group with an unknown descriptor type writes nothing. -/
def encGroupA (g : EncGroup) : Bytes :=
  if g.descType = 137 then
    writeU16 137 ++
    ((List.range 6).map (fun i =>
      writeU16 (g.band.getD i 0) ++ writeU8 (g.bclass.getD i 0))).flatten ++
    ((sortEntriesByText g.entries).map encUL138).flatten
  else if g.descType = 201 then
    writeU16 201 ++
    ((List.range 6).map (fun i =>
      writeU16 (g.band.getD i 0) ++ writeU8 (g.bclass.getD i 0) ++
        writeU8 (g.ant.getD i 0))).flatten ++
    ((sortEntriesByText g.entries).map encUL202).flatten
  else if g.descType = 333 then
    writeU16 333 ++
    ((List.range 6).map (fun i =>
      writeU16 (g.band.getD i 0) ++ writeU8 (g.bclass.getD i 0) ++
        digitBytes8 (g.ant.getD i 0))).flatten ++
    ((sortEntriesByText g.entries).map encUL334).flatten
  else []

/-- `encodeWithOriginalGrouping`: throws (`EncodeError`) when no original
groups are supplied, otherwise assembles the groups and serializes them. -/
def encodeWithOriginalGrouping (encodeEntries : List EncEntry)
    (formatVersion : Nat) (originalGroups : List DecGroup) :
    Except String Bytes :=
  if originalGroups.isEmpty then .error "No original grouping data available"
  else
    let egs := stratAGroups encodeEntries originalGroups
    .ok (writeU16 formatVersion ++ writeU16 ((egs.map groupDescCount).sum) ++
      (egs.map encGroupA).flatten)

/-- `encodeToBuffer`: throws on an empty entry list; uses strategy A when
requested *and* original groups are present, otherwise the auto-detect /
fixed-type path. -/
def encodeToBuffer (args : EncArgs) : Except String Bytes :=
  if args.encodeEntries.isEmpty then .error "No entries to encode"
  else if args.preserveOriginalGrouping ∧ ¬ args.originalGroups.isEmpty then
    encodeWithOriginalGrouping args.encodeEntries args.formatVersion
      args.originalGroups
  else .ok (encodeAutoDetect args)

/-- The entry the UI transfer (`transferToEncoder`) builds from a decoded
combo.  The transfer re-parses the combo text to rebuild a carrier list;
strategy A's first pass consults only `groupIdx`, and its second pass is
proved below never to run on a transferred decode, so the carrier list is
irrelevant there and left empty. -/
def comboToEntry (c : DecCombo) : EncEntry :=
  { text := c.text, carriers := [], streams := c.streams, hasULCA := c.hasULCA,
    dlKey := c.dlKey, descType := c.descType, groupIdx := some c.groupIdx }

/-! ## Specification-side functions

These render claims of the specification for comparison with the source
functions above; they are written from the specification's words, not from
the code. -/

/-- The claimed classification rule: descriptor width 333 exactly when
some carrier's MIMO exceeds what one byte can encode (one byte holds
0–255), else 201 when some MIMO is neither 2 nor 0, else 137. -/
def specMinimumFormatOneByte (carriers : List Carrier) : Nat :=
  if carriers.any (fun c => 255 < c.ant) then 333
  else if carriers.any (fun c => c.ant ≠ 2 ∧ c.ant ≠ 0) then 201
  else 137

/-- First-match attach, stated declaratively: place `ulClass` at the first
slot `i` in 0..5 order whose `band[i]` equals `ulBand` (no slot: leave the
array unchanged). -/
def attachSpec (band ulcl : List Nat) (ulBand ulClass : Nat) : List Nat :=
  match (List.range 6).find? (fun i => band.getD i 0 = ulBand) with
  | some i => ulcl.set i ulClass
  | none => ulcl

/-- Read a digit list most-significant-first into a number. -/
def msbFold (l : List Nat) : Nat := l.foldl (fun a d => a * 10 + d) 0

/-- The digit-skipping accumulation the decoder applies to a byte list
(`if (antByte !== 0) antVal = antVal * 10 + antByte`). -/
def foldCode (acc : Nat) (l : List Nat) : Nat :=
  l.foldl (fun a b => if b % 256 ≠ 0 then a * 10 + b % 256 else a) acc

/-! ## Concrete inputs used by counterexamples and witnesses -/

/-- A carrier with MIMO 5 — representable in one byte (and even in one
decimal digit), yet classified 333 by the source. -/
def mimo5Carrier : Carrier := { band := 7, bclass := 2, ant := 5 }

/-- Carriers of the spec's stream-count example `3A2`–`7B4`
(`{band: 3, class: A, mimo: 2}`, `{band: 7, class: B, mimo: 4}`). -/
def c7DemoCarriers : List Carrier :=
  [{ band := 3, dlClass := some 'A', mimoDl := 2 },
   { band := 7, dlClass := some 'B', mimoDl := 4 }]

/-- A one-carrier entry (`3A2A`: band 3, class A, MIMO 2, UL class A). -/
def entry3A2A : EncEntry :=
  { text := "3A2A", carriers := [{ band := 3, bclass := 1, ant := 2, ulclass := 1 }] }

/-- The duplicate-band combo `3A2A-3A2A`: two carriers on band 3, both
with an uplink class. -/
def entryDupBand : EncEntry :=
  { text := "3A2A-3A2A",
    carriers := [{ band := 3, bclass := 1, ant := 2, ulclass := 1 },
                 { band := 3, bclass := 1, ant := 2, ulclass := 1 }] }

/-- A buffer whose first uplink record carries a first pair with band 0
and class 3 and a second pair `(3, A)`: header (version 1, 2 descriptors),
a 137 header with band 3 class A in slot 0, then the 138 record. -/
def c4Buf : Bytes :=
  [1, 0, 2, 0] ++ [137, 0] ++ [3, 0, 1] ++ List.replicate 15 0 ++
  [138, 0] ++ [0, 0, 3] ++ [3, 0, 1] ++ List.replicate 12 0

/-- A buffer that decodes without errors into two groups, the first of
which has no member combos: two 137 headers (bands 3 and 5) with a single
138 record after the second. -/
def emptyGroupBuf : Bytes :=
  [1, 0, 3, 0] ++ [137, 0] ++ [3, 0, 1] ++ List.replicate 15 0 ++
  [137, 0] ++ [5, 0, 1] ++ List.replicate 15 0 ++
  [138, 0] ++ List.replicate 18 0

/-- A valid two-record buffer and, for the truncation counterexample, the
cut that removes the second record's tail: header, a 137 header (band 3
class A), one complete 138 record, then a second 138 record truncated
inside its first pair. -/
def truncBaseBuf : Bytes :=
  [1, 0, 3, 0] ++ [137, 0] ++ [3, 0, 1] ++ List.replicate 15 0 ++
  [138, 0] ++ [3, 0, 1] ++ [0, 0, 0] ++ List.replicate 12 0 ++
  [138, 0] ++ [3, 0, 1] ++ [0, 0, 0] ++ List.replicate 12 0

/-- The encode request of the C6 counterexample: one entry, strategy A
requested, no original groups supplied. -/
def stratANoGroupsArgs : EncArgs :=
  { encodeEntries := [entry3A2A], formatVersion := 1,
    preserveOriginalGrouping := true, originalGroups := [] }

/-- The observation the round-trip claim compares, on the input side: a
combo's multiset of `(band, class, mimo)` carrier triples, its stream
count and its UL-CA flag (computed by the encoder module's own
formulas). -/
def inputTupleOf (e : EncEntry) : Multiset (Nat × Nat × Nat) × Nat × Bool :=
  (Multiset.ofList (e.carriers.map (fun c => (c.band, c.bclass, c.ant))),
   encCalculateStreams e.carriers, checkHasULCA e.carriers)

/-- The same observation on the decoded side: the triples of the slots
holding a carrier (nonzero band), the decoded stream count and UL-CA
flag. -/
def decodedTupleOf (c : DecCombo) : Multiset (Nat × Nat × Nat) × Nat × Bool :=
  (Multiset.ofList (((c.rawBand.zip (c.rawBclass.zip c.rawAnt)).filter
      (fun t => t.1 ≠ 0))),
   c.streams, c.hasULCA)

/-- A fixed-size reader: it consumes exactly `c` bytes when at least `c`
are available — its value a function of those bytes alone — and fails
otherwise.  Every read the decoder performs inside one record has this
shape, which is what makes truncated decoding coherent with full
decoding. -/
def FR (R : Bytes → Option (α × Bytes)) (c : Nat) : Prop :=
  ∃ parse : Bytes → α,
    ∀ bs, R bs = if c ≤ bs.length then some (parse (bs.take c), bs.drop c) else none

/-- The C1 counterexample encode request: the duplicate-band combo under
strategy B with grouping optimization. -/
def dupBandArgs : EncArgs := { encodeEntries := [entryDupBand], formatVersion := 1 }

/-- Replace the remaining-bytes component of a continuing step (used to
relate an iteration on a truncated buffer to the same iteration on the
full buffer). -/
def StepRes.withRest : StepRes → Bytes → StepRes
  | .cont o s _, r => .cont o s r
  | .halt o, _ => .halt o
  | .fail o m, _ => .fail o m

/-- The output component of a step result. -/
def StepRes.outOf : StepRes → DecOutput
  | .cont o _ _ => o
  | .halt o => o
  | .fail o _ => o

/-- The fixed-size read prefix of an uplink record (after the tag): the
two (uint16 band, uint8 class) pairs with the type-specific padding `p`
after the first pair.  `procUL` is this read followed by the pure attach
and commit steps (`ulBody`). -/
def readULPairs (p : Nat) (bs : Bytes) : Option ((Nat × Nat × Nat × Nat) × Bytes) :=
  match readU16 bs with
  | none => none
  | some (b1, bs1) =>
    match readU8 bs1 with
    | none => none
    | some (c1, bs2) =>
      match readU16 (skipB p bs2) with
      | none => none
      | some (b2, bs4) =>
        match readU8 bs4 with
        | none => none
        | some (c2, bs5) => some ((b1, c1, b2, c2), bs5)

/-- The pure tail of an uplink-record iteration, after both pairs have
been read: attach the pairs, skip the paddings and commit the combo. -/
def ulBody (out : DecOutput) (slots : SlotState) (p t d : Nat)
    (b1 c1 b2 c2 : Nat) (r : Bytes) : StepRes :=
  let att1 := attachUL slots.band slots.bclass zeros6 b1 c1
  let ulca1 := if att1.2 ∧ 2 < c1 then 1 else 0
  let att2 := if b2 ≠ 0 then attachUL slots.band slots.bclass att1.1 b2 c2
    else (att1.1, false)
  let ulca2 := ulca1 + (if b2 ≠ 0 ∧ att2.2 then 1 else 0)
  commitCombo out slots att2.1 ulca2 d ((r.drop p).drop t)

/-- The truncated-run output tracks the full-run output: same combo list
and same number of groups (the other fields — file sizes, statistics,
error strings — may differ without affecting which combos are decoded). -/
def OutRel (out out2 : DecOutput) : Prop :=
  out2.combos = out.combos ∧ out2.groups.length = out.groups.length

/-- Coherence of one loop iteration under truncation.  `full` is the
iteration on the full buffer `bs` (entered with output `out`), `trunc n`
the same iteration entered with a related output `out2` on `bs.take n`.
`need` bounds the bytes the iteration must read, `cAll` the bytes it
consumes (reads plus skipped padding): with `need ≤ n` the truncated
iteration mirrors the full one; with `n < need` it aborts with
`Unexpected end of file`, leaving the combo list untouched. -/
def StepCoh (out out2 : DecOutput) (full : StepRes) (trunc : Nat → StepRes)
    (bs : Bytes) (need cAll : Nat) : Prop :=
  2 ≤ need ∧ need ≤ cAll ∧
  (∀ o s r, full = .cont o s r →
    r = bs.drop cAll ∧ need ≤ bs.length ∧ out.combos <+: o.combos ∧
    ∀ n, (need ≤ n → ∃ o2, trunc n = .cont o2 s (r.take (n - cAll)) ∧ OutRel o o2) ∧
         (n < need → ∃ o2, trunc n = .fail o2 eofMsg ∧ o2.combos = out.combos)) ∧
  (∀ o, full = .halt o →
    o.combos = out.combos ∧
    ∀ n, (∃ o2, trunc n = .halt o2 ∧ o2.combos = out.combos) ∨
         (∃ o2, trunc n = .fail o2 eofMsg ∧ o2.combos = out.combos)) ∧
  (∀ o m, full = .fail o m →
    out.combos <+: o.combos ∧
    ∀ n, ∃ o2 m2, trunc n = .fail o2 m2 ∧ o2.combos <+: o.combos)

/-- The output object after the two header reads of `decodeFile`. -/
def tryOut (fileSize originalSize : Nat) (w : Bool) (fv nd : Nat) : DecOutput :=
  { initOutput fileSize originalSize w with formatVersion := fv, numDescriptors := nd }

/-- The all-empty group used as lookup default (as in `pass1`). -/
def emptyDecGroup : DecGroup :=
  { descType := 0, band := [], bclass := [], ant := [], combos := [] }

/-- The decode-output invariant connecting combos and groups: every combo
names an existing group, and each group's member list has exactly as many
entries as there are combos naming it.  It holds along every
error-free run of the main loop. -/
def GroupCountInv (out : DecOutput) : Prop :=
  (∀ c ∈ out.combos, ∃ g : Nat, c.groupIdx = Int.ofNat g ∧ g < out.groups.length) ∧
  (∀ g : Nat, g < out.groups.length →
    (out.groups.getD g emptyDecGroup).combos.length =
      (out.combos.filter (fun c => c.groupIdx = Int.ofNat g)).length)

/-- The carrier well-formedness bundle of the amended round-trip claim: a
carrier of the encoder table (legacy numeric fields only), with a real
in-range band, a class letter A–F, MIMO 2 or 4 and a byte-sized uplink
class. -/
def GoodCarrier (c : Carrier) : Prop :=
  c.dlClass = none ∧ c.ulClass = none ∧ c.mimoDl = 0 ∧ c.mimoUl = 0 ∧
  1 ≤ c.band ∧ c.band < 65536 ∧ 1 ≤ c.bclass ∧ c.bclass ≤ 6 ∧
  (c.ant = 2 ∨ c.ant = 4) ∧ c.ulclass < 256

/-- The per-combo hypotheses of the amended round-trip claim: a non-empty
carrier list of well-formed carriers on pairwise distinct bands whose
total component-carrier count is at most 6. -/
def GoodEntry (e : EncEntry) : Prop :=
  e.carriers ≠ [] ∧ (∀ c ∈ e.carriers, GoodCarrier c) ∧
  (e.carriers.map (fun c => c.band)).Nodup ∧
  (e.carriers.map (fun c => classToCC (ClassVal.num c.bclass))).sum ≤ 6

/-- The six per-slot `(band, bclass, ant)` triples a combo's carriers
occupy after normalization and padding — what the strategy-B group header
stores for the combo. -/
def slotTriples (e : EncEntry) : List (Nat × Nat × Nat) :=
  (padCarriers (normalizeCarriers e.carriers)).map (fun c => (c.band, c.bclass, c.ant))

/-- The two `(band, ulclass)` pairs an uplink-record writer emits for an
entry: the first two padded carriers with a positive uplink class, zeros
when absent (as in `encUL138`/`encUL202`/`encUL334`). -/
def encPairs (e : EncEntry) : Nat × Nat × Nat × Nat :=
  let ulCarriers := ((padCarriers e.carriers).filter (fun c => 0 < c.ulclass)).take 2
  ((if 0 < ulCarriers.length then (ulCarriers.getD 0 zeroCarrier).band else 0),
   (if 0 < ulCarriers.length then (ulCarriers.getD 0 zeroCarrier).ulclass else 0),
   (if 1 < ulCarriers.length then (ulCarriers.getD 1 zeroCarrier).band else 0),
   (if 1 < ulCarriers.length then (ulCarriers.getD 1 zeroCarrier).ulclass else 0))

/-- The main loop consumes the prefix `pre`, turning state `(out, s)` into
`(out2, s2)`, whatever follows and for any sufficient fuel. -/
def StepsTo (out : DecOutput) (s : SlotState) (pre : Bytes)
    (out2 : DecOutput) (s2 : SlotState) : Prop :=
  ∀ rest fuel, (pre ++ rest).length < fuel →
    decodeLoop fuel out s (pre ++ rest) = decodeLoop fuel out2 s2 rest

/-- The argument object of a strategy-B encode call (auto-detect on,
grouping optimization on, original grouping not preserved). -/
def mkArgsB (fv dt : Nat) (orig : List DecGroup) (entries : List EncEntry) :
    EncArgs :=
  { encodeEntries := entries, formatVersion := fv, descriptorType := dt,
    optimizeGrouping := true, autoDescriptorType := true,
    preserveOriginalGrouping := false, originalGroups := orig }

/-! # Theorems -/

/-! ## C8 — validity is exactly emptiness of the error list -/

/-- Claim C8: for every carrier list and every limits configuration,
`validateCombo` returns a result whose `valid` flag is true exactly when
its `errors` array is empty; warnings never affect validity. -/
theorem c8_valid_iff_no_errors (carriers : List Carrier) (options : VOptions) :
    (validateCombo carriers options).valid = true ↔
      (validateCombo carriers options).errors = [] := by
  unfold validateCombo
  cases validateNotEmpty carriers with
  | some e => simp [createResult]
  | none => simp [createResult, List.isEmpty_iff]

/-! ## C3 — descriptor-width classification -/

/-- Claim C3, counterexample: a single carrier with MIMO 5 is classified
333 by `determineMinimumFormat`, although 5 fits in one byte (indeed in
one decimal digit, so it needs no digit-encoding); the claim's rule
(`specMinimumFormatOneByte`) classifies it 201. -/
theorem c3_counterexample :
    determineMinimumFormat [mimo5Carrier] = 333 ∧
      specMinimumFormatOneByte [mimo5Carrier] = 201 := by
  decide

/-- Claim C3 as amended: under auto-detect, a combo is classified 333
exactly when some carrier's MIMO exceeds 4 (not when it exceeds one
byte), otherwise 201 when some carrier's MIMO is neither 2 nor 0, and
otherwise 137. -/
theorem c3_amended (carriers : List Carrier) :
    (determineMinimumFormat carriers = 333 ↔ ∃ c ∈ carriers, 4 < c.ant) ∧
    (determineMinimumFormat carriers = 201 ↔
      (¬ ∃ c ∈ carriers, 4 < c.ant) ∧ ∃ c ∈ carriers, c.ant ≠ 2 ∧ c.ant ≠ 0) ∧
    (determineMinimumFormat carriers = 137 ↔
      (¬ ∃ c ∈ carriers, 4 < c.ant) ∧ ¬ ∃ c ∈ carriers, c.ant ≠ 2 ∧ c.ant ≠ 0) := by
  unfold determineMinimumFormat needsFullFormat needsExtendedFormat
  simp only [List.any_eq_true, decide_eq_true_eq]
  split_ifs with h1 h2 <;> simp_all

/-! ## C7 — the stream-count formula -/

/-- Claim C7: for carriers with a class letter and positive `mimoDl`,
`calculateStreams` is the sum of `classToCC(dlClass) × mimoDl`. -/
theorem c7_streams_formula (carriers : List Carrier)
    (hdl : ∀ c ∈ carriers, c.dlClass.isSome = true)
    (hmimo : ∀ c ∈ carriers, 0 < c.mimoDl) :
    calculateStreams carriers =
      (carriers.map (fun c =>
        classToCC (.ltr (c.dlClass.getD 'A')) * c.mimoDl)).sum := by
  unfold calculateStreams
  induction carriers with
  | nil => rfl
  | cons c cs ih =>
    have h1 : c.dlClass.isSome = true := hdl c (List.mem_cons_self c cs)
    have h2 : 0 < c.mimoDl := hmimo c (List.mem_cons_self c cs)
    simp only [List.map_cons, List.sum_cons]
    rw [ih (fun x hx => hdl x (List.mem_cons_of_mem _ hx))
        (fun x hx => hmimo x (List.mem_cons_of_mem _ hx))]
    congr 1
    unfold calculateCarrierStreams dlClassVal
    cases hc : c.dlClass with
    | none => rw [hc] at h1; simp at h1
    | some ch => simp [hc, Nat.pos_iff_ne_zero.mp h2]

/-- Witness for C7 at the spec's example `[{band: 3, class: A, mimo: 2},
{band: 7, class: B, mimo: 4}]`: the stream count is 1×2 + 2×4 = 10. -/
theorem c7_streams_witness : calculateStreams c7DemoCarriers = 10 := by
  have h := c7_streams_formula c7DemoCarriers (by decide) (by decide)
  rw [h]
  decide

/-! ## C6 — when encoding fails -/

/-- Claim C6, counterexample: requesting strategy A with no original
groups does not fail — `encodeToBuffer` silently falls back to the
auto-detect path and produces a buffer. -/
theorem c6_counterexample : (encodeToBuffer stratANoGroupsArgs).isOk = true := by
  decide

/-- Claim C6 as amended: `encodeToBuffer` fails fatally exactly when the
entry list is empty (and then with the no-entries message); strategy A
requested without original groups silently falls back to auto-detect.
Only the standalone `encodeWithOriginalGrouping` rejects missing groups. -/
theorem c6_amended (args : EncArgs) :
    ((encodeToBuffer args).isOk = true ↔ args.encodeEntries ≠ []) ∧
    (args.encodeEntries = [] →
      encodeToBuffer args = .error "No entries to encode") ∧
    (∀ entries fv, encodeWithOriginalGrouping entries fv [] =
      .error "No original grouping data available") := by
  refine ⟨?_, ?_, ?_⟩
  · unfold encodeToBuffer
    split_ifs with h1 h2
    · simp only [List.isEmpty_iff] at h1
      simp [h1, Except.isOk, Except.toBool]
    · simp only [List.isEmpty_iff] at h1
      unfold encodeWithOriginalGrouping
      rw [if_neg h2.2]
      simp [Except.isOk, Except.toBool, h1]
    · simp only [List.isEmpty_iff] at h1
      simp [Except.isOk, Except.toBool, h1]
  · intro he
    unfold encodeToBuffer
    simp [he]
  · intro entries fv
    unfold encodeWithOriginalGrouping
    simp

/-- Witness for C6 as amended, at an empty entry list. -/
theorem c6_witness :
    encodeToBuffer { encodeEntries := ([] : List EncEntry), formatVersion := 1 } =
      .error "No entries to encode" :=
  (c6_amended _).2.1 rfl

/-! ## C4 — uplink-pair attachment -/

/-- The attach loop from any start index is first-match search over the
remaining indices. -/
theorem attachAux_eq_find (band bclass ulcl : List Nat) (b c : Nat) :
    ∀ k i, attachAux band bclass b c ulcl k i =
      (match (List.range' i k).find? (fun j => decide (band.getD j 0 = b)) with
       | some j => (ulcl.set j c, true)
       | none => (ulcl, false)) := by
  intro k
  induction k with
  | zero => intro i; rfl
  | succ k ih =>
    intro i
    rw [attachAux, List.range']
    simp only [List.find?]
    by_cases hb : band.getD i 0 = b
    · have hd : (decide (band.getD i 0 = b)) = true := decide_eq_true hb
      rw [if_pos ⟨hb, Nat.zero_le _⟩, hd]
    · have hd : (decide (band.getD i 0 = b)) = false := decide_eq_false hb
      rw [if_neg (by tauto), ih (i + 1), hd]

/-- Claim C4, counterexample: decoding `c4Buf` — one band-3 group, then a
138 record whose first pair is `(0, 3)` and whose second is `(3, 1)` —
attaches class 3 at slot 1, whose band is 0, and reports UL-CA.  Under
the claim a zero-band pair attaches nothing, which would leave
`rawUlclass = [1, 0, 0, 0, 0, 0]` and `hasULCA = false`. -/
theorem c4_counterexample :
    (decodePlain c4Buf).combos.map
        (fun c => (c.rawBand, c.rawUlclass, c.hasULCA)) =
      [([3, 0, 0, 0, 0, 0], [1, 3, 0, 0, 0, 0], true)] ∧
    (decodePlain c4Buf).errors = [] := by
  decide

/-- Claim C4 as amended: every attach performed by the decoder places the
pair's class at the first slot `i` in 0..5 order with `band[i]` equal to
the pair's band (`attachSpec`), and reports a match exactly when such a
slot exists.  The decoder applies this unconditionally to the first pair
of a record — so a first pair with band 0 attaches to the first empty
slot, if any — and only guards the second pair by `band ≠ 0` (see
`procUL`). -/
theorem c4_amended (band bclass ulcl : List Nat) (ulBand ulClass : Nat) :
    (attachUL band bclass ulcl ulBand ulClass).1 =
      attachSpec band ulcl ulBand ulClass ∧
    (attachUL band bclass ulcl ulBand ulClass).2 =
      ((List.range 6).find? (fun i => decide (band.getD i 0 = ulBand))).isSome := by
  unfold attachUL attachSpec
  rw [attachAux_eq_find, List.range_eq_range']
  cases h : (List.range' 0 6).find? (fun j => decide (band.getD j 0 = ulBand)) <;>
    simp [h]

/-! ## C9 — digit-encoded MIMO values containing a zero digit -/

/-- `lsbDigitsAux` of 0 is empty at any fuel. -/
theorem lsbDigitsAux_zero (f : Nat) : lsbDigitsAux f 0 = [] := by
  cases f <;> rfl

/-- Digit properties of `lsbDigitsAux`: all digits are below 10 and the
digit count measures the value (`10^(len-1) ≤ m < 10^len`). -/
theorem lsbDigitsAux_spec :
    ∀ f m, 0 < m → m ≤ f →
      (∀ d ∈ lsbDigitsAux f m, d < 10) ∧
      10 ^ ((lsbDigitsAux f m).length - 1) ≤ m ∧
      m < 10 ^ (lsbDigitsAux f m).length := by
  intro f
  induction f with
  | zero => intro m hm h; omega
  | succ f ih =>
    intro m hm hle
    rw [lsbDigitsAux, if_neg hm.ne']
    by_cases h10 : m < 10
    · have hz : m / 10 = 0 := Nat.div_eq_of_lt h10
      rw [hz, lsbDigitsAux_zero]
      refine ⟨?_, ?_, ?_⟩
      · intro d hd
        simp at hd
        omega
      · simpa using hm
      · simpa using h10
    · have hdiv : m / 10 < m := Nat.div_lt_self hm (by norm_num)
      have hpos : 0 < m / 10 := Nat.div_pos (le_of_not_lt h10) (by norm_num)
      have hle' : m / 10 ≤ f := by omega
      obtain ⟨hdig, hlow, hhi⟩ := ih (m / 10) hpos hle'
      have hlen : 0 < (lsbDigitsAux f (m / 10)).length := by
        by_contra hl
        simp only [Nat.pos_iff_ne_zero, ne_eq, not_not] at hl
        rw [hl] at hhi
        omega
      refine ⟨?_, ?_, ?_⟩
      · intro d hd
        rcases List.mem_cons.mp hd with h | h
        · omega
        · exact hdig d h
      · have h1 : (m % 10 :: lsbDigitsAux f (m / 10)).length - 1 =
            (lsbDigitsAux f (m / 10)).length := by simp
        rw [h1]
        have h2 : 10 ^ (lsbDigitsAux f (m / 10)).length =
            10 * 10 ^ ((lsbDigitsAux f (m / 10)).length - 1) := by
          conv_lhs => rw [show (lsbDigitsAux f (m / 10)).length =
            ((lsbDigitsAux f (m / 10)).length - 1) + 1 by omega]
          rw [pow_succ']
        rw [h2]
        omega
      · have h2 : (m % 10 :: lsbDigitsAux f (m / 10)).length =
            (lsbDigitsAux f (m / 10)).length + 1 := by simp
        rw [h2, pow_succ]
        omega

/-- `readDigits` over a list of exactly its count of bytes is the
digit-skipping fold, leaving the rest of the buffer untouched. -/
theorem readDigits_append :
    ∀ (l : List Nat) (acc : Nat) (rest : Bytes),
      readDigits l.length acc (l ++ rest) = some (foldCode acc l, rest) := by
  intro l
  induction l with
  | nil => intro acc rest; rfl
  | cons b l ih =>
    intro acc rest
    simp only [List.length_cons, List.cons_append]
    rw [readDigits]
    simp only [readU8]
    rw [ih]
    rfl

/-- The digit-skipping fold of a small-byte list is the plain fold over
its nonzero entries. -/
theorem foldCode_eq_filter :
    ∀ (l : List Nat) (acc : Nat), (∀ d ∈ l, d < 256) →
      foldCode acc l = (l.filter (fun d => d ≠ 0)).foldl
        (fun a d => a * 10 + d) acc := by
  intro l
  induction l with
  | nil => intro acc h; rfl
  | cons b l ih =>
    intro acc h
    have hb : b < 256 := h b (List.mem_cons_self b l)
    have hmod : b % 256 = b := Nat.mod_eq_of_lt hb
    unfold foldCode
    simp only [List.foldl_cons, List.filter_cons, hmod]
    by_cases hz : b = 0
    · simp only [hz]
      rw [if_neg (by simp)]
      simpa [foldCode, hz] using ih acc (fun d hd => h d (List.mem_cons_of_mem _ hd))
    · rw [if_pos (by simp [hz]), if_pos (by simpa using hz)]
      simpa [foldCode] using
        ih (acc * 10 + b) (fun d hd => h d (List.mem_cons_of_mem _ hd))

/-- A most-significant-first fold of digits below 10 stays below
`(acc+1) · 10^len`. -/
theorem msbFold_lt :
    ∀ (l : List Nat) (acc : Nat), (∀ d ∈ l, d < 10) →
      l.foldl (fun a d => a * 10 + d) acc < (acc + 1) * 10 ^ l.length := by
  intro l
  induction l with
  | nil => intro acc h; simp
  | cons d l ih =>
    intro acc h
    have hd : d < 10 := h d (List.mem_cons_self d l)
    simp only [List.foldl_cons, List.length_cons]
    calc List.foldl (fun a d => a * 10 + d) (acc * 10 + d) l
        < (acc * 10 + d + 1) * 10 ^ l.length :=
          ih (acc * 10 + d) (fun x hx => h x (List.mem_cons_of_mem _ hx))
      _ ≤ ((acc + 1) * 10) * 10 ^ l.length := by
          have : acc * 10 + d + 1 ≤ (acc + 1) * 10 := by omega
          exact Nat.mul_le_mul_right _ this
      _ = (acc + 1) * 10 ^ (l.length + 1) := by ring

/-- Filtering a list that contains a dropped element shortens it. -/
theorem filter_length_lt_of_mem {l : List Nat} (h : 0 ∈ l) :
    (l.filter (fun d => d ≠ 0)).length < l.length := by
  induction l with
  | nil => simp at h
  | cons b l ih =>
    simp only [List.filter_cons, List.length_cons]
    rcases List.mem_cons.mp h with hb | hb
    · rw [if_neg (by simp [hb.symm])]
      have := List.length_filter_le (fun d => decide (d ≠ 0)) l
      omega
    · by_cases hz : b ≠ 0
      · rw [if_pos (by simpa using hz)]
        have := ih hb
        simp only [List.length_cons]
        omega
      · rw [if_neg (by simpa using hz)]
        have := ih hb
        omega

/-- Claim C9: writing a MIMO value whose decimal representation contains
the digit 0 in the 333/334 eight-byte digit layout and reading it back
with the decoder's digit-skipping accumulation yields the number formed
from the nonzero digits only — never the original value. -/
theorem c9_digit_zero_loss (m : Nat) (hm : 0 < m) (h8 : m < 10 ^ 8)
    (h0 : 0 ∈ msbDigits m) (rest : Bytes) :
    readDigits 8 0 (digitBytes8 m ++ rest) =
      some (msbFold ((msbDigits m).filter (fun d => d ≠ 0)), rest) ∧
    msbFold ((msbDigits m).filter (fun d => d ≠ 0)) ≠ m := by
  obtain ⟨hdig, hlow, hhi⟩ := lsbDigitsAux_spec m m hm le_rfl
  have hmsb : msbDigits m = (lsbDigitsAux m m).reverse := by
    unfold msbDigits
    rw [if_neg hm.ne']
  have hdigM : ∀ d ∈ msbDigits m, d < 10 := by
    intro d hd
    rw [hmsb, List.mem_reverse] at hd
    exact hdig d hd
  have hlenM : (msbDigits m).length = (lsbDigitsAux m m).length := by
    rw [hmsb, List.length_reverse]
  have hlen8 : (msbDigits m).length ≤ 8 := by
    rw [hlenM]
    by_contra hcon
    push_neg at hcon
    have : (10:Nat) ^ 8 ≤ 10 ^ ((lsbDigitsAux m m).length - 1) :=
      Nat.pow_le_pow_right (by norm_num) (by omega)
    omega
  have hbytes : digitBytes8 m =
      msbDigits m ++ zeroBytes (8 - (msbDigits m).length) := by
    show List.take 8 (msbDigits m) ++
        zeroBytes (8 - min (msbDigits m).length 8) = _
    rw [List.take_of_length_le hlen8, min_eq_left hlen8]
  have hlenBytes : (digitBytes8 m).length = 8 := by
    rw [hbytes]
    simp [zeroBytes]
    omega
  have hread := readDigits_append (digitBytes8 m) 0 rest
  rw [hlenBytes] at hread
  have hsmall : ∀ d ∈ digitBytes8 m, d < 256 := by
    intro d hd
    rw [hbytes] at hd
    rcases List.mem_append.mp hd with h | h
    · have := hdigM d h
      omega
    · simp [zeroBytes] at h
      omega
  have hfold : foldCode 0 (digitBytes8 m) =
      msbFold ((msbDigits m).filter (fun d => d ≠ 0)) := by
    rw [foldCode_eq_filter _ _ hsmall, hbytes, List.filter_append]
    have hz : (zeroBytes (8 - (msbDigits m).length)).filter
        (fun d => d ≠ 0) = [] := by
      simp [zeroBytes]
    rw [hz, List.append_nil]
    rfl
  refine ⟨by rw [hread, hfold], ?_⟩
  have hflt : ((msbDigits m).filter (fun d => d ≠ 0)).length <
      (msbDigits m).length := filter_length_lt_of_mem h0
  have hbound := msbFold_lt ((msbDigits m).filter (fun d => d ≠ 0)) 0
    (fun d hd => hdigM d (List.mem_of_mem_filter hd))
  simp only [Nat.zero_add, one_mul] at hbound
  have hpow : (10:Nat) ^ ((msbDigits m).filter (fun d => d ≠ 0)).length ≤
      10 ^ ((msbDigits m).length - 1) :=
    Nat.pow_le_pow_right (by norm_num) (by omega)
  rw [hlenM] at hpow
  unfold msbFold
  omega

/-- Witness for C9 at MIMO 10: the digit bytes decode to 1, not 10. -/
theorem c9_witness :
    readDigits 8 0 (digitBytes8 10) = some (1, []) ∧ (1 : Nat) ≠ 10 := by
  have h := c9_digit_zero_loss 10 (by decide) (by decide) (by decide) []
  have e : msbFold ((msbDigits 10).filter (fun d => d ≠ 0)) = 1 := by decide
  rw [e] at h
  simpa using h

/-! ## C10 — the decoder never throws on plain input -/

/-- Claim C10: on every buffer that is not detected as zlib-compressed,
`decodeFile` returns an output object (it never propagates an exception),
and any message thrown inside the decode loop appears in the returned
`errors` array. -/
theorem c10_no_throw (inflate : Bytes → Option Bytes) (bs : Bytes)
    (hz : isZlibCompressed bs = false) :
    decodeFile inflate bs = .ok (decodePlain bs) ∧
    ∀ msg, (decodeTry bs.length bs.length false bs).2 = some msg →
      msg ∈ (decodePlain bs).errors := by
  constructor
  · unfold decodeFile
    rw [if_neg (by simp [hz])]
    rfl
  · intro msg hmsg
    show msg ∈ ((decodeTry bs.length bs.length false bs).1.errors ++
      (decodeTry bs.length bs.length false bs).2.toList)
    rw [hmsg]
    simp

/-- Witness for C10 at a concrete non-compressed buffer. -/
theorem c10_witness :
    decodeFile (fun _ => none) c4Buf = .ok (decodePlain c4Buf) :=
  (c10_no_throw (fun _ => none) c4Buf (by decide)).1

/-! ## Fixed-size reader lemmas

Every primitive and record-level read of the decoder consumes a fixed
byte count; these lemmas let truncated buffers be compared with full
ones. -/

/-- A successful fixed-size read consumed exactly its size. -/
theorem FR_some {α : Type} {R : Bytes → Option (α × Bytes)} {c : Nat}
    (h : FR R c) {bs : Bytes} {v : α} {r : Bytes}
    (hs : R bs = some (v, r)) : r = bs.drop c ∧ c ≤ bs.length := by
  obtain ⟨p, hp⟩ := h
  rw [hp] at hs
  by_cases hc : c ≤ bs.length
  · rw [if_pos hc] at hs
    simp only [Option.some.injEq, Prod.mk.injEq] at hs
    exact ⟨hs.2.symm, hc⟩
  · rw [if_neg hc] at hs
    exact absurd hs (by simp)

/-- A fixed-size read sees the same value on any truncation long enough
to contain it. -/
theorem FR_take_ok {α : Type} {R : Bytes → Option (α × Bytes)} {c : Nat}
    (h : FR R c) {bs : Bytes} {v : α} {r : Bytes}
    (hs : R bs = some (v, r)) {n : Nat} (hn : c ≤ n) :
    R (bs.take n) = some (v, (bs.drop c).take (n - c)) := by
  obtain ⟨p, hp⟩ := h
  rw [hp] at hs
  by_cases hc : c ≤ bs.length
  · rw [if_pos hc] at hs
    simp only [Option.some.injEq, Prod.mk.injEq] at hs
    rw [hp, if_pos (by simp only [List.length_take]; omega)]
    rw [List.take_take, min_eq_left hn, hs.1, List.drop_take]
  · rw [if_neg hc] at hs
    exact absurd hs (by simp)

/-- A fixed-size read fails on any truncation too short to contain it. -/
theorem FR_take_short {α : Type} {R : Bytes → Option (α × Bytes)} {c : Nat}
    (h : FR R c) (bs : Bytes) {n : Nat} (hn : n < c) :
    R (bs.take n) = none := by
  obtain ⟨p, hp⟩ := h
  rw [hp, if_neg]
  simp only [List.length_take]
  omega

/-- A failed fixed-size read stays failed on every truncation. -/
theorem FR_none {α : Type} {R : Bytes → Option (α × Bytes)} {c : Nat}
    (h : FR R c) {bs : Bytes} (hs : R bs = none) (n : Nat) :
    R (bs.take n) = none := by
  obtain ⟨p, hp⟩ := h
  rw [hp] at hs
  by_cases hc : c ≤ bs.length
  · rw [if_pos hc] at hs
    exact absurd hs (by simp)
  · rw [hp, if_neg]
    simp only [List.length_take]
    omega

/-- `readUint16` is a fixed 2-byte read. -/
theorem fr_readU16 : FR readU16 2 := by
  refine ⟨fun l => l.getD 0 0 % 256 + 256 * (l.getD 1 0 % 256), ?_⟩
  intro bs
  rcases bs with _ | ⟨b0, _ | ⟨b1, r⟩⟩ <;> simp [readU16, List.getD]

/-- `readUint8` is a fixed 1-byte read. -/
theorem fr_readU8 : FR readU8 1 := by
  refine ⟨fun l => l.getD 0 0 % 256, ?_⟩
  intro bs
  rcases bs with _ | ⟨b0, r⟩ <;> simp [readU8, List.getD]

/-- Sequencing three fixed-size reads (combining their values by a pure
function) is a fixed-size read of the summed size. -/
theorem fr_bind3 {α β γ δ : Type} {R1 : Bytes → Option (α × Bytes)} {c1 : Nat}
    {R2 : Bytes → Option (β × Bytes)} {c2 : Nat}
    {R3 : Bytes → Option (γ × Bytes)} {c3 : Nat}
    (h1 : FR R1 c1) (h2 : FR R2 c2) (h3 : FR R3 c3)
    {f : α → β → γ → δ} {R : Bytes → Option (δ × Bytes)}
    (hR : ∀ bs, R bs =
      match R1 bs with
      | none => none
      | some (a, bs1) =>
        match R2 bs1 with
        | none => none
        | some (b, bs2) =>
          match R3 bs2 with
          | none => none
          | some (cv, bs3) => some (f a b cv, bs3)) :
    FR R (c1 + c2 + c3) := by
  obtain ⟨p1, hp1⟩ := h1
  obtain ⟨p2, hp2⟩ := h2
  obtain ⟨p3, hp3⟩ := h3
  refine ⟨fun l => f (p1 (l.take c1)) (p2 ((l.drop c1).take c2))
    (p3 (((l.drop c1).drop c2).take c3)), ?_⟩
  intro bs
  rw [hR, hp1]
  by_cases hc1 : c1 ≤ bs.length
  case neg =>
    rw [if_neg hc1, if_neg (by omega)]
  rw [if_pos hc1]
  dsimp only
  rw [hp2]
  simp only [List.length_drop]
  by_cases hc2 : c2 ≤ bs.length - c1
  case neg =>
    rw [if_neg hc2, if_neg (by omega)]
  rw [if_pos hc2]
  dsimp only
  rw [hp3]
  simp only [List.length_drop]
  by_cases hc3 : c3 ≤ bs.length - c1 - c2
  case neg =>
    rw [if_neg hc3, if_neg (by omega)]
  rw [if_pos hc3]
  dsimp only
  rw [if_pos (by omega)]
  have e1 : (bs.take (c1 + c2 + c3)).take c1 = bs.take c1 := by
    rw [List.take_take]
    congr 1
    omega
  have e2 : ((bs.take (c1 + c2 + c3)).drop c1).take c2 = (bs.drop c1).take c2 := by
    rw [List.drop_take, List.take_take]
    congr 1
    omega
  have e3 : (((bs.take (c1 + c2 + c3)).drop c1).drop c2).take c3 =
      ((bs.drop c1).drop c2).take c3 := by
    rw [List.drop_take, List.drop_take, List.take_take]
    congr 1
    omega
  have e4 : ((bs.drop c1).drop c2).drop c3 = bs.drop (c1 + c2 + c3) := by
    rw [List.drop_drop, List.drop_drop]
    congr 1
    omega
  rw [e1, e2, e3, e4]

/-- Sequencing four fixed-size reads. -/
theorem fr_bind4 {α β γ δ ε : Type} {R1 : Bytes → Option (α × Bytes)} {c1 : Nat}
    {R2 : Bytes → Option (β × Bytes)} {c2 : Nat}
    {R3 : Bytes → Option (γ × Bytes)} {c3 : Nat}
    {R4 : Bytes → Option (δ × Bytes)} {c4 : Nat}
    (h1 : FR R1 c1) (h2 : FR R2 c2) (h3 : FR R3 c3) (h4 : FR R4 c4)
    {f : α → β → γ → δ → ε} {R : Bytes → Option (ε × Bytes)}
    (hR : ∀ bs, R bs =
      match R1 bs with
      | none => none
      | some (a, bs1) =>
        match R2 bs1 with
        | none => none
        | some (b, bs2) =>
          match R3 bs2 with
          | none => none
          | some (cv, bs3) =>
            match R4 bs3 with
            | none => none
            | some (d, bs4) => some (f a b cv d, bs4)) :
    FR R (c1 + c2 + c3 + c4) := by
  obtain ⟨p1, hp1⟩ := h1
  obtain ⟨p2, hp2⟩ := h2
  obtain ⟨p3, hp3⟩ := h3
  obtain ⟨p4, hp4⟩ := h4
  refine ⟨fun l => f (p1 (l.take c1)) (p2 ((l.drop c1).take c2))
    (p3 (((l.drop c1).drop c2).take c3))
    (p4 ((((l.drop c1).drop c2).drop c3).take c4)), ?_⟩
  intro bs
  rw [hR, hp1]
  by_cases hc1 : c1 ≤ bs.length
  case neg =>
    rw [if_neg hc1, if_neg (by omega)]
  rw [if_pos hc1]
  dsimp only
  rw [hp2]
  simp only [List.length_drop]
  by_cases hc2 : c2 ≤ bs.length - c1
  case neg =>
    rw [if_neg hc2, if_neg (by omega)]
  rw [if_pos hc2]
  dsimp only
  rw [hp3]
  simp only [List.length_drop]
  by_cases hc3 : c3 ≤ bs.length - c1 - c2
  case neg =>
    rw [if_neg hc3, if_neg (by omega)]
  rw [if_pos hc3]
  dsimp only
  rw [hp4]
  simp only [List.length_drop]
  by_cases hc4 : c4 ≤ bs.length - c1 - c2 - c3
  case neg =>
    rw [if_neg hc4, if_neg (by omega)]
  rw [if_pos hc4]
  dsimp only
  rw [if_pos (by omega)]
  have e1 : (bs.take (c1 + c2 + c3 + c4)).take c1 = bs.take c1 := by
    rw [List.take_take]
    congr 1
    omega
  have e2 : ((bs.take (c1 + c2 + c3 + c4)).drop c1).take c2 =
      (bs.drop c1).take c2 := by
    rw [List.drop_take, List.take_take]
    congr 1
    omega
  have e3 : (((bs.take (c1 + c2 + c3 + c4)).drop c1).drop c2).take c3 =
      ((bs.drop c1).drop c2).take c3 := by
    rw [List.drop_take, List.drop_take, List.take_take]
    congr 1
    omega
  have e4 : ((((bs.take (c1 + c2 + c3 + c4)).drop c1).drop c2).drop c3).take c4 =
      (((bs.drop c1).drop c2).drop c3).take c4 := by
    rw [List.drop_take, List.drop_take, List.drop_take, List.take_take]
    congr 1
    omega
  have e5 : (((bs.drop c1).drop c2).drop c3).drop c4 =
      bs.drop (c1 + c2 + c3 + c4) := by
    rw [List.drop_drop, List.drop_drop, List.drop_drop]
    congr 1
    omega
  rw [e1, e2, e3, e4, e5]

/-- The 137 slot reader is a fixed read of 3 bytes per slot. -/
theorem fr_readSlots137 : ∀ k, FR (readSlots137 k) (3 * k) := by
  intro k
  induction k with
  | zero => exact ⟨fun _ => ([], [], []), by intro bs; simp [readSlots137]⟩
  | succ k ih =>
    have h := fr_bind3 fr_readU16 fr_readU8 ih
      (f := fun bandVal cls t =>
        (bandVal :: t.1, cls :: t.2.1, (if bandVal ≠ 0 then 2 else 0) :: t.2.2))
      (R := readSlots137 (k + 1)) ?_
    · have e : 2 + 1 + 3 * k = 3 * (k + 1) := by omega
      exact e ▸ h
    · intro bs
      cases h16 : readU16 bs with
      | none => simp [readSlots137, h16]
      | some v1 =>
        obtain ⟨a, bs1⟩ := v1
        cases h8 : readU8 bs1 with
        | none => simp [readSlots137, h16, h8]
        | some v2 =>
          obtain ⟨b, bs2⟩ := v2
          cases hks : readSlots137 k bs2 with
          | none => simp [readSlots137, h16, h8, hks]
          | some v3 =>
            obtain ⟨⟨bands, clss, ants⟩, bs3⟩ := v3
            simp [readSlots137, h16, h8, hks]

/-- The 201 slot reader is a fixed read of 4 bytes per slot. -/
theorem fr_readSlots201 : ∀ k, FR (readSlots201 k) (4 * k) := by
  intro k
  induction k with
  | zero => exact ⟨fun _ => ([], [], []), by intro bs; simp [readSlots201]⟩
  | succ k ih =>
    have h := fr_bind4 fr_readU16 fr_readU8 fr_readU8 ih
      (f := fun bandVal cls antVal t =>
        (bandVal :: t.1, cls :: t.2.1, antVal :: t.2.2))
      (R := readSlots201 (k + 1)) ?_
    · have e : 2 + 1 + 1 + 4 * k = 4 * (k + 1) := by omega
      exact e ▸ h
    · intro bs
      cases h16 : readU16 bs with
      | none => simp [readSlots201, h16]
      | some v1 =>
        obtain ⟨a, bs1⟩ := v1
        cases h8 : readU8 bs1 with
        | none => simp [readSlots201, h16, h8]
        | some v2 =>
          obtain ⟨b, bs2⟩ := v2
          cases h8b : readU8 bs2 with
          | none => simp [readSlots201, h16, h8, h8b]
          | some v3 =>
            obtain ⟨c, bs3⟩ := v3
            cases hks : readSlots201 k bs3 with
            | none => simp [readSlots201, h16, h8, h8b, hks]
            | some v4 =>
              obtain ⟨⟨bands, clss, ants⟩, bs4⟩ := v4
              simp [readSlots201, h16, h8, h8b, hks]

/-- The digit reader is a fixed read of its digit count. -/
theorem fr_readDigits : ∀ j acc, FR (readDigits j acc) j := by
  intro j
  induction j with
  | zero => exact fun acc => ⟨fun _ => acc, by intro bs; simp [readDigits]⟩
  | succ j ih =>
    intro acc
    choose pf hpf using ih
    refine ⟨fun l => pf (if l.getD 0 0 % 256 ≠ 0 then acc * 10 + l.getD 0 0 % 256
      else acc) (l.drop 1), ?_⟩
    intro bs
    rcases bs with _ | ⟨b, r⟩
    · simp [readDigits, readU8]
    · rw [readDigits]
      simp only [readU8]
      rw [hpf _ r]
      by_cases hj : j ≤ r.length
      · rw [if_pos hj,
          if_pos (show j + 1 ≤ (b :: r).length from Nat.succ_le_succ hj)]
        by_cases hb : b % 256 = 0
        · simp only [List.take_succ_cons, List.getD_cons_zero,
            List.drop_succ_cons, List.drop_one, List.tail_cons, hb]
          simp
        · simp only [List.take_succ_cons, List.getD_cons_zero,
            List.drop_succ_cons, List.drop_one, List.tail_cons]
          simp [hb]
      · rw [if_neg hj,
          if_neg (show ¬ j + 1 ≤ (b :: r).length by
            simp only [List.length_cons]; omega)]

/-- Skipping a fixed pad before a fixed-size read gives a fixed-size
read. -/
theorem fr_skip {α : Type} {R : Bytes → Option (α × Bytes)} {c : Nat}
    (h : FR R c) (hc0 : 0 < c) (p : Nat) :
    FR (fun bs => R (bs.drop p)) (p + c) := by
  obtain ⟨parse, hp⟩ := h
  refine ⟨fun l => parse ((l.drop p).take c), ?_⟩
  intro bs
  show R (bs.drop p) = _
  rw [hp]
  simp only [List.length_drop]
  by_cases hc : c ≤ bs.length - p
  · rw [if_pos hc, if_pos (by omega)]
    have e1 : ((bs.take (p + c)).drop p).take c = (bs.drop p).take c := by
      rw [List.drop_take, List.take_take]
      congr 1
      omega
    have e2 : (bs.drop p).drop c = bs.drop (p + c) := by
      rw [List.drop_drop]
    rw [e1, e2]
  · rw [if_neg hc, if_neg (by omega)]

/-- The 333 slot reader is a fixed read of 11 bytes per slot. -/
theorem fr_readSlots333 : ∀ k, FR (readSlots333 k) (11 * k) := by
  intro k
  induction k with
  | zero => exact ⟨fun _ => ([], [], []), by intro bs; simp [readSlots333]⟩
  | succ k ih =>
    have h := fr_bind4 fr_readU16 fr_readU8 (fr_readDigits 8 0) ih
      (f := fun bandVal cls antVal t =>
        (bandVal :: t.1, cls :: t.2.1, antVal :: t.2.2))
      (R := readSlots333 (k + 1)) ?_
    · have e : 2 + 1 + 8 + 11 * k = 11 * (k + 1) := by omega
      exact e ▸ h
    · intro bs
      cases h16 : readU16 bs with
      | none => simp [readSlots333, h16]
      | some v1 =>
        obtain ⟨a, bs1⟩ := v1
        cases h8 : readU8 bs1 with
        | none => simp [readSlots333, h16, h8]
        | some v2 =>
          obtain ⟨b, bs2⟩ := v2
          cases hdg : readDigits 8 0 bs2 with
          | none => simp [readSlots333, h16, h8, hdg]
          | some v3 =>
            obtain ⟨c, bs3⟩ := v3
            cases hks : readSlots333 k bs3 with
            | none => simp [readSlots333, h16, h8, hdg, hks]
            | some v4 =>
              obtain ⟨⟨bands, clss, ants⟩, bs4⟩ := v4
              simp [readSlots333, h16, h8, hdg, hks]

/-! ## Coherence of one decode iteration under truncation -/

/-- A DL-header iteration on a truncated buffer: with the full record
available it acts as on the full buffer (with the remaining bytes
truncated accordingly); otherwise it aborts with `UnexpectedEndOfFile`. -/
theorem procHeader_take {R : Bytes → Option ((List Nat × List Nat × List Nat) × Bytes)}
    {c : Nat} (hR : FR R c) (out : DecOutput) (dt : Nat) (bs : Bytes) (n : Nat) :
    procHeader out dt R (bs.take n) =
      if c ≤ n then (procHeader out dt R bs).withRest ((bs.drop c).take (n - c))
      else .fail out eofMsg := by
  cases hs : R bs with
  | none =>
    have h2 : R (bs.take n) = none := FR_none hR hs n
    by_cases hcn : c ≤ n
    · rw [if_pos hcn]
      simp [procHeader, hs, h2, StepRes.withRest]
    · rw [if_neg hcn]
      simp [procHeader, h2]
  | some v =>
    obtain ⟨⟨band, bcl, ant⟩, rest⟩ := v
    by_cases hcn : c ≤ n
    · rw [if_pos hcn]
      have h2 := FR_take_ok hR hs hcn
      simp only [procHeader, hs, h2]
      by_cases hany : (band.any fun b => decide (b ≠ 0)) = true
      · rw [if_pos hany, if_pos hany]
        simp [StepRes.withRest]
      · rw [if_neg hany, if_neg hany]
        simp [StepRes.withRest]
    · rw [if_neg hcn]
      have h2 := FR_take_short hR bs (lt_of_not_le hcn)
      simp [procHeader, h2]

/-- A continuing DL-header iteration consumed exactly its record. -/
theorem procHeader_cont_rest {R : Bytes → Option ((List Nat × List Nat × List Nat) × Bytes)}
    {c : Nat} (hR : FR R c) {out : DecOutput} {dt : Nat} {bs : Bytes}
    {o : DecOutput} {s : SlotState} {r : Bytes}
    (h : procHeader out dt R bs = .cont o s r) :
    r = bs.drop c ∧ c ≤ bs.length := by
  cases hs : R bs with
  | none => simp [procHeader, hs] at h
  | some v =>
    obtain ⟨⟨band, bcl, ant⟩, rest⟩ := v
    obtain ⟨hrest, hlen⟩ := FR_some hR hs
    by_cases hany : (band.any fun b => decide (b ≠ 0)) = true
    · simp only [procHeader, hs] at h
      rw [if_pos hany] at h
      cases h
      exact ⟨hrest, hlen⟩
    · simp only [procHeader, hs] at h
      rw [if_neg hany] at h
      cases h

/-- A DL-header iteration never changes the combo list. -/
theorem procHeader_outOf (out : DecOutput) (dt : Nat)
    (R : Bytes → Option ((List Nat × List Nat × List Nat) × Bytes)) (bs : Bytes) :
    (procHeader out dt R bs).outOf.combos = out.combos := by
  cases hs : R bs with
  | none => simp [procHeader, hs, StepRes.outOf]
  | some v =>
    obtain ⟨⟨band, bcl, ant⟩, rest⟩ := v
    simp only [procHeader, hs]
    by_cases hany : (band.any fun b => decide (b ≠ 0)) = true
    · rw [if_pos hany]
      simp [StepRes.outOf]
    · rw [if_neg hany]
      simp [StepRes.outOf]

/-- `commitCombo` ignores its remaining-bytes argument except to pass it
through a continuing result. -/
theorem commitCombo_withRest (out : DecOutput) (slots : SlotState)
    (ulcl : List Nat) (ulca : Nat) (dt : Nat) (r r2 : Bytes) :
    commitCombo out slots ulcl ulca dt r2 =
      (commitCombo out slots ulcl ulca dt r).withRest r2 := by
  unfold commitCombo
  cases buildCombo slots.band slots.bclass slots.ant ulcl ulca true dt
      slots.currentGroupIdx with
  | none => simp [StepRes.withRest]
  | some combo =>
    cases hgi : slots.currentGroupIdx with
    | ofNat g =>
      by_cases hlt : g < ({ out with combos := out.combos ++ [combo] } :
          DecOutput).groups.length
      · simp [hlt, StepRes.withRest]
      · simp [hlt, StepRes.withRest]
    | negSucc g => simp [StepRes.withRest]

/-- The combo list only grows across `commitCombo`. -/
theorem commitCombo_outOf (out : DecOutput) (slots : SlotState)
    (ulcl : List Nat) (ulca : Nat) (dt : Nat) (r : Bytes) :
    out.combos <+: (commitCombo out slots ulcl ulca dt r).outOf.combos := by
  unfold commitCombo
  cases buildCombo slots.band slots.bclass slots.ant ulcl ulca true dt
      slots.currentGroupIdx with
  | none => simp [StepRes.outOf]
  | some combo =>
    cases hgi : slots.currentGroupIdx with
    | ofNat g =>
      by_cases hlt : g < ({ out with combos := out.combos ++ [combo] } :
          DecOutput).groups.length
      · simp [hlt, StepRes.outOf]
      · simp [hlt, StepRes.outOf]
    | negSucc g => simp [StepRes.outOf]

/-- The read prefix of an uplink record is a fixed read of `6 + p` bytes
(two uint16/uint8 pairs and the padding `p` between them). -/
theorem fr_readULPairs (p : Nat) : FR (readULPairs p) (6 + p) := by
  have h := fr_bind4 fr_readU16 fr_readU8 (fr_skip fr_readU16 (by omega) p) fr_readU8
    (f := fun b1 c1 b2 c2 => (b1, c1, b2, c2)) (R := readULPairs p) ?_
  · have e : 2 + 1 + (p + 2) + 1 = 6 + p := by omega
    exact e ▸ h
  · intro bs
    cases h1 : readU16 bs with
    | none => simp [readULPairs, h1]
    | some v1 =>
      obtain ⟨b1, bs1⟩ := v1
      cases h2 : readU8 bs1 with
      | none => simp [readULPairs, h1, h2]
      | some v2 =>
        obtain ⟨c1, bs2⟩ := v2
        cases h3 : readU16 (bs2.drop p) with
        | none => simp [readULPairs, h1, h2, skipB, h3]
        | some v3 =>
          obtain ⟨b2, bs4⟩ := v3
          cases h4 : readU8 bs4 with
          | none => simp [readULPairs, h1, h2, skipB, h3, h4]
          | some v4 =>
            obtain ⟨c2, bs5⟩ := v4
            simp [readULPairs, h1, h2, skipB, h3, h4]

/-- An uplink-record iteration is the fixed read of its two pairs
followed by the pure attach-and-commit tail. -/
theorem procUL_eq (out : DecOutput) (slots : SlotState) (p t d : Nat) (bs : Bytes) :
    procUL out slots p t d bs =
      match readULPairs p bs with
      | none => .fail out eofMsg
      | some ((b1, c1, b2, c2), r) => ulBody out slots p t d b1 c1 b2 c2 r := by
  cases h1 : readU16 bs with
  | none => simp [procUL, readULPairs, h1]
  | some v1 =>
    obtain ⟨b1, bs1⟩ := v1
    cases h2 : readU8 bs1 with
    | none => simp [procUL, readULPairs, h1, h2]
    | some v2 =>
      obtain ⟨c1, bs2⟩ := v2
      cases h3 : readU16 (bs2.drop p) with
      | none => simp [procUL, readULPairs, skipB, h1, h2, h3]
      | some v3 =>
        obtain ⟨b2, bs4⟩ := v3
        cases h4 : readU8 bs4 with
        | none => simp [procUL, readULPairs, skipB, h1, h2, h3, h4]
        | some v4 =>
          obtain ⟨c2, bs5⟩ := v4
          simp [procUL, readULPairs, ulBody, h1, h2, h3, h4, skipB]

/-- Appending a combo index to a group keeps the number of groups. -/
theorem pushGroupCombo_length (groups : List DecGroup) (g idx : Nat) :
    (pushGroupCombo groups g idx).length = groups.length := by
  unfold pushGroupCombo
  cases h : groups[g]? with
  | none => rfl
  | some gr => simp

/-- Committing a combo behaves the same from two related outputs: the
continue/fail decision, the new slot state and the appended combo agree,
and the remaining-bytes argument is passed through untouched. -/
theorem commitCombo_coh {out out2 : DecOutput} (h : OutRel out out2)
    (slots : SlotState) (u : List Nat) (a d : Nat) (r r2 : Bytes) :
    (∀ o s rr, commitCombo out slots u a d r = .cont o s rr →
      rr = r ∧ out.combos <+: o.combos ∧
      ∃ o2, commitCombo out2 slots u a d r2 = .cont o2 s r2 ∧ OutRel o o2) ∧
    (∀ o, commitCombo out slots u a d r ≠ .halt o) ∧
    (∀ o m, commitCombo out slots u a d r = .fail o m →
      out.combos <+: o.combos ∧
      ∃ o2, commitCombo out2 slots u a d r2 = .fail o2 m ∧ o2.combos = o.combos) := by
  obtain ⟨hc, hg⟩ := h
  unfold commitCombo
  cases buildCombo slots.band slots.bclass slots.ant u a true d slots.currentGroupIdx with
  | none =>
    refine ⟨fun o s rr hco => ?_, fun o hco => by simp at hco, fun o m hco => by simp at hco⟩
    cases hco
    exact ⟨rfl, List.prefix_refl _, out2, rfl, hc, hg⟩
  | some combo =>
    cases slots.currentGroupIdx with
    | ofNat g =>
      dsimp only
      by_cases hlt : g < out.groups.length
      · rw [if_pos hlt, if_pos (show g < out2.groups.length by rw [hg]; exact hlt)]
        refine ⟨fun o s rr hco => ?_, fun o hco => by simp at hco, fun o m hco => by simp at hco⟩
        cases hco
        refine ⟨rfl, ⟨[combo], rfl⟩, _, rfl, ?_, ?_⟩
        · simp [hc]
        · simp [pushGroupCombo_length, hg]
      · rw [if_neg hlt, if_neg (show ¬ g < out2.groups.length by rw [hg]; exact hlt)]
        refine ⟨fun o s rr hco => by simp at hco, fun o hco => by simp at hco,
          fun o m hco => ?_⟩
        cases hco
        exact ⟨⟨[combo], rfl⟩, _, rfl, by simp [hc]⟩
    | negSucc g =>
      dsimp only
      refine ⟨fun o s rr hco => by simp at hco, fun o hco => by simp at hco,
        fun o m hco => ?_⟩
      cases hco
      exact ⟨⟨[combo], rfl⟩, _, rfl, by simp [hc]⟩

/-- Coherence of a DL-header iteration under truncation: it needs and
consumes exactly the `c` bytes of its slot read. -/
theorem procHeader_coh {R : Bytes → Option ((List Nat × List Nat × List Nat) × Bytes)}
    {c : Nat} (hR : FR R c) (hc2 : 2 ≤ c) (out out2 : DecOutput) (h : OutRel out out2)
    (dt : Nat) (bs : Bytes) :
    StepCoh out out2 (procHeader out dt R bs)
      (fun n => procHeader out2 dt R (bs.take n)) bs c c := by
  obtain ⟨hcomb, hgl⟩ := h
  cases hs : R bs with
  | none =>
    have hfull : procHeader out dt R bs = .fail out eofMsg := by
      simp [procHeader, hs]
    have htr : ∀ n, procHeader out2 dt R (bs.take n) = .fail out2 eofMsg := by
      intro n
      simp [procHeader, FR_none hR hs n]
    refine ⟨hc2, le_refl c, ?_, ?_, ?_⟩
    · intro o s r hco
      rw [hfull] at hco
      exact absurd hco (by simp)
    · intro o hco
      rw [hfull] at hco
      exact absurd hco (by simp)
    · intro o m hco
      rw [hfull] at hco
      cases hco
      refine ⟨List.prefix_refl _, fun n => ⟨out2, eofMsg, htr n, ?_⟩⟩
      rw [hcomb]
  | some v =>
    obtain ⟨⟨band, bcl, ant⟩, rest⟩ := v
    obtain ⟨hrest, hlen⟩ := FR_some hR hs
    by_cases hany : (band.any fun b => decide (b ≠ 0)) = true
    · have hfull : procHeader out dt R bs = .cont
          { out with groups := out.groups ++
            [{ descType := dt, band := band, bclass := bcl, ant := ant, combos := [] }] }
          { band := band, bclass := bcl, ant := ant, ulclass := zeros6,
            currentDescType := dt, currentGroupIdx := Int.ofNat out.groups.length } rest := by
        simp only [procHeader, hs]
        rw [if_pos hany]
      refine ⟨hc2, le_refl c, ?_, ?_, ?_⟩
      · intro o s r hco
        rw [hfull] at hco
        cases hco
        refine ⟨hrest, hlen, List.prefix_refl _, ?_⟩
        intro n
        constructor
        · intro hn
          have htr : procHeader out2 dt R (bs.take n) = .cont
              { out2 with groups := out2.groups ++
                [{ descType := dt, band := band, bclass := bcl, ant := ant, combos := [] }] }
              { band := band, bclass := bcl, ant := ant, ulclass := zeros6,
                currentDescType := dt,
                currentGroupIdx := Int.ofNat out.groups.length }
              ((bs.drop c).take (n - c)) := by
            simp only [procHeader, FR_take_ok hR hs hn]
            rw [if_pos hany, hgl]
          refine ⟨{ out2 with groups := out2.groups ++
              [{ descType := dt, band := band, bclass := bcl, ant := ant, combos := [] }] },
            ?_, ?_, ?_⟩
          · show procHeader out2 dt R (bs.take n) = _
            rw [htr, hrest]
          · simp [hcomb]
          · simp [hgl]
        · intro hn
          have htr : procHeader out2 dt R (bs.take n) = .fail out2 eofMsg := by
            simp [procHeader, FR_take_short hR bs hn]
          exact ⟨out2, htr, hcomb⟩
      · intro o hco
        rw [hfull] at hco
        exact absurd hco (by simp)
      · intro o m hco
        rw [hfull] at hco
        exact absurd hco (by simp)
    · have hfull : procHeader out dt R bs = .halt { out with errors := out.errors ++
          ["Incorrect format: no any downlink carrier in combo"] } := by
        simp only [procHeader, hs]
        rw [if_neg hany]
      refine ⟨hc2, le_refl c, ?_, ?_, ?_⟩
      · intro o s r hco
        rw [hfull] at hco
        exact absurd hco (by simp)
      · intro o hco
        rw [hfull] at hco
        cases hco
        refine ⟨rfl, ?_⟩
        intro n
        by_cases hn : c ≤ n
        · left
          refine ⟨{ out2 with errors := out2.errors ++
              ["Incorrect format: no any downlink carrier in combo"] }, ?_, hcomb⟩
          show procHeader out2 dt R (bs.take n) = _
          simp only [procHeader, FR_take_ok hR hs hn]
          rw [if_neg hany]
        · right
          refine ⟨out2, ?_, hcomb⟩
          simp [procHeader, FR_take_short hR bs (lt_of_not_le hn)]
      · intro o m hco
        rw [hfull] at hco
        exact absurd hco (by simp)

/-- Coherence of an uplink-record iteration under truncation: it needs
the `6 + p` bytes of its two pairs and consumes them plus the skipped
paddings. -/
theorem procUL_coh (out out2 : DecOutput) (h : OutRel out out2) (slots : SlotState)
    (p t d : Nat) (bs : Bytes) :
    StepCoh out out2 (procUL out slots p t d bs)
      (fun n => procUL out2 slots p t d (bs.take n)) bs (6 + p) (6 + (2 * p + t)) := by
  have hFR := fr_readULPairs p
  obtain ⟨hcomb, hgl⟩ := h
  cases hP : readULPairs p bs with
  | none =>
    have hfull : procUL out slots p t d bs = .fail out eofMsg := by
      rw [procUL_eq, hP]
    have htr : ∀ n, procUL out2 slots p t d (bs.take n) = .fail out2 eofMsg := by
      intro n
      rw [procUL_eq, FR_none hFR hP n]
    refine ⟨by omega, by omega, ?_, ?_, ?_⟩
    · intro o s r hco
      rw [hfull] at hco
      exact absurd hco (by simp)
    · intro o hco
      rw [hfull] at hco
      exact absurd hco (by simp)
    · intro o m hco
      rw [hfull] at hco
      cases hco
      refine ⟨List.prefix_refl _, fun n => ⟨out2, eofMsg, htr n, ?_⟩⟩
      rw [hcomb]
  | some v =>
    obtain ⟨⟨b1, c1, b2, c2⟩, r⟩ := v
    obtain ⟨hr, hlen⟩ := FR_some hFR hP
    have hfull : procUL out slots p t d bs = ulBody out slots p t d b1 c1 b2 c2 r := by
      rw [procUL_eq, hP]
    have hrw : ((r.drop p).drop t) = bs.drop (6 + (2 * p + t)) := by
      rw [hr, List.drop_drop, List.drop_drop]
      congr 1
      omega
    have htr : ∀ n, 6 + p ≤ n → procUL out2 slots p t d (bs.take n) =
        ulBody out2 slots p t d b1 c1 b2 c2 ((bs.drop (6 + p)).take (n - (6 + p))) := by
      intro n hn
      rw [procUL_eq, FR_take_ok hFR hP hn]
    have htrarg : ∀ n, ((((bs.drop (6 + p)).take (n - (6 + p))).drop p).drop t) =
        (bs.drop (6 + (2 * p + t))).take (n - (6 + (2 * p + t))) := by
      intro n
      rw [List.drop_take, List.drop_take, List.drop_drop, List.drop_drop]
      congr 1
      · omega
      · congr 1
        omega
    have htrshort : ∀ n, n < 6 + p → procUL out2 slots p t d (bs.take n) =
        .fail out2 eofMsg := by
      intro n hn
      rw [procUL_eq, FR_take_short hFR bs hn]
    refine ⟨by omega, by omega, ?_, ?_, ?_⟩
    · intro o s r' hco
      rw [hfull] at hco
      simp only [ulBody] at hco
      obtain ⟨hrr, hmono, -⟩ :=
        (commitCombo_coh ⟨hcomb, hgl⟩ slots _ _ d _ []).1 o s r' hco
      refine ⟨hrr.trans hrw, hlen, hmono, ?_⟩
      intro n
      constructor
      · intro hn
        have ht := htr n hn
        simp only [ulBody] at ht
        rw [htrarg n] at ht
        obtain ⟨-, -, o2, hco2, hrel2⟩ :=
          (commitCombo_coh ⟨hcomb, hgl⟩ slots _ _ d _
            ((bs.drop (6 + (2 * p + t))).take (n - (6 + (2 * p + t))))).1 o s r' hco
        refine ⟨o2, ?_, hrel2⟩
        show procUL out2 slots p t d (bs.take n) = _
        rw [ht, hco2, hrr, hrw]
      · intro hn
        exact ⟨out2, htrshort n hn, hcomb⟩
    · intro o hco
      rw [hfull] at hco
      simp only [ulBody] at hco
      exact absurd hco ((commitCombo_coh ⟨hcomb, hgl⟩ slots _ _ d _ []).2.1 o)
    · intro o m hco
      rw [hfull] at hco
      simp only [ulBody] at hco
      obtain ⟨hmono, -⟩ := (commitCombo_coh ⟨hcomb, hgl⟩ slots _ _ d _ []).2.2 o m hco
      refine ⟨hmono, ?_⟩
      intro n
      by_cases hn : 6 + p ≤ n
      · have ht := htr n hn
        simp only [ulBody] at ht
        rw [htrarg n] at ht
        obtain ⟨-, o2, hco2, hcb⟩ :=
          (commitCombo_coh ⟨hcomb, hgl⟩ slots _ _ d _
            ((bs.drop (6 + (2 * p + t))).take (n - (6 + (2 * p + t))))).2.2 o m hco
        refine ⟨o2, m, ?_, ?_⟩
        · show procUL out2 slots p t d (bs.take n) = _
          rw [ht, hco2]
        · rw [hcb]
      · refine ⟨out2, eofMsg, htrshort n (lt_of_not_le hn), ?_⟩
        rw [hcomb]
        exact hmono

/-- Lift an iteration's coherence past the two tag bytes: the tag-bumped
outputs `outB`/`outB2` share their combo lists with the entering outputs
`out`/`out2`, the dispatched body acts on `rest = bs.drop 2`, and a
truncation shorter than the tag aborts immediately. -/
theorem StepCoh_lift {outB outB2 out out2 : DecOutput} {full : StepRes}
    {G2 : Bytes → StepRes} {bs rest : Bytes} {need cAll : Nat}
    (hc1 : outB.combos = out.combos) (hc2 : outB2.combos = out2.combos)
    (hcc : out2.combos = out.combos)
    (hrest : rest = bs.drop 2) (hlen : 2 ≤ bs.length)
    (h : StepCoh outB outB2 full (fun m => G2 (rest.take m)) rest need cAll)
    {T : Nat → StepRes}
    (hT2 : ∀ n, 2 ≤ n → T n = G2 (rest.take (n - 2)))
    (hT0 : ∀ n, n < 2 → T n = .fail out2 eofMsg) :
    StepCoh out out2 full T bs (2 + need) (2 + cAll) := by
  obtain ⟨h2, hnc, hcont, hhalt, hfail⟩ := h
  have hrl : rest.length = bs.length - 2 := by rw [hrest]; simp
  refine ⟨by omega, by omega, ?_, ?_, ?_⟩
  · intro o s r hco
    obtain ⟨hr, hneed, hmono, hn⟩ := hcont o s r hco
    refine ⟨?_, by omega, hc1 ▸ hmono, ?_⟩
    · rw [hr, hrest, List.drop_drop]
    · intro n
      constructor
      · intro hn2
        obtain ⟨o2, ht, hrel⟩ := (hn (n - 2)).1 (by omega)
        refine ⟨o2, ?_, hrel⟩
        rw [hT2 n (by omega), show n - (2 + cAll) = n - 2 - cAll by omega]
        exact ht
      · intro hn2
        by_cases hlt2 : n < 2
        · exact ⟨out2, hT0 n hlt2, hcc⟩
        · obtain ⟨o2, ht, hcb⟩ := (hn (n - 2)).2 (by omega)
          refine ⟨o2, ?_, ?_⟩
          · rw [hT2 n (by omega)]
            exact ht
          · rw [hcb, hc1]
  · intro o hco
    obtain ⟨hoc, hn⟩ := hhalt o hco
    refine ⟨hoc.trans hc1, ?_⟩
    intro n
    by_cases hlt2 : n < 2
    · right
      exact ⟨out2, hT0 n hlt2, hcc⟩
    · rcases hn (n - 2) with ⟨o2, ht, hcb⟩ | ⟨o2, ht, hcb⟩
      · left
        exact ⟨o2, by rw [hT2 n (by omega)]; exact ht, hcb.trans hc1⟩
      · right
        exact ⟨o2, by rw [hT2 n (by omega)]; exact ht, hcb.trans hc1⟩
  · intro o m hco
    obtain ⟨hmono, hn⟩ := hfail o m hco
    refine ⟨hc1 ▸ hmono, ?_⟩
    intro n
    by_cases hlt2 : n < 2
    · refine ⟨out2, eofMsg, hT0 n hlt2, ?_⟩
      rw [hcc]
      exact hc1 ▸ hmono
    · obtain ⟨o2, m2, ht, hcb⟩ := hn (n - 2)
      exact ⟨o2, m2, by rw [hT2 n (by omega)]; exact ht, hcb⟩

/-- Coherence of a full main-loop iteration under truncation: for every
tag there are a needed-byte count and a consumed-byte count making the
truncated iteration mirror the full one. -/
theorem stepIter_coh (out out2 : DecOutput) (slots : SlotState) (bs : Bytes)
    (h : OutRel out out2) :
    ∃ need cAll, StepCoh out out2 (stepIter out slots bs)
      (fun n => stepIter out2 slots (bs.take n)) bs need cAll := by
  obtain ⟨hcomb, hgl⟩ := h
  cases h16 : readU16 bs with
  | none =>
    have hfull : stepIter out slots bs = .fail out eofMsg := by
      simp [stepIter, h16]
    have htr : ∀ n, stepIter out2 slots (bs.take n) = .fail out2 eofMsg := by
      intro n
      simp [stepIter, FR_none fr_readU16 h16 n]
    refine ⟨2, 2, by omega, le_refl 2, ?_, ?_, ?_⟩
    · intro o s r hco
      rw [hfull] at hco
      exact absurd hco (by simp)
    · intro o hco
      rw [hfull] at hco
      exact absurd hco (by simp)
    · intro o m hco
      rw [hfull] at hco
      cases hco
      refine ⟨List.prefix_refl _, fun n => ⟨out2, eofMsg, htr n, ?_⟩⟩
      rw [hcomb]
  | some v =>
    obtain ⟨tag, rest⟩ := v
    obtain ⟨hrest, hlen⟩ := FR_some fr_readU16 h16
    have hT2gen : ∀ n, 2 ≤ n → readU16 (bs.take n) = some (tag, rest.take (n - 2)) := by
      intro n hn
      have h := FR_take_ok fr_readU16 h16 hn
      rwa [← hrest] at h
    have hT0gen : ∀ n, n < 2 → readU16 (bs.take n) = none := by
      intro n hn
      exact FR_take_short fr_readU16 bs hn
    by_cases h333 : tag = 333
    · subst h333
      refine ⟨2 + 11 * 6, 2 + 11 * 6, ?_⟩
      have hfull : stepIter out slots bs =
          procHeader { out with stat333 := out.stat333 + 1 } 333 (readSlots333 6) rest := by
        simp [stepIter, h16]
      rw [hfull]
      refine StepCoh_lift rfl rfl hcomb hrest hlen
        (procHeader_coh (fr_readSlots333 6) (by omega) { out with stat333 := out.stat333 + 1 } { out2 with stat333 := out2.stat333 + 1 } ⟨hcomb, hgl⟩ 333 rest) ?_ ?_
      · intro n hn
        simp [stepIter, hT2gen n hn]
      · intro n hn
        simp [stepIter, hT0gen n hn]
    · by_cases h334 : tag = 334
      · subst h334
        refine ⟨2 + (6 + 8), 2 + (6 + (2 * 8 + 44)), ?_⟩
        have hfull : stepIter out slots bs =
            procUL { out with stat334 := out.stat334 + 1 } slots 8 44 333 rest := by
          simp [stepIter, h16]
        rw [hfull]
        refine StepCoh_lift rfl rfl hcomb hrest hlen
          (procUL_coh { out with stat334 := out.stat334 + 1 } { out2 with stat334 := out2.stat334 + 1 } ⟨hcomb, hgl⟩ slots 8 44 333 rest) ?_ ?_
        · intro n hn
          simp [stepIter, hT2gen n hn]
        · intro n hn
          simp [stepIter, hT0gen n hn]
      · by_cases h201 : tag = 201
        · subst h201
          refine ⟨2 + 4 * 6, 2 + 4 * 6, ?_⟩
          have hfull : stepIter out slots bs =
              procHeader { out with stat201 := out.stat201 + 1 } 201 (readSlots201 6) rest := by
            simp [stepIter, h16]
          rw [hfull]
          refine StepCoh_lift rfl rfl hcomb hrest hlen
            (procHeader_coh (fr_readSlots201 6) (by omega) { out with stat201 := out.stat201 + 1 } { out2 with stat201 := out2.stat201 + 1 } ⟨hcomb, hgl⟩ 201 rest) ?_ ?_
          · intro n hn
            simp [stepIter, hT2gen n hn]
          · intro n hn
            simp [stepIter, hT0gen n hn]
        · by_cases h202 : tag = 202
          · subst h202
            refine ⟨2 + (6 + 1), 2 + (6 + (2 * 1 + 16)), ?_⟩
            have hfull : stepIter out slots bs =
                procUL { out with stat202 := out.stat202 + 1 } slots 1 16 201 rest := by
              simp [stepIter, h16]
            rw [hfull]
            refine StepCoh_lift rfl rfl hcomb hrest hlen
              (procUL_coh { out with stat202 := out.stat202 + 1 } { out2 with stat202 := out2.stat202 + 1 } ⟨hcomb, hgl⟩ slots 1 16 201 rest) ?_ ?_
            · intro n hn
              simp [stepIter, hT2gen n hn]
            · intro n hn
              simp [stepIter, hT0gen n hn]
          · by_cases h137 : tag = 137
            · subst h137
              refine ⟨2 + 3 * 6, 2 + 3 * 6, ?_⟩
              have hfull : stepIter out slots bs =
                  procHeader { out with stat137 := out.stat137 + 1 } 137 (readSlots137 6) rest := by
                simp [stepIter, h16]
              rw [hfull]
              refine StepCoh_lift rfl rfl hcomb hrest hlen
                (procHeader_coh (fr_readSlots137 6) (by omega) { out with stat137 := out.stat137 + 1 } { out2 with stat137 := out2.stat137 + 1 } ⟨hcomb, hgl⟩ 137 rest) ?_ ?_
              · intro n hn
                simp [stepIter, hT2gen n hn]
              · intro n hn
                simp [stepIter, hT0gen n hn]
            · by_cases h138 : tag = 138
              · subst h138
                refine ⟨2 + (6 + 0), 2 + (6 + (2 * 0 + 12)), ?_⟩
                have hfull : stepIter out slots bs =
                    procUL { out with stat138 := out.stat138 + 1 } slots 0 12 137 rest := by
                  simp [stepIter, h16]
                rw [hfull]
                refine StepCoh_lift rfl rfl hcomb hrest hlen
                  (procUL_coh { out with stat138 := out.stat138 + 1 } { out2 with stat138 := out2.stat138 + 1 } ⟨hcomb, hgl⟩ slots 0 12 137 rest) ?_ ?_
                · intro n hn
                  simp [stepIter, hT2gen n hn]
                · intro n hn
                  simp [stepIter, hT0gen n hn]
              · -- unknown tag: halt with the unknown-descriptor message
                have hfull : stepIter out slots bs = .halt { out with errors := out.errors ++
                    ["Incorrect format: incorrect descriptor type " ++ Nat.repr tag ++
                     " (137, 138, 201, 202, 333 or 334 expected). File offset=0x" ++
                     hexRepr (out.fileSize - bs.length) ++ "."] } := by
                  simp [stepIter, h16, h333, h334, h201, h202, h137, h138]
                refine ⟨2, 2, by omega, le_refl 2, ?_, ?_, ?_⟩
                · intro o s r hco
                  rw [hfull] at hco
                  exact absurd hco (by simp)
                · intro o hco
                  rw [hfull] at hco
                  cases hco
                  refine ⟨rfl, ?_⟩
                  intro n
                  by_cases hn : 2 ≤ n
                  · left
                    refine ⟨{ out2 with errors := out2.errors ++
                        ["Incorrect format: incorrect descriptor type " ++ Nat.repr tag ++
                         " (137, 138, 201, 202, 333 or 334 expected). File offset=0x" ++
                         hexRepr (out2.fileSize - (bs.take n).length) ++ "."] }, ?_, hcomb⟩
                    show stepIter out2 slots (bs.take n) = _
                    simp [stepIter, hT2gen n hn, h333, h334, h201, h202, h137, h138]
                  · right
                    refine ⟨out2, ?_, hcomb⟩
                    show stepIter out2 slots (bs.take n) = _
                    simp [stepIter, hT0gen n (lt_of_not_le hn)]
                · intro o m hco
                  rw [hfull] at hco
                  exact absurd hco (by simp)

/-- The combo list only grows across the main loop. -/
theorem decodeLoop_mono (fuel : Nat) : ∀ (out : DecOutput) (slots : SlotState) (bs : Bytes),
    out.combos <+: (decodeLoop fuel out slots bs).1.combos := by
  induction fuel with
  | zero =>
    intro out slots bs
    exact List.prefix_refl _
  | succ f ih =>
    intro out slots bs
    simp only [decodeLoop]
    by_cases hbs : bs.isEmpty
    · rw [if_pos hbs]
    · rw [if_neg hbs]
      obtain ⟨need, cAll, h2n, hnc, hcont, hhalt, hfail⟩ :=
        stepIter_coh out out slots bs ⟨rfl, rfl⟩
      cases hstep : stepIter out slots bs with
      | cont o s r =>
        obtain ⟨-, -, hmono, -⟩ := hcont o s r hstep
        exact hmono.trans (ih o s r)
      | halt o =>
        obtain ⟨hoc, -⟩ := hhalt o hstep
        rw [hoc]
      | fail o m =>
        obtain ⟨hmono, -⟩ := hfail o m hstep
        exact hmono

/-- The decoded combo list of a truncated buffer is a prefix of the full
buffer's, for any sufficient fuel and any pair of related starting
outputs. -/
theorem decodeLoop_take : ∀ (fuel2 fuel1 : Nat) (out out2 : DecOutput)
    (slots : SlotState) (bs : Bytes) (n : Nat), OutRel out out2 →
    bs.length < fuel2 → (bs.take n).length < fuel1 →
    (decodeLoop fuel1 out2 slots (bs.take n)).1.combos <+:
      (decodeLoop fuel2 out slots bs).1.combos := by
  intro fuel2
  induction fuel2 with
  | zero =>
    intro fuel1 out out2 slots bs n _ h2 _
    omega
  | succ f2 ih =>
    intro fuel1 out out2 slots bs n hrel hl2 hl1
    obtain ⟨hcomb, hgl⟩ := hrel
    cases fuel1 with
    | zero => omega
    | succ f1 =>
      by_cases hbs : bs.isEmpty
      · have hbs' : bs = [] := List.isEmpty_iff.mp hbs
        subst hbs'
        simp only [List.take_nil]
        have hL : decodeLoop (f1 + 1) out2 slots [] = (out2, none) := by
          simp [decodeLoop]
        have hR : decodeLoop (f2 + 1) out slots [] = (out, none) := by
          simp [decodeLoop]
        rw [hL, hR, hcomb]
      · by_cases htn : (bs.take n).isEmpty
        · have hL : decodeLoop (f1 + 1) out2 slots (bs.take n) = (out2, none) := by
            simp only [decodeLoop, if_pos htn]
          rw [hL]
          show out2.combos <+: _
          rw [hcomb]
          exact decodeLoop_mono (f2 + 1) out slots bs
        · obtain ⟨need, cAll, h2n, hnc, hcont, hhalt, hfail⟩ :=
            stepIter_coh out out2 slots bs ⟨hcomb, hgl⟩
          cases hstep : stepIter out slots bs with
          | cont o s r =>
            obtain ⟨hr, hneed, hmono, hn⟩ := hcont o s r hstep
            have hFL : decodeLoop (f2 + 1) out slots bs = decodeLoop f2 o s r := by
              simp [decodeLoop, hbs, hstep]
            rcases le_or_lt need n with hle | hlt
            · obtain ⟨o2, ht, hrel2⟩ := (hn n).1 hle
              have hTL : decodeLoop (f1 + 1) out2 slots (bs.take n) =
                  decodeLoop f1 o2 s (r.take (n - cAll)) := by
                simp [decodeLoop, htn, ht]
              rw [hFL, hTL]
              have e1 : r.length = bs.length - cAll := by rw [hr]; simp
              have e2 : (bs.take n).length = min n bs.length := by simp
              have e3 : (r.take (n - cAll)).length = min (n - cAll) r.length := by simp
              exact ih f1 o o2 s r (n - cAll) hrel2 (by omega) (by omega)
            · obtain ⟨o2, ht, hcb⟩ := (hn n).2 hlt
              have hTL : decodeLoop (f1 + 1) out2 slots (bs.take n) =
                  (o2, some eofMsg) := by
                simp [decodeLoop, htn, ht]
              rw [hFL, hTL]
              show o2.combos <+: _
              rw [hcb]
              exact hmono.trans (decodeLoop_mono f2 o s r)
          | halt o =>
            obtain ⟨hoc, hn⟩ := hhalt o hstep
            have hFL : decodeLoop (f2 + 1) out slots bs = (o, none) := by
              simp [decodeLoop, hbs, hstep]
            rw [hFL]
            rcases hn n with ⟨o2, ht, hcb⟩ | ⟨o2, ht, hcb⟩
            · have hTL : decodeLoop (f1 + 1) out2 slots (bs.take n) = (o2, none) := by
                simp [decodeLoop, htn, ht]
              rw [hTL]
              show o2.combos <+: o.combos
              rw [hcb, hoc]
            · have hTL : decodeLoop (f1 + 1) out2 slots (bs.take n) =
                  (o2, some eofMsg) := by
                simp [decodeLoop, htn, ht]
              rw [hTL]
              show o2.combos <+: o.combos
              rw [hcb, hoc]
          | fail o m =>
            obtain ⟨hmono, hn⟩ := hfail o m hstep
            obtain ⟨o2, m2, ht, hcb⟩ := hn n
            have hFL : decodeLoop (f2 + 1) out slots bs = (o, some m) := by
              simp [decodeLoop, hbs, hstep]
            have hTL : decodeLoop (f1 + 1) out2 slots (bs.take n) = (o2, some m2) := by
              simp [decodeLoop, htn, ht]
            rw [hFL, hTL]
            exact hcb

/-- Truncating the input buffer can only shorten the decoded combo list:
the truncated decode's combos are a prefix of the full decode's. -/
theorem decodePlain_take_prefix (bs : Bytes) (n : Nat) :
    (decodePlain (bs.take n)).combos <+: (decodePlain bs).combos := by
  rcases le_or_lt bs.length n with hn | hn
  · rw [List.take_of_length_le hn]
  · have hcombos : ∀ (l : Bytes),
        (decodePlain l).combos = (decodeTry l.length l.length false l).1.combos := by
      intro l
      rfl
    rw [hcombos, hcombos]
    cases h1 : readU16 bs with
    | none =>
      have t1 : readU16 (bs.take n) = none := FR_none fr_readU16 h1 n
      simp [decodeTry, h1, t1, initOutput]
    | some v =>
      obtain ⟨fv, bs1⟩ := v
      obtain ⟨hbs1, hlen1⟩ := FR_some fr_readU16 h1
      by_cases h2n : 2 ≤ n
      · have t1 : readU16 (bs.take n) = some (fv, (bs.drop 2).take (n - 2)) :=
          FR_take_ok fr_readU16 h1 h2n
        cases h2 : readU16 bs1 with
        | none =>
          have t2 : readU16 ((bs.drop 2).take (n - 2)) = none := by
            rw [← hbs1]
            exact FR_none fr_readU16 h2 (n - 2)
          simp [decodeTry, h1, t1, h2, t2, initOutput]
        | some w =>
          obtain ⟨nd, bs2⟩ := w
          obtain ⟨hbs2, hlen2⟩ := FR_some fr_readU16 h2
          by_cases h4n : 2 ≤ n - 2
          · have t2 : readU16 ((bs.drop 2).take (n - 2)) =
                some (nd, (bs1.drop 2).take (n - 2 - 2)) := by
              rw [← hbs1]
              exact FR_take_ok fr_readU16 h2 h4n
            simp only [decodeTry, h1, t1, h2, t2]
            rw [← hbs2]
            apply decodeLoop_take
            · exact ⟨rfl, rfl⟩
            · omega
            · omega
          · have t2 : readU16 ((bs.drop 2).take (n - 2)) = none := by
              rw [← hbs1]
              exact FR_take_short fr_readU16 bs1 (by omega)
            simp [decodeTry, h1, t1, h2, t2, initOutput]
      · have t1 : readU16 (bs.take n) = none :=
          FR_take_short fr_readU16 bs (by omega)
        simp [decodeTry, h1, t1, initOutput]

/-! ## C5 — decode resilience under truncation -/

/-- Claim C5, counterexample: truncating the valid buffer `truncBaseBuf`
(whose full decode has no errors) inside its second uplink record, at two
different byte offsets (46 and 50), yields the same single abort message
`Unexpected end of file` — the message carries no byte offset — while the
one combo decoded before the truncation point is retained. -/
theorem c5_counterexample :
    (decodePlain truncBaseBuf).errors = [] ∧
    (decodePlain truncBaseBuf).combos.length = 2 ∧
    (decodePlain (truncBaseBuf.take 46)).errors = [eofMsg] ∧
    (decodePlain (truncBaseBuf.take 50)).errors = [eofMsg] ∧
    (decodePlain (truncBaseBuf.take 46)).combos.length = 1 ∧
    (decodePlain (truncBaseBuf.take 50)).combos.length = 1 := by
  decide

/-- Claim C5 as amended: whenever decoding a truncated buffer aborts with
a read past the end (the decode body throws `Unexpected end of file`),
the returned errors list ends with exactly that fixed, offset-free
message; the truncated decode's combos are a prefix of the full decode's;
and every combo decoded from any shorter truncation is retained (the
combo list is monotone in the truncation point). -/
theorem c5_amended (bs : Bytes) (n : Nat)
    (hth : (decodeTry (bs.take n).length (bs.take n).length false (bs.take n)).2 =
      some eofMsg) :
    (decodePlain (bs.take n)).errors.getLast? = some eofMsg ∧
    (decodePlain (bs.take n)).combos <+: (decodePlain bs).combos ∧
    ∀ m, m ≤ n → (decodePlain (bs.take m)).combos <+: (decodePlain (bs.take n)).combos := by
  refine ⟨?_, decodePlain_take_prefix bs n, ?_⟩
  · show (decodeBody (bs.take n).length (bs.take n).length false (bs.take n)).errors.getLast? = _
    simp only [List.length_take] at hth
    simp [decodeBody, hth, List.getLast?_concat]
  · intro m hm
    have h := decodePlain_take_prefix (bs.take n) m
    rwa [List.take_take, min_eq_left hm] at h

/-- The C5 amended theorem applied at the concrete mid-record truncation
of `truncBaseBuf` at byte 46. -/
theorem c5_witness :
    (decodeTry (truncBaseBuf.take 46).length (truncBaseBuf.take 46).length false
        (truncBaseBuf.take 46)).2 = some eofMsg ∧
    ((decodePlain (truncBaseBuf.take 46)).errors.getLast? = some eofMsg ∧
     (decodePlain (truncBaseBuf.take 46)).combos <+: (decodePlain truncBaseBuf).combos ∧
     ∀ m, m ≤ 46 → (decodePlain (truncBaseBuf.take m)).combos <+:
       (decodePlain (truncBaseBuf.take 46)).combos) :=
  ⟨by decide, c5_amended truncBaseBuf 46 (by decide)⟩

/-! ## C2 — the decode-output group/combo invariant -/

/-- A list element fetched with a default at an in-range index is a
member. -/
theorem getD_mem_of_lt {α : Type} (l : List α) (i : Nat) (d : α) (h : i < l.length) :
    l.getD i d ∈ l := by
  rw [List.getD_eq_getElem l d h]
  exact l.getElem_mem h

/-- `buildCombo` stamps the combo with the group index it was given. -/
theorem buildCombo_groupIdx {band bclass ant ul : List Nat} {a : Nat} {sm : Bool}
    {dt : Nat} {gi : Int} {c : DecCombo}
    (h : buildCombo band bclass ant ul a sm dt gi = some c) : c.groupIdx = gi := by
  unfold buildCombo at h
  dsimp only at h
  split_ifs at h
  cases h
  rfl

/-- Lookup in `pushGroupCombo` at the pushed index. -/
theorem pushGroupCombo_getD_same (groups : List DecGroup) (g idx : Nat)
    (hg : g < groups.length) :
    (pushGroupCombo groups g idx).getD g emptyDecGroup =
      { groups.getD g emptyDecGroup with
        combos := (groups.getD g emptyDecGroup).combos ++ [idx] } := by
  have h1 : groups[g]? = some (groups.getD g emptyDecGroup) := by
    simp [List.getD_eq_getElem _ _ hg, List.getElem?_eq_getElem hg]
  simp only [pushGroupCombo, h1]
  simp [List.getD, List.getElem?_set, hg]

/-- Lookup in `pushGroupCombo` away from the pushed index. -/
theorem pushGroupCombo_getD_ne (groups : List DecGroup) (g idx g2 : Nat)
    (hne : g2 ≠ g) :
    (pushGroupCombo groups g idx).getD g2 emptyDecGroup =
      groups.getD g2 emptyDecGroup := by
  unfold pushGroupCombo
  cases h : groups[g]? with
  | none => rfl
  | some gr => simp [List.getD, List.getElem?_set, hne.symm]

/-- A DL-header iteration preserves the group/combo invariant: the new
group is empty and no existing combo names it. -/
theorem procHeader_inv {out : DecOutput} {dt : Nat}
    {R : Bytes → Option ((List Nat × List Nat × List Nat) × Bytes)} {bs : Bytes}
    {o : DecOutput} {s : SlotState} {r : Bytes}
    (h : procHeader out dt R bs = .cont o s r) (hinv : GroupCountInv out) :
    GroupCountInv o := by
  obtain ⟨h1, h2⟩ := hinv
  cases hs : R bs with
  | none =>
    simp only [procHeader, hs] at h
    exact absurd h (by simp)
  | some v =>
    obtain ⟨⟨band, bcl, ant⟩, rest⟩ := v
    simp only [procHeader, hs] at h
    by_cases hany : (band.any fun b => decide (b ≠ 0)) = true
    · rw [if_pos hany] at h
      cases h
      constructor
      · intro c hc
        obtain ⟨g, hg1, hg2⟩ := h1 c hc
        refine ⟨g, hg1, ?_⟩
        simp only [List.length_append, List.length_cons, List.length_nil]
        omega
      · intro g hg
        simp only [List.length_append, List.length_cons, List.length_nil] at hg
        by_cases hlt : g < out.groups.length
        · have e1 : (out.groups ++
              ([{ descType := dt, band := band, bclass := bcl, ant := ant,
                  combos := [] }] : List DecGroup)).getD g emptyDecGroup =
              out.groups.getD g emptyDecGroup := by
            simp [List.getD, List.getElem?_append, hlt]
          rw [e1]
          exact h2 g hlt
        · have hgeq : g = out.groups.length := by omega
          subst hgeq
          have e1 : (out.groups ++
              ([{ descType := dt, band := band, bclass := bcl, ant := ant,
                  combos := [] }] : List DecGroup)).getD out.groups.length emptyDecGroup =
              { descType := dt, band := band, bclass := bcl, ant := ant,
                combos := [] } := by
            simp [List.getD]
          rw [e1]
          show (0 : Nat) = _
          symm
          rw [← List.countP_eq_length_filter, List.countP_eq_zero]
          intro c hc
          obtain ⟨g, hg1, hg2⟩ := h1 c hc
          simp only [hg1, decide_eq_true_eq, Int.ofNat.injEq]
          omega
    · rw [if_neg hany] at h
      exact absurd h (by simp)

/-- Committing a combo preserves the group/combo invariant: the combo
names an in-range group and that group's member list grows by one. -/
theorem commitCombo_inv {out : DecOutput} {slots : SlotState} {u : List Nat}
    {a d : Nat} {r : Bytes} {o : DecOutput} {s : SlotState} {rr : Bytes}
    (h : commitCombo out slots u a d r = .cont o s rr)
    (hinv : GroupCountInv out) : GroupCountInv o := by
  obtain ⟨h1, h2⟩ := hinv
  revert h
  unfold commitCombo
  cases hb : buildCombo slots.band slots.bclass slots.ant u a true d
      slots.currentGroupIdx with
  | none =>
    intro h
    cases h
    exact ⟨h1, h2⟩
  | some combo =>
    cases hgi : slots.currentGroupIdx with
    | ofNat g =>
      dsimp only
      by_cases hlt : g < out.groups.length
      · rw [if_pos hlt]
        intro h
        cases h
        rw [hgi] at hb
        have hcgi : combo.groupIdx = Int.ofNat g := buildCombo_groupIdx hb
        constructor
        · intro c hc
          rw [List.mem_append] at hc
          rcases hc with hc | hc
          · obtain ⟨g2, hg1, hg2⟩ := h1 c hc
            refine ⟨g2, hg1, ?_⟩
            rw [pushGroupCombo_length]
            exact hg2
          · rw [List.mem_singleton] at hc
            subst hc
            refine ⟨g, hcgi, ?_⟩
            rw [pushGroupCombo_length]
            exact hlt
        · intro g2 hg2
          rw [pushGroupCombo_length] at hg2
          rw [List.filter_append]
          by_cases heq : g2 = g
          · subst heq
            rw [pushGroupCombo_getD_same _ _ _ hg2]
            simp only [List.length_append]
            rw [h2 g2 hg2]
            have e2 : List.filter (fun c => decide (c.groupIdx = Int.ofNat g2))
                [combo] = [combo] := by
              simp [hcgi]
            rw [e2]
            rfl
          · rw [pushGroupCombo_getD_ne _ _ _ _ heq]
            have e2 : List.filter (fun c => decide (c.groupIdx = Int.ofNat g2))
                [combo] = [] := by
              simp [hcgi, Int.ofNat.injEq, Ne.symm heq]
            rw [e2, List.append_nil]
            exact h2 g2 hg2
      · rw [if_neg hlt]
        intro h
        exact absurd h (by simp)
    | negSucc g =>
      dsimp only
      intro h
      exact absurd h (by simp)

/-- An uplink-record iteration preserves the group/combo invariant. -/
theorem procUL_inv {out : DecOutput} {slots : SlotState} {p t d : Nat} {bs : Bytes}
    {o : DecOutput} {s : SlotState} {r : Bytes}
    (h : procUL out slots p t d bs = .cont o s r) (hinv : GroupCountInv out) :
    GroupCountInv o := by
  rw [procUL_eq] at h
  revert h
  cases hP : readULPairs p bs with
  | none =>
    intro h
    exact absurd h (by simp)
  | some v =>
    obtain ⟨⟨b1, c1, b2, c2⟩, rr⟩ := v
    intro h
    simp only [ulBody] at h
    exact commitCombo_inv h hinv

/-- One main-loop iteration preserves the group/combo invariant. -/
theorem stepIter_inv {out : DecOutput} {slots : SlotState} {bs : Bytes}
    {o : DecOutput} {s : SlotState} {r : Bytes}
    (h : stepIter out slots bs = .cont o s r) (hinv : GroupCountInv out) :
    GroupCountInv o := by
  revert h
  unfold stepIter
  cases h16 : readU16 bs with
  | none =>
    intro h
    exact absurd h (by simp)
  | some v =>
    obtain ⟨tag, rest⟩ := v
    dsimp only
    by_cases h333 : tag = 333
    · rw [if_pos h333]
      intro h
      exact procHeader_inv h hinv
    · rw [if_neg h333]
      by_cases h334 : tag = 334
      · rw [if_pos h334]
        intro h
        exact procUL_inv h hinv
      · rw [if_neg h334]
        by_cases h201 : tag = 201
        · rw [if_pos h201]
          intro h
          exact procHeader_inv h hinv
        · rw [if_neg h201]
          by_cases h202 : tag = 202
          · rw [if_pos h202]
            intro h
            exact procUL_inv h hinv
          · rw [if_neg h202]
            by_cases h137 : tag = 137
            · rw [if_pos h137]
              intro h
              exact procHeader_inv h hinv
            · rw [if_neg h137]
              by_cases h138 : tag = 138
              · rw [if_pos h138]
                intro h
                exact procUL_inv h hinv
              · rw [if_neg h138]
                intro h
                exact absurd h (by simp)

/-- An uplink-record iteration never stops the loop with `break`. -/
theorem procUL_no_halt {out : DecOutput} {slots : SlotState} {p t d : Nat}
    {bs : Bytes} {o : DecOutput} : procUL out slots p t d bs ≠ .halt o := by
  rw [procUL_eq]
  cases hP : readULPairs p bs with
  | none => simp
  | some v =>
    obtain ⟨⟨b1, c1, b2, c2⟩, r⟩ := v
    simp only [ulBody]
    exact (commitCombo_coh ⟨rfl, rfl⟩ slots _ _ d _ []).2.1 o

/-- A DL-header iteration that stops the loop records an error message. -/
theorem procHeader_halt_errors {out : DecOutput} {dt : Nat}
    {R : Bytes → Option ((List Nat × List Nat × List Nat) × Bytes)} {bs : Bytes}
    {o : DecOutput} (h : procHeader out dt R bs = .halt o) :
    ∃ m, o.errors = out.errors ++ [m] := by
  revert h
  cases hs : R bs with
  | none =>
    intro h
    simp only [procHeader, hs] at h
    exact absurd h (by simp)
  | some v =>
    obtain ⟨⟨band, bcl, ant⟩, rest⟩ := v
    intro h
    simp only [procHeader, hs] at h
    by_cases hany : (band.any fun b => decide (b ≠ 0)) = true
    · rw [if_pos hany] at h
      exact absurd h (by simp)
    · rw [if_neg hany] at h
      cases h
      exact ⟨_, rfl⟩

/-- A main-loop iteration that stops the loop records an error message. -/
theorem stepIter_halt_errors {out : DecOutput} {slots : SlotState} {bs : Bytes}
    {o : DecOutput} (h : stepIter out slots bs = .halt o) :
    ∃ m, o.errors = out.errors ++ [m] := by
  revert h
  unfold stepIter
  cases h16 : readU16 bs with
  | none =>
    intro h
    exact absurd h (by simp)
  | some v =>
    obtain ⟨tag, rest⟩ := v
    dsimp only
    by_cases h333 : tag = 333
    · rw [if_pos h333]
      intro h
      obtain ⟨m, hm⟩ := procHeader_halt_errors h
      exact ⟨m, hm⟩
    · rw [if_neg h333]
      by_cases h334 : tag = 334
      · rw [if_pos h334]
        intro h
        exact absurd h procUL_no_halt
      · rw [if_neg h334]
        by_cases h201 : tag = 201
        · rw [if_pos h201]
          intro h
          obtain ⟨m, hm⟩ := procHeader_halt_errors h
          exact ⟨m, hm⟩
        · rw [if_neg h201]
          by_cases h202 : tag = 202
          · rw [if_pos h202]
            intro h
            exact absurd h procUL_no_halt
          · rw [if_neg h202]
            by_cases h137 : tag = 137
            · rw [if_pos h137]
              intro h
              obtain ⟨m, hm⟩ := procHeader_halt_errors h
              exact ⟨m, hm⟩
            · rw [if_neg h137]
              by_cases h138 : tag = 138
              · rw [if_pos h138]
                intro h
                exact absurd h procUL_no_halt
              · rw [if_neg h138]
                intro h
                cases h
                exact ⟨_, rfl⟩

/-- The group/combo invariant holds at the end of every loop run that
reports no error. -/
theorem decodeLoop_inv (fuel : Nat) : ∀ (out : DecOutput) (slots : SlotState)
    (bs : Bytes) (o2 : DecOutput), decodeLoop fuel out slots bs = (o2, none) →
    o2.errors = [] → GroupCountInv out → GroupCountInv o2 := by
  induction fuel with
  | zero =>
    intro out slots bs o2 h herr hinv
    simp only [decodeLoop] at h
    cases h
    exact hinv
  | succ f ih =>
    intro out slots bs o2 h herr hinv
    simp only [decodeLoop] at h
    by_cases hbs : bs.isEmpty
    · rw [if_pos hbs] at h
      cases h
      exact hinv
    · rw [if_neg hbs] at h
      revert h
      cases hstep : stepIter out slots bs with
      | cont o s r =>
        intro h
        exact ih o s r o2 h herr (stepIter_inv hstep hinv)
      | halt o =>
        intro h
        cases h
        obtain ⟨m, hm⟩ := stepIter_halt_errors hstep
        rw [hm] at herr
        exact absurd herr (by simp)
      | fail o m =>
        intro h
        simp at h

/-- The group/combo invariant holds of every error-free decode. -/
theorem decodePlain_inv (bs : Bytes) (herr : (decodePlain bs).errors = []) :
    GroupCountInv (decodePlain bs) := by
  have herr2 : (decodeTry bs.length bs.length false bs).1.errors ++
      (decodeTry bs.length bs.length false bs).2.toList = [] := herr
  cases h1 : readU16 bs with
  | none =>
    simp [decodeTry, h1, initOutput] at herr2
  | some v =>
    obtain ⟨fv, bs1⟩ := v
    cases h2 : readU16 bs1 with
    | none =>
      simp [decodeTry, h1, h2, initOutput] at herr2
    | some w =>
      obtain ⟨nd, bs2⟩ := w
      have hres2 : decodeTry bs.length bs.length false bs =
          decodeLoop (bs2.length + 1) (tryOut bs.length bs.length false fv nd)
            initSlots bs2 := by
        simp only [decodeTry, h1, h2]
        rfl
      rw [hres2] at herr2
      have hDP : decodePlain bs = { (decodeTry bs.length bs.length false bs).1 with
          errors := (decodeTry bs.length bs.length false bs).1.errors ++
            (decodeTry bs.length bs.length false bs).2.toList } := rfl
      rw [hres2] at hDP
      rcases hL : decodeLoop (bs2.length + 1) (tryOut bs.length bs.length false fv nd)
          initSlots bs2 with ⟨oL, mL⟩
      rw [hL] at herr2 hDP
      cases mL with
      | some m => simp at herr2
      | none =>
        simp only [Option.toList_none, List.append_nil] at herr2 hDP
        have hInv0 : GroupCountInv (tryOut bs.length bs.length false fv nd) := by
          constructor
          · intro c hc
            simp [tryOut, initOutput] at hc
          · intro g hg
            simp [tryOut, initOutput] at hg
        have hres3 : GroupCountInv oL := decodeLoop_inv _ _ _ _ _ hL herr2 hInv0
        rw [hDP]
        exact hres3

/-- `markUsed` keeps the length of the used-flags array. -/
theorem markUsed_length (used : List Bool) (hits : List Nat) :
    (markUsed used hits).length = used.length := by
  simp [markUsed]

/-- `markUsed` sets exactly the listed indices (and keeps set flags). -/
theorem markUsed_getD (used : List Bool) (hits : List Nat) (i : Nat)
    (hi : i < used.length) :
    (markUsed used hits).getD i false = (used.getD i false || hits.contains i) := by
  simp [markUsed, List.getD, List.getElem?_map, List.getElem?_enum, hi,
    List.getElem?_eq_getElem hi]

/-- Membership in an enumerated list pins the element to its index. -/
theorem mem_enum_snd {α : Type} {l : List α} {p : Nat × α} (d : α)
    (hp : p ∈ l.enum) : p.1 < l.length ∧ p.2 = l.getD p.1 d := by
  obtain ⟨i, a⟩ := p
  rw [List.mk_mem_enum_iff_getElem?] at hp
  have hi : i < l.length := by
    by_contra hcon
    rw [List.getElem?_eq_none (by omega)] at hp
    cases hp
  refine ⟨hi, ?_⟩
  rw [List.getElem?_eq_getElem hi] at hp
  rw [List.getD_eq_getElem l d hi]
  simpa using hp.symm

/-- Filtering an enumeration by a predicate on the values counts the
values satisfying it. -/
theorem length_filter_enum_snd {α : Type} (l : List α) (q : α → Bool) :
    (l.enum.filter (fun p => q p.2)).length = l.countP q := by
  rw [← List.countP_eq_length_filter]
  have h2 : l.enum.countP (fun p => q p.2) = (l.enum.map Prod.snd).countP q := by
    rw [List.countP_map]
    rfl
  rw [h2, List.enum_map_snd]

/-- A Bool list whose in-range reads are all `true` contains no `false`. -/
theorem count_false_zero (l : List Bool)
    (h : ∀ i, i < l.length → l.getD i false = true) : l.count false = 0 := by
  rw [List.count_eq_zero]
  intro hmem
  obtain ⟨i, hi, hget⟩ := List.getElem_of_mem hmem
  have := h i hi
  rw [List.getD_eq_getElem l false hi, hget] at this
  cases this

/-- The pass-1 fold invariant: after processing the first `k` original
groups (each with at least one matching entry), the emitted groups carry,
in order, exactly the entries naming each group, and the used-flags array
marks exactly the entries naming one of the first `k` groups. -/
theorem pass1_fold (oG : List DecGroup) (entries : List EncEntry)
    (hne : ∀ g, g < oG.length →
      entries.countP (fun e => e.groupIdx = some (Int.ofNat g)) ≠ 0) :
    ∀ k, k ≤ oG.length →
    ((List.range k).foldl (pass1Step oG entries)
        ([], List.replicate entries.length false)).1.map
          (fun g => g.entries.length) =
      (List.range k).map (fun g =>
        entries.countP (fun e => e.groupIdx = some (Int.ofNat g))) ∧
    ((List.range k).foldl (pass1Step oG entries)
        ([], List.replicate entries.length false)).2.length = entries.length ∧
    (∀ i, i < entries.length →
      (((List.range k).foldl (pass1Step oG entries)
          ([], List.replicate entries.length false)).2.getD i false = true ↔
        ∃ g, g < k ∧ (entries.getD i {}).groupIdx = some (Int.ofNat g))) := by
  intro k
  induction k with
  | zero =>
    intro _
    refine ⟨rfl, by simp, ?_⟩
    intro i hi
    constructor
    · intro hD
      rw [List.getD_eq_getElem _ _ (by simpa using hi)] at hD
      simp at hD
    · rintro ⟨g, hg, -⟩
      omega
  | succ k ih =>
    intro hk
    obtain ⟨ih1, ih2, ih3⟩ := ih (by omega)
    rw [List.range_succ]
    simp only [List.foldl_append, List.foldl_cons, List.foldl_nil]
    set acc := (List.range k).foldl (pass1Step oG entries)
      ([], List.replicate entries.length false) with hacc
    have hhits : entries.enum.filter (fun p =>
        acc.2.getD p.1 false = false ∧ p.2.groupIdx = some (Int.ofNat k)) =
        entries.enum.filter (fun p => p.2.groupIdx = some (Int.ofNat k)) := by
      apply List.filter_congr
      intro p hp
      obtain ⟨hp1, hp2⟩ := mem_enum_snd {} hp
      by_cases hgi : p.2.groupIdx = some (Int.ofNat k)
      · have hused : acc.2.getD p.1 false = false := by
          cases hb : acc.2.getD p.1 false
          · rfl
          · exfalso
            obtain ⟨g, hgk, hg⟩ := (ih3 p.1 hp1).mp hb
            rw [← hp2, hgi] at hg
            have : (k : Int) = g := by
              simpa using hg
            omega
        rw [decide_eq_decide]
        constructor
        · intro h
          exact h.2
        · intro h
          exact ⟨hused, h⟩
      · rw [decide_eq_decide]
        constructor
        · intro h
          exact absurd h.2 hgi
        · intro h
          exact absurd h hgi
    have hlen2 : (entries.enum.filter
        (fun p => p.2.groupIdx = some (Int.ofNat k))).length =
        entries.countP (fun e => e.groupIdx = some (Int.ofNat k)) :=
      length_filter_enum_snd entries (fun e => e.groupIdx = some (Int.ofNat k))
    have hne2 : ¬ (entries.enum.filter
        (fun p => p.2.groupIdx = some (Int.ofNat k))).isEmpty = true := by
      rw [List.isEmpty_iff]
      intro h0
      rw [h0] at hlen2
      exact hne k (by omega) hlen2.symm
    simp only [pass1Step]
    rw [hhits, if_neg hne2]
    refine ⟨?_, ?_, ?_⟩
    · rw [List.map_append, ih1, List.map_append]
      simp
      exact hlen2
    · rw [markUsed_length, ih2]
    · intro i hi
      rw [markUsed_getD _ _ i (by rw [ih2]; exact hi)]
      have hcont : ((entries.enum.filter
          (fun p => p.2.groupIdx = some (Int.ofNat k))).map (fun p => p.1)).contains
            i = true ↔
          (entries.getD i {}).groupIdx = some (Int.ofNat k) := by
        constructor
        · intro hc
          rw [List.elem_iff, List.mem_map] at hc
          obtain ⟨p, hpmem, hpi⟩ := hc
          rw [List.mem_filter] at hpmem
          obtain ⟨hpenum, hpq⟩ := hpmem
          obtain ⟨hp1, hp2⟩ := mem_enum_snd {} hpenum
          rw [decide_eq_true_eq] at hpq
          rw [← hpi, ← hp2]
          exact hpq
        · intro hg
          rw [List.elem_iff, List.mem_map]
          refine ⟨(i, entries.getD i {}), ?_, rfl⟩
          rw [List.mem_filter]
          constructor
          · rw [List.mk_mem_enum_iff_getElem?]
            rw [List.getElem?_eq_getElem hi, List.getD_eq_getElem entries {} hi]
          · rw [decide_eq_true_eq]
            exact hg
      constructor
      · intro hor
        rw [Bool.or_eq_true] at hor
        rcases hor with hu | hc
        · obtain ⟨g, hgk, hg⟩ := (ih3 i hi).mp hu
          exact ⟨g, by omega, hg⟩
        · exact ⟨k, by omega, hcont.mp hc⟩
      · rintro ⟨g, hgk1, hgg⟩
        rw [Bool.or_eq_true]
        by_cases hgk : g < k
        · left
          exact (ih3 i hi).mpr ⟨g, hgk, hgg⟩
        · right
          have : g = k := by omega
          subst this
          exact hcont.mpr hgg

/-- Pass 1 on entries that all name an existing, inhabited original
group: one group per original group, in order, with the matching entry
counts, and every entry consumed. -/
theorem pass1_spec (oG : List DecGroup) (entries : List EncEntry)
    (hrange : ∀ e ∈ entries, ∃ g : Nat, e.groupIdx = some (Int.ofNat g) ∧ g < oG.length)
    (hne : ∀ g, g < oG.length →
      entries.countP (fun e => e.groupIdx = some (Int.ofNat g)) ≠ 0) :
    (pass1 oG entries).1.map (fun g => g.entries.length) =
      (List.range oG.length).map (fun g =>
        entries.countP (fun e => e.groupIdx = some (Int.ofNat g))) ∧
    (pass1 oG entries).2.count false = 0 := by
  unfold pass1
  obtain ⟨h1, h2, h3⟩ := pass1_fold oG entries hne oG.length (le_refl _)
  refine ⟨h1, ?_⟩
  apply count_false_zero
  intro i hi
  rw [h2] at hi
  rw [h3 i hi]
  have hmem : entries.getD i {} ∈ entries := getD_mem_of_lt entries i {} hi
  obtain ⟨g, hg1, hg2⟩ := hrange _ hmem
  exact ⟨g, hg2, hg1⟩

/-- Pass 2 does nothing when pass 1 consumed every entry. -/
theorem pass2_noop (egs : List EncGroup) (used : List Bool) (entries : List EncEntry)
    (h : used.count false = 0) : pass2 egs used entries = egs := by
  unfold pass2
  rw [if_pos h]

/-- Reading a list through `getD` over its index range is the list. -/
theorem map_getD_range {α β : Type} (l : List α) (d : α) (f : α → β) :
    (List.range l.length).map (fun i => f (l.getD i d)) = l.map f := by
  induction l with
  | nil => rfl
  | cons a tl ih =>
    have htail : (List.range tl.length).map
        ((fun i => f (List.getD (a :: tl) i d)) ∘ Nat.succ) =
        (List.range tl.length).map (fun i => f (tl.getD i d)) := by
      apply List.map_congr_left
      intro i hi
      simp
    rw [List.length_cons, List.range_succ_eq_map, List.map_cons, List.map_map, htail, ih]
    simp

/-- Claim C2, counterexample: `emptyGroupBuf` decodes without errors to
two groups (the first left empty by a header immediately followed by
another header), but re-encoding the decoded combos with
preserve-original-grouping yields only one group: pass 1 silently drops
original groups that no combo names. -/
theorem c2_counterexample :
    (decodePlain emptyGroupBuf).errors = [] ∧
    (decodePlain emptyGroupBuf).groups.length = 2 ∧
    ((decodePlain emptyGroupBuf).groups.map (fun g => g.combos.length)) = [0, 1] ∧
    (stratAGroups ((decodePlain emptyGroupBuf).combos.map comboToEntry)
      (decodePlain emptyGroupBuf).groups).length = 1 := by
  decide

/-- Claim C2 as amended: for a buffer that decodes without errors *into
groups that each have at least one member combo*, re-encoding the decoded
combo list unchanged with the preserve-original-grouping strategy yields
exactly as many groups as the decode, and the per-group member counts are
those of the decode's groups (as a permutation: strategy A re-sorts the
groups by band signature). -/
theorem c2_amended (bs : Bytes)
    (herr : (decodePlain bs).errors = [])
    (hne : ∀ g ∈ (decodePlain bs).groups, g.combos ≠ []) :
    (stratAGroups ((decodePlain bs).combos.map comboToEntry)
        (decodePlain bs).groups).length = (decodePlain bs).groups.length ∧
    ((stratAGroups ((decodePlain bs).combos.map comboToEntry)
        (decodePlain bs).groups).map (fun g => g.entries.length)).Perm
      ((decodePlain bs).groups.map (fun g => g.combos.length)) := by
  obtain ⟨h1, h2⟩ := decodePlain_inv bs herr
  set out := decodePlain bs with hout
  set entries := out.combos.map comboToEntry with hentries
  have hcount : ∀ g : Nat, entries.countP (fun e => e.groupIdx = some (Int.ofNat g)) =
      (out.combos.filter (fun c => c.groupIdx = Int.ofNat g)).length := by
    intro g
    rw [hentries, List.countP_map, ← List.countP_eq_length_filter]
    apply List.countP_congr
    intro c _
    simp [comboToEntry]
  have hrange : ∀ e ∈ entries, ∃ g : Nat,
      e.groupIdx = some (Int.ofNat g) ∧ g < out.groups.length := by
    intro e he
    rw [hentries, List.mem_map] at he
    obtain ⟨c, hc, hec⟩ := he
    obtain ⟨g, hg1, hg2⟩ := h1 c hc
    refine ⟨g, ?_, hg2⟩
    rw [← hec]
    simp [comboToEntry, hg1]
  have hnz : ∀ g, g < out.groups.length →
      entries.countP (fun e => e.groupIdx = some (Int.ofNat g)) ≠ 0 := by
    intro g hg h0
    rw [hcount g, ← h2 g hg] at h0
    exact hne _ (getD_mem_of_lt out.groups g emptyDecGroup hg)
      (List.length_eq_zero.mp h0)
  obtain ⟨hp1, hp2⟩ := pass1_spec out.groups entries hrange hnz
  have hsortperm : (stratAGroups entries out.groups).Perm
      (pass2 (pass1 out.groups entries).1 (pass1 out.groups entries).2 entries) := by
    unfold stratAGroups
    exact List.perm_insertionSort _ _
  rw [pass2_noop _ _ _ hp2] at hsortperm
  have hmapeq : (pass1 out.groups entries).1.map (fun g => g.entries.length) =
      out.groups.map (fun g => g.combos.length) := by
    rw [hp1]
    have e1 : (List.range out.groups.length).map (fun g =>
        entries.countP (fun e => e.groupIdx = some (Int.ofNat g))) =
        (List.range out.groups.length).map (fun g =>
          (out.groups.getD g emptyDecGroup).combos.length) := by
      apply List.map_congr_left
      intro g hg
      rw [List.mem_range] at hg
      rw [hcount g, ← h2 g hg]
    rw [e1]
    exact map_getD_range out.groups emptyDecGroup (fun g => g.combos.length)
  constructor
  · have hl2 : (pass1 out.groups entries).1.length = out.groups.length := by
      have h := congrArg List.length hmapeq
      simpa using h
    rw [hsortperm.length_eq, hl2]
  · have h := hsortperm.map (fun g => g.entries.length)
    rw [hmapeq] at h
    exact h

/-- The C2 amended theorem applied to the concrete error-free decode of
`truncBaseBuf` (one group with two member combos). -/
theorem c2_witness :
    (decodePlain truncBaseBuf).errors = [] ∧
    (∀ g ∈ (decodePlain truncBaseBuf).groups, g.combos ≠ []) ∧
    ((stratAGroups ((decodePlain truncBaseBuf).combos.map comboToEntry)
        (decodePlain truncBaseBuf).groups).length =
      (decodePlain truncBaseBuf).groups.length ∧
    ((stratAGroups ((decodePlain truncBaseBuf).combos.map comboToEntry)
        (decodePlain truncBaseBuf).groups).map (fun g => g.entries.length)).Perm
      ((decodePlain truncBaseBuf).groups.map (fun g => g.combos.length))) :=
  ⟨by decide, by decide, c2_amended truncBaseBuf (by decide) (by decide)⟩

/-! ## C1 — encode/decode round trip: byte-level read-back lemmas -/

/-- Reading back a written uint16. -/
theorem readU16_write (v : Nat) (r : Bytes) :
    readU16 (writeU16 v ++ r) = some (v % 65536, r) := by
  simp only [writeU16, List.cons_append, List.nil_append, readU16]
  have e : v % 256 % 256 + 256 * (v % 65536 / 256 % 256) = v % 65536 := by omega
  rw [e]

/-- Reading back a written uint8. -/
theorem readU8_write (v : Nat) (r : Bytes) :
    readU8 (writeU8 v ++ r) = some (v % 256, r) := by
  simp only [writeU8, List.cons_append, List.nil_append, readU8]
  have e : v % 256 % 256 = v % 256 := by omega
  rw [e]

/-- Reading back the written 137 header slots. -/
theorem readSlots137_write : ∀ (cs : List Carrier) (rest : Bytes),
    readSlots137 cs.length
      ((cs.map (fun c => writeU16 c.band ++ writeU8 c.bclass)).flatten ++ rest) =
    some ((cs.map (fun c => c.band % 65536), cs.map (fun c => c.bclass % 256),
           cs.map (fun c => if c.band % 65536 ≠ 0 then 2 else 0)), rest) := by
  intro cs
  induction cs with
  | nil =>
    intro rest
    simp [readSlots137]
  | cons c cs ih =>
    intro rest
    simp [readSlots137, List.append_assoc, readU16_write, readU8_write, ih rest]

/-- Reading back the written 201 header slots. -/
theorem readSlots201_write : ∀ (cs : List Carrier) (rest : Bytes),
    readSlots201 cs.length
      ((cs.map (fun c => writeU16 c.band ++ writeU8 c.bclass ++ writeU8 c.ant)).flatten
        ++ rest) =
    some ((cs.map (fun c => c.band % 65536), cs.map (fun c => c.bclass % 256),
           cs.map (fun c => c.ant % 256)), rest) := by
  intro cs
  induction cs with
  | nil =>
    intro rest
    simp [readSlots201]
  | cons c cs ih =>
    intro rest
    have ih2 := ih rest
    simp only [List.append_assoc] at ih2
    simp [readSlots201, List.append_assoc, readU16_write, readU8_write, ih2]

/-- Reading back the two written uplink pairs with their paddings. -/
theorem readULPairs_write (p : Nat) (b1 c1 b2 c2 : Nat) (j1 j2 : Bytes)
    (h1 : j1.length = p) (h2 : j2.length = p) (rest : Bytes) :
    readULPairs p
      (writeU16 b1 ++ writeU8 c1 ++ j1 ++ writeU16 b2 ++ writeU8 c2 ++ j2 ++ rest) =
      some ((b1 % 65536, c1 % 256, b2 % 65536, c2 % 256), j2 ++ rest) := by
  unfold readULPairs
  simp only [List.append_assoc]
  rw [readU16_write]
  dsimp only
  rw [readU8_write]
  dsimp only
  rw [show skipB p (j1 ++ (writeU16 b2 ++ (writeU8 c2 ++ (j2 ++ rest)))) =
      writeU16 b2 ++ (writeU8 c2 ++ (j2 ++ rest)) from by
    rw [skipB, ← h1, List.drop_left]]
  rw [readU16_write]
  dsimp only
  rw [readU8_write]

/-- An uplink-record iteration on written pair bytes reduces to the pure
attach-and-commit tail at the read-back values. -/
theorem procUL_write (out : DecOutput) (slots : SlotState) (p t d : Nat)
    (b1 c1 b2 c2 : Nat) (j1 j2 tail : Bytes)
    (h1 : j1.length = p) (h2 : j2.length = p) (ht : tail.length = t) (rest : Bytes) :
    procUL out slots p t d
      (writeU16 b1 ++ writeU8 c1 ++ j1 ++ writeU16 b2 ++ writeU8 c2 ++ j2 ++ tail ++ rest) =
      ulBody out slots p t d (b1 % 65536) (c1 % 256) (b2 % 65536) (c2 % 256)
        (j2 ++ (tail ++ rest)) := by
  rw [procUL_eq]
  have hP := readULPairs_write p b1 c1 b2 c2 j1 j2 h1 h2 (tail ++ rest)
  simp only [List.append_assoc] at hP ⊢
  rw [hP]

/-- Enough fuel is as good as any other: the loop's result is
fuel-independent once the fuel exceeds the buffer length. -/
theorem decodeLoop_fuel_irrel : ∀ (f1 f2 : Nat) (out : DecOutput) (s : SlotState)
    (bs : Bytes), bs.length < f1 → bs.length < f2 →
    decodeLoop f1 out s bs = decodeLoop f2 out s bs := by
  intro f1
  induction f1 with
  | zero =>
    intro f2 out s bs h1 h2
    omega
  | succ g1 ih =>
    intro f2 out s bs h1 h2
    cases f2 with
    | zero => omega
    | succ g2 =>
      by_cases hbs : bs.isEmpty
      · simp [decodeLoop, hbs]
      · have hL : ∀ (g : Nat), decodeLoop (g + 1) out s bs =
            match stepIter out s bs with
            | .cont o s2 r => decodeLoop g o s2 r
            | .halt o => (o, none)
            | .fail o m => (o, some m) := by
          intro g
          simp [decodeLoop, hbs]
        rw [hL g1, hL g2]
        obtain ⟨need, cAll, h2n, hnc, hcont, hhalt, hfail⟩ :=
          stepIter_coh out out s bs ⟨rfl, rfl⟩
        cases hstep : stepIter out s bs with
        | cont o s2 r =>
          obtain ⟨hr, hneed, -, -⟩ := hcont o s2 r hstep
          have hrl : r.length = bs.length - cAll := by rw [hr]; simp
          exact ih g2 o s2 r (by omega) (by omega)
        | halt o => rfl
        | fail o m => rfl

/-- The empty prefix consumes nothing. -/
theorem StepsTo_nil (out : DecOutput) (s : SlotState) : StepsTo out s [] out s := by
  intro rest fuel h
  rfl

/-- Consumed prefixes compose. -/
theorem StepsTo_trans {out : DecOutput} {s : SlotState} {pre1 : Bytes}
    {out1 : DecOutput} {s1 : SlotState} {pre2 : Bytes} {out2 : DecOutput}
    {s2 : SlotState} (h1 : StepsTo out s pre1 out1 s1)
    (h2 : StepsTo out1 s1 pre2 out2 s2) :
    StepsTo out s (pre1 ++ pre2) out2 s2 := by
  intro rest fuel hf
  rw [List.append_assoc]
  have hl : (pre1 ++ (pre2 ++ rest)).length < fuel := by
    simp only [List.length_append] at hf ⊢
    omega
  rw [h1 _ _ hl]
  apply h2
  simp only [List.length_append] at hf ⊢
  omega

/-- A single continuing iteration that consumes exactly `pre`. -/
theorem StepsTo_single {out : DecOutput} {s : SlotState} {pre : Bytes}
    {out2 : DecOutput} {s2 : SlotState} (hne : pre ≠ [])
    (h : ∀ rest, stepIter out s (pre ++ rest) = .cont out2 s2 rest) :
    StepsTo out s pre out2 s2 := by
  intro rest fuel hf
  cases fuel with
  | zero => exact absurd hf (by omega)
  | succ f =>
    have hbs : ¬ (pre ++ rest).isEmpty = true := by
      simp [List.isEmpty_iff, hne]
    have hL : decodeLoop (f + 1) out s (pre ++ rest) = decodeLoop f out2 s2 rest := by
      simp [decodeLoop, hbs, h rest]
    rw [hL]
    have hp : 1 ≤ pre.length := by
      cases pre
      · exact absurd rfl hne
      · simp
    simp only [List.length_append] at hf
    exact decodeLoop_fuel_irrel f (f + 1) out2 s2 rest (by omega) (by omega)

/-! ## C1 — structural lemmas about good entries and the attach loop -/

/-- `classToCC` never returns 0 on a numeric class. -/
theorem classToCC_num_pos (n : Nat) : 1 ≤ classToCC (.num n) := by
  simp only [classToCC]
  split_ifs with h
  · omega
  · omega

/-- A sum of positive numbers dominates the count. -/
theorem length_le_sum_of_one_le : ∀ (l : List Nat), (∀ x ∈ l, 1 ≤ x) →
    l.length ≤ l.sum := by
  intro l
  induction l with
  | nil => intro _; simp
  | cons a l ih =>
    intro h
    have ha := h a (List.mem_cons_self a l)
    have hl := ih (fun x hx => h x (List.mem_cons_of_mem a hx))
    simp only [List.length_cons, List.sum_cons]
    omega

/-- A good combo has at most six carriers. -/
theorem goodEntry_length_le (e : EncEntry) (h : GoodEntry e) :
    e.carriers.length ≤ 6 := by
  obtain ⟨-, -, -, hsum⟩ := h
  have h1 : (e.carriers.map (fun c => classToCC (ClassVal.num c.bclass))).length ≤
      (e.carriers.map (fun c => classToCC (ClassVal.num c.bclass))).sum := by
    apply length_le_sum_of_one_le
    intro x hx
    rw [List.mem_map] at hx
    obtain ⟨c, -, hc⟩ := hx
    rw [← hc]
    exact classToCC_num_pos c.bclass
  rw [List.length_map] at h1
  omega

/-- Reading `n` slots of a short list through `getD` appends default
padding. -/
theorem range_map_getD {α : Type} : ∀ (n : Nat) (l : List α) (d : α), l.length ≤ n →
    (List.range n).map (fun i => l.getD i d) = l ++ List.replicate (n - l.length) d := by
  intro n
  induction n with
  | zero =>
    intro l d h
    have hl : l = [] := by
      cases l
      · rfl
      · simp at h
    subst hl
    simp
  | succ n ih =>
    intro l d h
    cases l with
    | nil =>
      have hrep : (List.range (n + 1)).map (fun i => ([] : List α).getD i d) =
          List.replicate (n + 1) d := by
        refine List.eq_replicate.mpr ⟨by simp, ?_⟩
        intro b hb
        rw [List.mem_map] at hb
        obtain ⟨i, -, hi⟩ := hb
        simpa using hi.symm
      simpa using hrep
    | cons a l =>
      rw [List.range_succ_eq_map, List.map_cons, List.map_map]
      simp only [List.getD_cons_zero, List.length_cons, Nat.succ_sub_succ,
        List.cons_append]
      congr 1
      rw [← ih l d (by simpa using h)]
      apply List.map_congr_left
      intro i _
      simp

/-- Padding a short carrier list appends zero carriers. -/
theorem padCarriers_append (cs : List Carrier) (h : cs.length ≤ 6) :
    padCarriers cs = cs ++ List.replicate (6 - cs.length) zeroCarrier :=
  range_map_getD 6 cs zeroCarrier h

/-- Every member list has a first occurrence index. -/
theorem exists_first_occ : ∀ (l : List Nat) (b : Nat), b ∈ l →
    ∃ j, j < l.length ∧ l.getD j 0 = b ∧ ∀ i, i < j → l.getD i 0 ≠ b := by
  intro l
  induction l with
  | nil =>
    intro b h
    simp at h
  | cons a l ih =>
    intro b h
    by_cases hab : a = b
    · exact ⟨0, by simp, by simp [hab], fun i hi => absurd hi (by omega)⟩
    · have hb : b ∈ l := by
        rcases List.mem_cons.mp h with h1 | h1
        · exact absurd h1.symm hab
        · exact h1
      obtain ⟨j, hj1, hj2, hj3⟩ := ih b hb
      refine ⟨j + 1, by simp only [List.length_cons]; omega, by simpa using hj2, ?_⟩
      intro i hi
      cases i with
      | zero => simpa using hab
      | succ i =>
        simp only [List.getD_cons_succ]
        exact hj3 i (by omega)

/-- The attach loop hits the first matching slot. -/
theorem attachAux_found (band bclass ulcl : List Nat) (b c : Nat) (j : Nat) :
    ∀ (k i : Nat), i ≤ j → j < i + k → band.getD j 0 = b →
    (∀ i2, i ≤ i2 → i2 < j → band.getD i2 0 ≠ b) →
    attachAux band bclass b c ulcl k i = (ulcl.set j c, true) := by
  intro k
  induction k with
  | zero =>
    intro i h1 h2 _ _
    omega
  | succ k ih =>
    intro i hij hjk hfound hnot
    by_cases hi : i = j
    · subst hi
      rw [attachAux, if_pos ⟨hfound, Nat.zero_le _⟩]
    · rw [attachAux, if_neg (fun hcon => hnot i (le_refl i) (by omega) hcon.1)]
      exact ih (i + 1) (by omega) (by omega) hfound
        (fun i2 h2a h2b => hnot i2 (by omega) h2b)

/-- `attachUL` at a first-match index below 6. -/
theorem attachUL_found (band bclass ulcl : List Nat) (b c : Nat) (j : Nat)
    (hj : j < 6) (hfound : band.getD j 0 = b)
    (hnot : ∀ i, i < j → band.getD i 0 ≠ b) :
    attachUL band bclass ulcl b c = (ulcl.set j c, true) :=
  attachAux_found band bclass ulcl b c j 6 0 (Nat.zero_le j) (by omega) hfound
    (fun i2 _ h => hnot i2 h)

/-- Setting a zero in the zero slots leaves no positive entry. -/
theorem count_pos_zeros6_set_zero (j : Nat) :
    ((zeros6.set j 0).filter (fun u => 0 < u)).length = 0 := by
  by_cases hj : j < 6
  · interval_cases j <;> decide
  · rw [List.set_eq_of_length_le (by simp [zeros6]; omega)]
    decide

/-- Attaching a zero class never creates a positive entry. -/
theorem attachUL_zero_count (band bclass : List Nat) (b : Nat) :
    (((attachUL band bclass zeros6 b 0).1).filter (fun u => 0 < u)).length = 0 := by
  suffices h : ∀ k i,
      ((attachAux band bclass b 0 zeros6 k i).1.filter (fun u => 0 < u)).length = 0 by
    exact h 6 0
  intro k
  induction k with
  | zero =>
    intro i
    simp only [attachAux]
    decide
  | succ k ih =>
    intro i
    rw [attachAux]
    by_cases hc : band.getD i 0 = b ∧ 0 ≤ bclass.getD i 0
    · rw [if_pos hc]
      exact count_pos_zeros6_set_zero i
    · rw [if_neg hc]
      exact ih (i + 1)

/-- One positive class set in the zero slots. -/
theorem count_pos_zeros6_set (j c : Nat) (hj : j < 6) (hc : 0 < c) :
    ((zeros6.set j c).filter (fun u => 0 < u)).length = 1 := by
  interval_cases j <;> simp [zeros6, hc]

/-- Two positive classes set at distinct slots. -/
theorem count_pos_zeros6_set2 (j1 j2 c1 c2 : Nat) (h1 : j1 < 6) (h2 : j2 < 6)
    (hne : j1 ≠ j2) (hc1 : 0 < c1) (hc2 : 0 < c2) :
    (((zeros6.set j1 c1).set j2 c2).filter (fun u => 0 < u)).length = 2 := by
  interval_cases j1 <;> interval_cases j2 <;> simp_all [zeros6]

/-- The 138 record in pair-value form. -/
theorem encUL138_shape (e : EncEntry) :
    encUL138 e = writeU16 138 ++ writeU16 (encPairs e).1 ++ writeU8 (encPairs e).2.1 ++
      ([] : Bytes) ++ writeU16 (encPairs e).2.2.1 ++ writeU8 (encPairs e).2.2.2 ++
      ([] : Bytes) ++ zeroBytes 12 := by
  unfold encUL138 encPairs
  dsimp only
  split_ifs <;> simp

/-- The 202 record in pair-value form: each pair is followed by one
UL-MIMO byte. -/
theorem encUL202_shape (e : EncEntry) :
    ∃ j1 j2 : Bytes, j1.length = 1 ∧ j2.length = 1 ∧
    encUL202 e = writeU16 202 ++ writeU16 (encPairs e).1 ++ writeU8 (encPairs e).2.1 ++
      j1 ++ writeU16 (encPairs e).2.2.1 ++ writeU8 (encPairs e).2.2.2 ++
      j2 ++ zeroBytes 16 := by
  unfold encUL202 encPairs
  dsimp only
  split_ifs
  · exact ⟨writeU8 2, writeU8 2, rfl, rfl, by simp⟩
  · exact ⟨writeU8 2, writeU8 0, rfl, rfl, by simp⟩
  · exact ⟨writeU8 0, writeU8 2, rfl, rfl, by simp⟩
  · exact ⟨writeU8 0, writeU8 0, rfl, rfl, by simp⟩

/-- Padding adds no uplink carriers. -/
theorem padFilter_eq (e : EncEntry) (h : GoodEntry e) :
    (padCarriers e.carriers).filter (fun c => 0 < c.ulclass) =
      e.carriers.filter (fun c => 0 < c.ulclass) := by
  rw [padCarriers_append _ (goodEntry_length_le e h), List.filter_append]
  have hz : (List.replicate (6 - e.carriers.length) zeroCarrier).filter
      (fun c => decide (0 < c.ulclass)) = [] := by
    induction (6 - e.carriers.length) with
    | zero => rfl
    | succ n ih => simpa [List.replicate_succ, zeroCarrier] using ih
  rw [hz, List.append_nil]

/-- A triple zip of three maps over the same list is a map of triples. -/
theorem zip3_maps (fb fc fa : Carrier → Nat) (cs : List Carrier) :
    (cs.map fb).zip ((cs.map fc).zip (cs.map fa)) =
      cs.map (fun c => (fb c, fc c, fa c)) := by
  rw [List.zip_map' fc fa, List.zip_map' fb]

/-- The stream sum over zipped slot arrays as a sum over the carriers. -/
theorem streams_zip (fb fc fa : Carrier → Nat) : ∀ (cs : List Carrier) (u : List Nat),
    cs.length = u.length →
    ((((cs.map fb).zip ((cs.map fc).zip ((cs.map fa).zip u))).filter
        (fun t => t.1 ≠ 0)).map
      (fun t => classToCC (.num t.2.1) * (if t.2.2.1 ≠ 0 then t.2.2.1 else 2))).sum =
    ((cs.filter (fun c => fb c ≠ 0)).map
      (fun c => classToCC (.num (fc c)) * (if fa c ≠ 0 then fa c else 2))).sum := by
  intro cs
  induction cs with
  | nil =>
    intro u h
    simp
  | cons c cs ih =>
    intro u h
    cases u with
    | nil => simp at h
    | cons x u =>
      have ih2 := ih u (by simpa using h)
      simp only [List.map_cons, List.zip_cons_cons]
      rw [List.filter_cons, List.filter_cons]
      by_cases hb : fb c = 0
      · rw [if_neg (by simp [hb]), if_neg (by simp [hb])]
        exact ih2
      · rw [if_pos (by simp [hb]), if_pos (by simp [hb])]
        simp only [List.map_cons, List.sum_cons]
        rw [ih2]

/-- `any` over a zip tested on the first component. -/
theorem zip_any_fst {β : Type} (p : Nat → Bool) : ∀ (l1 : List Nat) (l2 : List β),
    l1.length ≤ l2.length → ((l1.zip l2).any (fun t => p t.1)) = l1.any p := by
  intro l1
  induction l1 with
  | nil =>
    intro l2 h
    simp
  | cons a l1 ih =>
    intro l2 h
    cases l2 with
    | nil => simp at h
    | cons b l2 =>
      simp only [List.zip_cons_cons, List.any_cons]
      rw [ih l2 (by simpa using h)]

/-- The text/stream/carrier accumulator of `buildCombo`'s slot loop:
streams add up over the carrier slots, and the carrier flag is an `any`. -/
theorem buildComboAux_streams (sm : Bool) :
    ∀ (slots : List (Nat × Nat × Nat × Nat)) (acc : String × Nat × Bool),
    (buildComboAux sm slots acc).2.1 = acc.2.1 +
      ((slots.filter (fun t => t.1 ≠ 0)).map
        (fun t => classToCC (.num t.2.1) * (if t.2.2.1 ≠ 0 then t.2.2.1 else 2))).sum ∧
    (buildComboAux sm slots acc).2.2 = (acc.2.2 || slots.any (fun t => t.1 ≠ 0)) := by
  intro slots
  induction slots with
  | nil =>
    intro acc
    simp [buildComboAux]
  | cons t ts ih =>
    intro acc
    obtain ⟨band, bclass, ant, ul⟩ := t
    obtain ⟨astr, ast, acar⟩ := acc
    by_cases hb : band = 0
    · have hstep : buildComboAux sm ((band, bclass, ant, ul) :: ts) (astr, ast, acar) =
          buildComboAux sm ts (astr, ast, acar) := by
        simp [buildComboAux, hb]
      obtain ⟨ih1, ih2⟩ := ih (astr, ast, acar)
      rw [hstep, ih1, ih2]
      constructor
      · simp [hb]
      · simp [hb]
    · have hstep : buildComboAux sm ((band, bclass, ant, ul) :: ts) (astr, ast, acar) =
          buildComboAux sm ts
            (astr ++ (if acar then "-" else "") ++ Nat.repr band ++
              String.singleton (Char.ofNat (bclass + 0x40)) ++
              (if sm ∧ ant ≠ 0 then Nat.repr ant else "") ++
              (if ul ≠ 0 then String.singleton (Char.ofNat (ul + 0x40)) else ""),
             ast + classToCC (.num bclass) * (if ant ≠ 0 then ant else 2), true) := by
        simp [buildComboAux, hb]
      obtain ⟨ih1, ih2⟩ := ih _
      rw [hstep, ih1, ih2]
      constructor
      · simp only [List.filter_cons, List.map_cons, List.sum_cons]
        simp [hb]
        omega
      · simp [hb]

/-- `buildCombo` on slot arrays holding a carrier: the raw arrays, group
index and descriptor type are stored as passed, `hasULCA` counts the
positive uplink classes, and the streams follow the slot formula. -/
theorem buildCombo_fields (band bclass ant ulcl : List Nat) (ulca : Nat)
    (dt : Nat) (gi : Int)
    (hany : band.any (fun b => b ≠ 0) = true)
    (hlen : band.length ≤ (bclass.zip (ant.zip ulcl)).length) :
    ∃ cb, buildCombo band bclass ant ulcl ulca true dt gi = some cb ∧
      cb.rawBand = band ∧ cb.rawBclass = bclass ∧ cb.rawAnt = ant ∧
      cb.groupIdx = gi ∧ cb.descType = dt ∧
      cb.hasULCA = decide (1 < (ulcl.filter (fun u => 0 < u)).length) ∧
      cb.streams = (((band.zip (bclass.zip (ant.zip ulcl))).filter
          (fun t => t.1 ≠ 0)).map
        (fun t => classToCC (.num t.2.1) * (if t.2.2.1 ≠ 0 then t.2.2.1 else 2))).sum := by
  unfold buildCombo
  dsimp only
  obtain ⟨hst, hcar⟩ :=
    buildComboAux_streams true (band.zip (bclass.zip (ant.zip ulcl))) ("", 0, false)
  have hcar2 : (buildComboAux true (band.zip (bclass.zip (ant.zip ulcl)))
      ("", 0, false)).2.2 = true := by
    rw [hcar]
    simp only [Bool.false_or]
    rw [zip_any_fst (fun b => decide (b ≠ 0)) band (bclass.zip (ant.zip ulcl)) hlen]
    exact hany
  rw [if_pos hcar2]
  refine ⟨_, rfl, rfl, rfl, rfl, rfl, rfl, rfl, ?_⟩
  rw [hst]
  simp

/-- Normalization permutes the carriers. -/
theorem normalize_perm (cs : List Carrier) : (normalizeCarriers cs).Perm cs :=
  List.perm_insertionSort _ _

/-- The padded slot list always has six entries. -/
theorem padCarriers_length (cs : List Carrier) : (padCarriers cs).length = 6 := by
  simp [padCarriers]

/-- Dropping the zero padding of a good combo's slots recovers its
normalized carriers. -/
theorem padFilter_band (e : EncEntry) (h : GoodEntry e) :
    (padCarriers (normalizeCarriers e.carriers)).filter (fun c => c.band ≠ 0) =
      normalizeCarriers e.carriers := by
  have hlen : (normalizeCarriers e.carriers).length ≤ 6 := by
    rw [(normalize_perm e.carriers).length_eq]
    exact goodEntry_length_le e h
  rw [padCarriers_append _ hlen, List.filter_append]
  have h1 : (normalizeCarriers e.carriers).filter (fun c => decide (c.band ≠ 0)) =
      normalizeCarriers e.carriers := by
    apply List.filter_eq_self.mpr
    intro c hc
    have hcg := (h.2.1 c ((normalize_perm e.carriers).mem_iff.mp hc)).2.2.2.2.1
    simp only [decide_eq_true_eq]
    omega
  have h2 : (List.replicate (6 - (normalizeCarriers e.carriers).length)
      zeroCarrier).filter (fun c => decide (c.band ≠ 0)) = [] := by
    induction (6 - (normalizeCarriers e.carriers).length) with
    | zero => rfl
    | succ n ih => simpa [List.replicate_succ, zeroCarrier] using ih
  rw [h1, h2, List.append_nil]

/-- Committing a combo of a good entry from matching slot arrays: the
iteration continues, appending one combo whose carrier triples, stream
count and descriptor bookkeeping are the entry's. -/
theorem commitCombo_good (out : DecOutput) (s : SlotState) (dt : Nat) (e : EncEntry)
    (g : Nat) (u : List Nat) (a : Nat) (rest : Bytes)
    (hgood : GoodEntry e)
    (hband : s.band = (padCarriers (normalizeCarriers e.carriers)).map (fun c => c.band))
    (hbcl : s.bclass =
      (padCarriers (normalizeCarriers e.carriers)).map (fun c => c.bclass))
    (hant : s.ant = (padCarriers (normalizeCarriers e.carriers)).map (fun c => c.ant))
    (hgi : s.currentGroupIdx = Int.ofNat g) (hglt : g < out.groups.length)
    (hulen : u.length = 6) :
    ∃ out2 cb, commitCombo out s u a dt rest = .cont out2 { s with ulclass := u } rest ∧
      out2.combos = out.combos ++ [cb] ∧ out2.errors = out.errors ∧
      out2.groups.length = out.groups.length ∧
      cb.hasULCA = decide (1 < (u.filter (fun x => 0 < x)).length) ∧
      Multiset.ofList ((cb.rawBand.zip (cb.rawBclass.zip cb.rawAnt)).filter
        (fun tt => tt.1 ≠ 0)) =
        Multiset.ofList (e.carriers.map (fun c => (c.band, c.bclass, c.ant))) ∧
      cb.streams = encCalculateStreams e.carriers := by
  have hperm := normalize_perm e.carriers
  have hpd6 := padCarriers_length (normalizeCarriers e.carriers)
  have hany : s.band.any (fun b => b ≠ 0) = true := by
    rw [hband, List.any_eq_true]
    obtain ⟨c0, hc0⟩ := List.exists_mem_of_ne_nil e.carriers hgood.1
    have hc0n : c0 ∈ normalizeCarriers e.carriers := hperm.mem_iff.mpr hc0
    have hc0p : c0 ∈ padCarriers (normalizeCarriers e.carriers) := by
      rw [padCarriers_append _ (by rw [hperm.length_eq]; exact goodEntry_length_le e hgood)]
      exact List.mem_append_left _ hc0n
    refine ⟨c0.band, List.mem_map_of_mem _ hc0p, ?_⟩
    have := (hgood.2.1 c0 hc0).2.2.2.2.1
    simp only [decide_eq_true_eq]
    omega
  have hlenz : s.band.length ≤ (s.bclass.zip (s.ant.zip u)).length := by
    rw [hband, hbcl, hant]
    simp [hpd6, hulen]
  obtain ⟨cb, hcb, hrb, hrc, hra, hgi2, hdt2, hul2, hstr⟩ :=
    buildCombo_fields s.band s.bclass s.ant u a dt (Int.ofNat g) hany hlenz
  have hfilterpd : (padCarriers (normalizeCarriers e.carriers)).filter
      ((fun tt : Nat × Nat × Nat => decide (tt.1 ≠ 0)) ∘
        (fun c => (c.band, c.bclass, c.ant))) = normalizeCarriers e.carriers := by
    rw [List.filter_congr (fun c _ => (rfl :
      ((fun tt : Nat × Nat × Nat => decide (tt.1 ≠ 0)) ∘
        (fun c : Carrier => (c.band, c.bclass, c.ant))) c =
      (fun c : Carrier => decide (c.band ≠ 0)) c))]
    exact padFilter_band e hgood
  refine ⟨{ out with combos := out.combos ++ [cb], numCombos := out.numCombos + 1, maxStreams := max out.maxStreams cb.streams, groups := pushGroupCombo out.groups g out.numCombos }, cb, ?_, rfl, rfl, ?_, hul2, ?_, ?_⟩
  · unfold commitCombo
    rw [hgi, hcb]
    dsimp only
    rw [if_pos (show g < ({ out with combos := out.combos ++ [cb] } :
      DecOutput).groups.length by simpa using hglt)]
  · simp [pushGroupCombo_length]
  · rw [hrb, hrc, hra, hband, hbcl, hant, zip3_maps, List.map_filter, hfilterpd]
    exact Quot.sound (hperm.map _)
  · rw [hstr, hband, hbcl, hant,
      streams_zip (fun c => c.band) (fun c => c.bclass) (fun c => c.ant)
        (padCarriers (normalizeCarriers e.carriers)) u (by rw [hpd6, hulen])]
    have hfb : (padCarriers (normalizeCarriers e.carriers)).filter
        (fun c => decide (c.band ≠ 0)) = normalizeCarriers e.carriers :=
      padFilter_band e hgood
    rw [hfb]
    unfold encCalculateStreams
    exact List.Perm.sum_eq (hperm.map _)

/-- The attach loop keeps the length of the uplink-class array. -/
theorem attachUL_length (band bclass ulcl : List Nat) (b c : Nat) :
    (attachUL band bclass ulcl b c).1.length = ulcl.length := by
  suffices h : ∀ k i, (attachAux band bclass b c ulcl k i).1.length = ulcl.length by
    exact h 6 0
  intro k
  induction k with
  | zero =>
    intro i
    rfl
  | succ k ih =>
    intro i
    rw [attachAux]
    by_cases hc : band.getD i 0 = b ∧ 0 ≤ bclass.getD i 0
    · rw [if_pos hc]
      simp
    · rw [if_neg hc]
      exact ih (i + 1)

/-- The slot arrays of a good entry's group have six entries. -/
theorem sband_length (s : SlotState) (e : EncEntry)
    (hband : s.band = (padCarriers (normalizeCarriers e.carriers)).map (fun c => c.band)) :
    s.band.length = 6 := by
  rw [hband, List.length_map, padCarriers_length]

/-- The band of a carrier of a good entry occurs in the slot band array. -/
theorem band_mem_slots (s : SlotState) (e : EncEntry) (c : Carrier)
    (hband : s.band = (padCarriers (normalizeCarriers e.carriers)).map (fun c => c.band))
    (hgood : GoodEntry e) (hc : c ∈ e.carriers) : c.band ∈ s.band := by
  rw [hband]
  apply List.mem_map_of_mem
  rw [padCarriers_append _ (by
    rw [(normalize_perm e.carriers).length_eq]
    exact goodEntry_length_le e hgood)]
  exact List.mem_append_left _ ((normalize_perm e.carriers).mem_iff.mpr hc)

/-- The attach-and-commit tail of an uplink record, on the pairs the
encoder wrote for a good entry whose slots match the group header: it
continues, appending exactly the entry's observable combo. -/
theorem ulBody_good (out : DecOutput) (s : SlotState) (p t dt : Nat) (e : EncEntry)
    (g : Nat) (R rest : Bytes)
    (hgood : GoodEntry e)
    (hband : s.band = (padCarriers (normalizeCarriers e.carriers)).map (fun c => c.band))
    (hbcl : s.bclass =
      (padCarriers (normalizeCarriers e.carriers)).map (fun c => c.bclass))
    (hant : s.ant = (padCarriers (normalizeCarriers e.carriers)).map (fun c => c.ant))
    (hgi : s.currentGroupIdx = Int.ofNat g) (hglt : g < out.groups.length)
    (hR : (R.drop p).drop t = rest) :
    ∃ out2 u cb,
      ulBody out s p t dt ((encPairs e).1 % 65536) ((encPairs e).2.1 % 256)
        ((encPairs e).2.2.1 % 65536) ((encPairs e).2.2.2 % 256) R =
        .cont out2 { s with ulclass := u } rest ∧
      out2.combos = out.combos ++ [cb] ∧
      decodedTupleOf cb = inputTupleOf e ∧
      out2.errors = out.errors ∧ out2.groups.length = out.groups.length := by
  have hpf := padFilter_eq e hgood
  have hb6 := sband_length s e hband
  rcases hcase : e.carriers.filter (fun c => 0 < c.ulclass) with - | ⟨u1, - | ⟨u2, urest⟩⟩
  · -- no uplink carriers: both pairs are zero
    have henc : encPairs e = (0, 0, 0, 0) := by
      unfold encPairs
      rw [hpf, hcase]
      simp
    have hcount : (((attachUL s.band s.bclass zeros6 0 0).1).filter
        (fun x => 0 < x)).length = 0 := attachUL_zero_count s.band s.bclass 0
    have hulen : (attachUL s.band s.bclass zeros6 0 0).1.length = 6 := by
      rw [attachUL_length]
      rfl
    obtain ⟨out2, cb, hcomm, hcombos, herr, hglen, hulca, hms, hstr⟩ :=
      commitCombo_good out s dt e g (attachUL s.band s.bclass zeros6 0 0).1
        ((if (attachUL s.band s.bclass zeros6 0 0).2 = true ∧ 2 < 0 then 1 else 0) + 0)
        rest hgood hband hbcl hant hgi hglt hulen
    refine ⟨out2, (attachUL s.band s.bclass zeros6 0 0).1, cb, ?_, hcombos, ?_,
      herr, hglen⟩
    · rw [henc]
      simp only [ulBody]
      rw [hR]
      simpa using hcomm
    · unfold decodedTupleOf inputTupleOf
      simp only [Prod.mk.injEq]
      refine ⟨hms, hstr, ?_⟩
      rw [hulca, hcount]
      unfold checkHasULCA
      rw [hcase]
      decide
  · -- one uplink carrier
    have hu1 : u1 ∈ e.carriers ∧ 0 < u1.ulclass := by
      have h1 : u1 ∈ e.carriers.filter (fun c => 0 < c.ulclass) := by
        rw [hcase]
        exact List.mem_singleton.mpr rfl
      have h2 := List.mem_filter.mp h1
      exact ⟨h2.1, by simpa using h2.2⟩
    have hg1 := hgood.2.1 u1 hu1.1
    have henc : encPairs e = (u1.band, u1.ulclass, 0, 0) := by
      unfold encPairs
      rw [hpf, hcase]
      simp
    obtain ⟨j1, hj1len, hj1get, hj1not⟩ :=
      exists_first_occ s.band u1.band (band_mem_slots s e u1 hband hgood hu1.1)
    have hatt1 : attachUL s.band s.bclass zeros6 u1.band u1.ulclass =
        (zeros6.set j1 u1.ulclass, true) :=
      attachUL_found s.band s.bclass zeros6 u1.band u1.ulclass j1
        (by omega) hj1get hj1not
    have hcount : ((zeros6.set j1 u1.ulclass).filter (fun x => 0 < x)).length = 1 :=
      count_pos_zeros6_set j1 u1.ulclass (by omega) hu1.2
    have hulen : (zeros6.set j1 u1.ulclass).length = 6 := by
      simp [zeros6]
    obtain ⟨out2, cb, hcomm, hcombos, herr, hglen, hulca, hms, hstr⟩ :=
      commitCombo_good out s dt e g (zeros6.set j1 u1.ulclass)
        ((if True ∧ 2 < u1.ulclass % 256 then 1 else 0) + 0) rest hgood hband hbcl
        hant hgi hglt hulen
    refine ⟨out2, zeros6.set j1 u1.ulclass, cb, ?_, hcombos, ?_, herr, hglen⟩
    · rw [henc]
      simp only [ulBody]
      rw [hR]
      have hm1 : u1.band % 65536 = u1.band := by
        have := hg1.2.2.2.2.2.1
        omega
      have hm2 : u1.ulclass % 256 = u1.ulclass := by
        have := hg1.2.2.2.2.2.2.2.2.2
        omega
      simp only [hm1, hm2]
      rw [hatt1]
      simpa using hcomm
    · unfold decodedTupleOf inputTupleOf
      simp only [Prod.mk.injEq]
      refine ⟨hms, hstr, ?_⟩
      rw [hulca, hcount]
      unfold checkHasULCA
      rw [hcase]
      simp
  · -- at least two uplink carriers
    have hu1 : u1 ∈ e.carriers ∧ 0 < u1.ulclass := by
      have h1 : u1 ∈ e.carriers.filter (fun c => 0 < c.ulclass) := by
        rw [hcase]
        exact List.mem_cons_self _ _
      have h2 := List.mem_filter.mp h1
      exact ⟨h2.1, by simpa using h2.2⟩
    have hu2 : u2 ∈ e.carriers ∧ 0 < u2.ulclass := by
      have h1 : u2 ∈ e.carriers.filter (fun c => 0 < c.ulclass) := by
        rw [hcase]
        exact List.mem_cons_of_mem _ (List.mem_cons_self _ _)
      have h2 := List.mem_filter.mp h1
      exact ⟨h2.1, by simpa using h2.2⟩
    have hg1 := hgood.2.1 u1 hu1.1
    have hg2 := hgood.2.1 u2 hu2.1
    have henc : encPairs e = (u1.band, u1.ulclass, u2.band, u2.ulclass) := by
      unfold encPairs
      rw [hpf, hcase]
      simp
    have hbne : u1.band ≠ u2.band := by
      have hnd := hgood.2.2.1
      have hsub : ((e.carriers.filter (fun c => decide (0 < c.ulclass))).map
          (fun c => c.band)).Sublist (e.carriers.map (fun c => c.band)) :=
        List.Sublist.map _ (List.filter_sublist _)
      have hndf := List.Nodup.sublist hsub hnd
      rw [hcase] at hndf
      simp only [List.map_cons, List.nodup_cons] at hndf
      intro hcon
      exact hndf.1 (by rw [hcon]; exact List.mem_cons_self _ _)
    obtain ⟨j1, hj1len, hj1get, hj1not⟩ :=
      exists_first_occ s.band u1.band (band_mem_slots s e u1 hband hgood hu1.1)
    obtain ⟨j2, hj2len, hj2get, hj2not⟩ :=
      exists_first_occ s.band u2.band (band_mem_slots s e u2 hband hgood hu2.1)
    have hjne : j1 ≠ j2 := by
      intro hcon
      rw [hcon, hj2get] at hj1get
      exact hbne hj1get.symm
    have hatt1 : attachUL s.band s.bclass zeros6 u1.band u1.ulclass =
        (zeros6.set j1 u1.ulclass, true) :=
      attachUL_found s.band s.bclass zeros6 u1.band u1.ulclass j1
        (by omega) hj1get hj1not
    have hatt2 : attachUL s.band s.bclass (zeros6.set j1 u1.ulclass) u2.band
        u2.ulclass = ((zeros6.set j1 u1.ulclass).set j2 u2.ulclass, true) :=
      attachUL_found s.band s.bclass (zeros6.set j1 u1.ulclass) u2.band u2.ulclass j2
        (by omega) hj2get hj2not
    have hcount : (((zeros6.set j1 u1.ulclass).set j2 u2.ulclass).filter
        (fun x => 0 < x)).length = 2 :=
      count_pos_zeros6_set2 j1 j2 u1.ulclass u2.ulclass (by omega) (by omega) hjne
        hu1.2 hu2.2
    have hulen : ((zeros6.set j1 u1.ulclass).set j2 u2.ulclass).length = 6 := by
      simp [zeros6]
    have hm1 : u1.band % 65536 = u1.band := by
      have := hg1.2.2.2.2.2.1
      omega
    have hm2 : u1.ulclass % 256 = u1.ulclass := by
      have := hg1.2.2.2.2.2.2.2.2.2
      omega
    have hm3 : u2.band % 65536 = u2.band := by
      have := hg2.2.2.2.2.2.1
      omega
    have hm4 : u2.ulclass % 256 = u2.ulclass := by
      have := hg2.2.2.2.2.2.2.2.2.2
      omega
    have hb2pos : u2.band ≠ 0 := by
      have := hg2.2.2.2.2.1
      omega
    obtain ⟨out2, cb, hcomm, hcombos, herr, hglen, hulca, hms, hstr⟩ :=
      commitCombo_good out s dt e g ((zeros6.set j1 u1.ulclass).set j2 u2.ulclass)
        ((if True ∧ 2 < u1.ulclass then 1 else 0) +
          (if u2.band ≠ 0 ∧ True then 1 else 0)) rest hgood hband hbcl hant hgi
        hglt hulen
    refine ⟨out2, (zeros6.set j1 u1.ulclass).set j2 u2.ulclass, cb, ?_, hcombos,
      ?_, herr, hglen⟩
    · rw [henc]
      simp only [ulBody]
      rw [hR]
      simp only [hm1, hm2, hm3, hm4]
      rw [hatt1]
      simp only [if_pos hb2pos]
      rw [hatt2]
      simpa using hcomm
    · unfold decodedTupleOf inputTupleOf
      simp only [Prod.mk.injEq]
      refine ⟨hms, hstr, ?_⟩
      rw [hulca, hcount]
      unfold checkHasULCA
      rw [hcase]
      simp

/-- `commitCombo`'s output and slot state do not depend on the remaining
bytes; only the returned rest does. -/
theorem commitCombo_rest {out : DecOutput} {s : SlotState} {u : List Nat}
    {a dt : Nat} {r1 r2 : Bytes} {o2 : DecOutput} {s2 : SlotState}
    (h : commitCombo out s u a dt r1 = .cont o2 s2 r1) :
    commitCombo out s u a dt r2 = .cont o2 s2 r2 := by
  unfold commitCombo at h ⊢
  cases hB : buildCombo s.band s.bclass s.ant u a true dt s.currentGroupIdx with
  | none =>
    rw [hB] at h
    cases h
    rfl
  | some combo =>
    rw [hB] at h
    revert h
    cases hidx : s.currentGroupIdx with
    | ofNat g =>
      intro h
      dsimp only at h ⊢
      by_cases hg : g < out.groups.length
      · rw [if_pos hg] at h ⊢
        cases h
        rfl
      · rw [if_neg hg] at h
        cases h
    | negSucc m =>
      intro h
      cases h

/-- `ulBody`'s output and slot state do not depend on the remaining
bytes; only the returned rest (drop the paddings) does. -/
theorem ulBody_rest {out : DecOutput} {s : SlotState} {p t d b1 c1 b2 c2 : Nat}
    {R1 R2 r1 r2 : Bytes} {o2 : DecOutput} {s2 : SlotState}
    (hr1 : (R1.drop p).drop t = r1) (hr2 : (R2.drop p).drop t = r2)
    (h : ulBody out s p t d b1 c1 b2 c2 R1 = .cont o2 s2 r1) :
    ulBody out s p t d b1 c1 b2 c2 R2 = .cont o2 s2 r2 := by
  simp only [ulBody] at h ⊢
  rw [hr1] at h
  rw [hr2]
  exact commitCombo_rest h

/-- A 138 record written for a good entry whose slots match the group
header is consumed by one loop iteration, appending exactly the entry's
observable combo. -/
theorem stepsTo_encUL138 (out : DecOutput) (s : SlotState) (e : EncEntry) (g : Nat)
    (hgood : GoodEntry e)
    (hband : s.band = (padCarriers (normalizeCarriers e.carriers)).map (fun c => c.band))
    (hbcl : s.bclass =
      (padCarriers (normalizeCarriers e.carriers)).map (fun c => c.bclass))
    (hant : s.ant = (padCarriers (normalizeCarriers e.carriers)).map (fun c => c.ant))
    (hgi : s.currentGroupIdx = Int.ofNat g) (hglt : g < out.groups.length) :
    ∃ out2 u cb,
      StepsTo out s (encUL138 e) out2 { s with ulclass := u } ∧
      out2.combos = out.combos ++ [cb] ∧
      decodedTupleOf cb = inputTupleOf e ∧
      out2.errors = out.errors ∧ out2.groups.length = out.groups.length := by
  obtain ⟨out2, u, cb, hrun, hcombos, htup, herr, hglen⟩ :=
    ulBody_good { out with stat138 := out.stat138 + 1 } s 0 12 137 e g
      (zeroBytes 12) [] hgood hband hbcl hant hgi hglt (by simp [zeroBytes])
  refine ⟨out2, u, cb, ?_, hcombos, htup, herr, hglen⟩
  · apply StepsTo_single
    · rw [encUL138_shape]
      simp [writeU16]
    · intro rest
      rw [encUL138_shape]
      simp only [List.append_assoc, List.append_nil, List.nil_append]
      have h16 := readU16_write 138 (writeU16 (encPairs e).1 ++
        (writeU8 (encPairs e).2.1 ++ (writeU16 (encPairs e).2.2.1 ++
          (writeU8 (encPairs e).2.2.2 ++ (zeroBytes 12 ++ rest)))))
      rw [show (138 % 65536) = 138 from rfl] at h16
      have hstep : stepIter out s (writeU16 138 ++ (writeU16 (encPairs e).1 ++
          (writeU8 (encPairs e).2.1 ++ (writeU16 (encPairs e).2.2.1 ++
            (writeU8 (encPairs e).2.2.2 ++ (zeroBytes 12 ++ rest)))))) =
          procUL { out with stat138 := out.stat138 + 1 } s 0 12 137
            (writeU16 (encPairs e).1 ++ (writeU8 (encPairs e).2.1 ++
              (writeU16 (encPairs e).2.2.1 ++ (writeU8 (encPairs e).2.2.2 ++
                (zeroBytes 12 ++ rest))))) := by
        simp [stepIter, h16]
      rw [hstep]
      have hpw := procUL_write { out with stat138 := out.stat138 + 1 } s 0 12 137
        (encPairs e).1 (encPairs e).2.1 (encPairs e).2.2.1 (encPairs e).2.2.2
        [] [] (zeroBytes 12) rfl rfl (by simp [zeroBytes]) rest
      simp only [List.append_assoc, List.append_nil, List.nil_append] at hpw ⊢
      rw [hpw]
      exact ulBody_rest (by simp [zeroBytes]) (by simp [zeroBytes]) hrun

/-- A 202 record written for a good entry whose slots match the group
header is consumed by one loop iteration, appending exactly the entry's
observable combo. -/
theorem stepsTo_encUL202 (out : DecOutput) (s : SlotState) (e : EncEntry) (g : Nat)
    (hgood : GoodEntry e)
    (hband : s.band = (padCarriers (normalizeCarriers e.carriers)).map (fun c => c.band))
    (hbcl : s.bclass =
      (padCarriers (normalizeCarriers e.carriers)).map (fun c => c.bclass))
    (hant : s.ant = (padCarriers (normalizeCarriers e.carriers)).map (fun c => c.ant))
    (hgi : s.currentGroupIdx = Int.ofNat g) (hglt : g < out.groups.length) :
    ∃ out2 u cb,
      StepsTo out s (encUL202 e) out2 { s with ulclass := u } ∧
      out2.combos = out.combos ++ [cb] ∧
      decodedTupleOf cb = inputTupleOf e ∧
      out2.errors = out.errors ∧ out2.groups.length = out.groups.length := by
  obtain ⟨j1, j2, hj1, hj2, hsh⟩ := encUL202_shape e
  obtain ⟨out2, u, cb, hrun, hcombos, htup, herr, hglen⟩ :=
    ulBody_good { out with stat202 := out.stat202 + 1 } s 1 16 201 e g
      (j2 ++ zeroBytes 16) [] hgood hband hbcl hant hgi hglt
      (by rw [show List.drop 1 (j2 ++ zeroBytes 16) = zeroBytes 16 from by
            rw [← hj2, List.drop_left]
          ]
          simp [zeroBytes])
  refine ⟨out2, u, cb, ?_, hcombos, htup, herr, hglen⟩
  apply StepsTo_single
  · rw [hsh]
    simp [writeU16]
  · intro rest
    rw [hsh]
    simp only [List.append_assoc, List.append_nil, List.nil_append]
    have h16 := readU16_write 202 (writeU16 (encPairs e).1 ++
      (writeU8 (encPairs e).2.1 ++ (j1 ++ (writeU16 (encPairs e).2.2.1 ++
        (writeU8 (encPairs e).2.2.2 ++ (j2 ++ (zeroBytes 16 ++ rest)))))))
    rw [show (202 % 65536) = 202 from rfl] at h16
    have hstep : stepIter out s (writeU16 202 ++ (writeU16 (encPairs e).1 ++
        (writeU8 (encPairs e).2.1 ++ (j1 ++ (writeU16 (encPairs e).2.2.1 ++
          (writeU8 (encPairs e).2.2.2 ++ (j2 ++ (zeroBytes 16 ++ rest)))))))) =
        procUL { out with stat202 := out.stat202 + 1 } s 1 16 201
          (writeU16 (encPairs e).1 ++ (writeU8 (encPairs e).2.1 ++
            (j1 ++ (writeU16 (encPairs e).2.2.1 ++ (writeU8 (encPairs e).2.2.2 ++
              (j2 ++ (zeroBytes 16 ++ rest))))))) := by
      simp [stepIter, h16]
    rw [hstep]
    have hpw := procUL_write { out with stat202 := out.stat202 + 1 } s 1 16 201
      (encPairs e).1 (encPairs e).2.1 (encPairs e).2.2.1 (encPairs e).2.2.2
      j1 j2 (zeroBytes 16) hj1 hj2 (by simp [zeroBytes]) rest
    simp only [List.append_assoc, List.append_nil, List.nil_append] at hpw ⊢
    rw [hpw]
    refine ulBody_rest ?_ ?_ hrun
    · rw [show List.drop 1 (j2 ++ zeroBytes 16) = zeroBytes 16 from by
          rw [← hj2, List.drop_left]]
      simp [zeroBytes]
    · rw [show List.drop 1 (j2 ++ (zeroBytes 16 ++ rest)) = zeroBytes 16 ++ rest from by
          rw [← hj2, List.drop_left]]
      simp [zeroBytes]

/-- A slot of the padded normalized carriers of a good entry is one of its
carriers or the all-zero pad. -/
theorem padded_cases (e : EncEntry) (hgood : GoodEntry e) (c : Carrier)
    (hc : c ∈ padCarriers (normalizeCarriers e.carriers)) :
    c ∈ e.carriers ∨ c = zeroCarrier := by
  rw [padCarriers_append _ (by
    rw [(normalize_perm e.carriers).length_eq]
    exact goodEntry_length_le e hgood)] at hc
  rcases List.mem_append.mp hc with h | h
  · exact Or.inl ((normalize_perm e.carriers).mem_iff.mp h)
  · exact Or.inr (List.eq_of_mem_replicate h)

/-- Slot bands of a good entry are below 2^16, so the decoder's masking
is the identity on them. -/
theorem padmap_mod_band (e : EncEntry) (hgood : GoodEntry e) :
    (padCarriers (normalizeCarriers e.carriers)).map (fun c => c.band % 65536) =
      (padCarriers (normalizeCarriers e.carriers)).map (fun c => c.band) := by
  apply List.map_congr_left
  intro c hc
  rcases padded_cases e hgood c hc with h | h
  · have := (hgood.2.1 c h).2.2.2.2.2.1
    omega
  · rw [h]
    rfl

/-- Slot classes of a good entry are below 2^8. -/
theorem padmap_mod_bclass (e : EncEntry) (hgood : GoodEntry e) :
    (padCarriers (normalizeCarriers e.carriers)).map (fun c => c.bclass % 256) =
      (padCarriers (normalizeCarriers e.carriers)).map (fun c => c.bclass) := by
  apply List.map_congr_left
  intro c hc
  rcases padded_cases e hgood c hc with h | h
  · have := (hgood.2.1 c h).2.2.2.2.2.2.2.1
    omega
  · rw [h]
    rfl

/-- Slot MIMO values of a good entry are below 2^8. -/
theorem padmap_mod_ant (e : EncEntry) (hgood : GoodEntry e) :
    (padCarriers (normalizeCarriers e.carriers)).map (fun c => c.ant % 256) =
      (padCarriers (normalizeCarriers e.carriers)).map (fun c => c.ant) := by
  apply List.map_congr_left
  intro c hc
  rcases padded_cases e hgood c hc with h | h
  · rcases (hgood.2.1 c h).2.2.2.2.2.2.2.2.1 with h2 | h2 <;> rw [h2]
  · rw [h]
    rfl

/-- The 137 decoder invents MIMO 2 on every real slot; when the entry's
carriers all have MIMO 2 (which routing to format 137 guarantees), the
invented values coincide with the written ones. -/
theorem padmap_ant137 (e : EncEntry) (hgood : GoodEntry e)
    (hant2 : ∀ c ∈ e.carriers, c.ant = 2) :
    (padCarriers (normalizeCarriers e.carriers)).map
        (fun c => if c.band % 65536 ≠ 0 then 2 else 0) =
      (padCarriers (normalizeCarriers e.carriers)).map (fun c => c.ant) := by
  apply List.map_congr_left
  intro c hc
  rcases padded_cases e hgood c hc with h | h
  · have hb1 := (hgood.2.1 c h).2.2.2.2.1
    have hb2 := (hgood.2.1 c h).2.2.2.2.2.1
    rw [if_pos (by omega), hant2 c h]
  · rw [h]
    rfl

/-- Some slot band of a good entry is nonzero (its carrier list is
non-empty and every carrier's band is positive). -/
theorem padmap_band_any (e : EncEntry) (hgood : GoodEntry e) :
    ((padCarriers (normalizeCarriers e.carriers)).map (fun c => c.band)).any
      (fun b => b ≠ 0) = true := by
  obtain ⟨c0, hc0⟩ := List.exists_mem_of_ne_nil e.carriers hgood.1
  have hmem : c0.band ∈ (padCarriers (normalizeCarriers e.carriers)).map
      (fun c => c.band) := by
    apply List.mem_map_of_mem
    rw [padCarriers_append _ (by
      rw [(normalize_perm e.carriers).length_eq]
      exact goodEntry_length_le e hgood)]
    exact List.mem_append_left _ ((normalize_perm e.carriers).mem_iff.mpr hc0)
  have hpos := (hgood.2.1 c0 hc0).2.2.2.2.1
  rw [List.any_eq_true]
  exact ⟨c0.band, hmem, by simp; omega⟩

/-- A 137 group header written from a good entry is consumed by one loop
iteration: it opens a fresh group and loads the entry's slot arrays. -/
theorem stepsTo_hdr137 (out : DecOutput) (s : SlotState) (e : EncEntry)
    (hgood : GoodEntry e) (hant2 : ∀ c ∈ e.carriers, c.ant = 2) :
    ∃ out2, StepsTo out s
        (writeU16 137 ++ ((padCarriers (normalizeCarriers e.carriers)).map
          (fun c => writeU16 c.band ++ writeU8 c.bclass)).flatten) out2
        { band := (padCarriers (normalizeCarriers e.carriers)).map (fun c => c.band),
          bclass :=
            (padCarriers (normalizeCarriers e.carriers)).map (fun c => c.bclass),
          ant := (padCarriers (normalizeCarriers e.carriers)).map (fun c => c.ant),
          ulclass := zeros6, currentDescType := 137,
          currentGroupIdx := Int.ofNat out.groups.length } ∧
      out2.combos = out.combos ∧ out2.errors = out.errors ∧
      out2.groups.length = out.groups.length + 1 := by
  refine ⟨{ out with stat137 := out.stat137 + 1, groups := out.groups ++
    [{ descType := 137,
       band := (padCarriers (normalizeCarriers e.carriers)).map (fun c => c.band),
       bclass := (padCarriers (normalizeCarriers e.carriers)).map (fun c => c.bclass),
       ant := (padCarriers (normalizeCarriers e.carriers)).map (fun c => c.ant),
       combos := [] }] }, ?_, rfl, rfl, by simp⟩
  apply StepsTo_single
  · simp [writeU16]
  · intro rest
    simp only [List.append_assoc]
    have h16 := readU16_write 137
      (((padCarriers (normalizeCarriers e.carriers)).map
        (fun c => writeU16 c.band ++ writeU8 c.bclass)).flatten ++ rest)
    rw [show (137 % 65536) = 137 from rfl] at h16
    have hstep : stepIter out s (writeU16 137 ++
        (((padCarriers (normalizeCarriers e.carriers)).map
          (fun c => writeU16 c.band ++ writeU8 c.bclass)).flatten ++ rest)) =
        procHeader { out with stat137 := out.stat137 + 1 } 137 (readSlots137 6)
          (((padCarriers (normalizeCarriers e.carriers)).map
            (fun c => writeU16 c.band ++ writeU8 c.bclass)).flatten ++ rest) := by
      simp [stepIter, h16]
    rw [hstep]
    have hr := readSlots137_write (padCarriers (normalizeCarriers e.carriers)) rest
    rw [padCarriers_length, padmap_mod_band e hgood, padmap_mod_bclass e hgood,
      padmap_ant137 e hgood hant2] at hr
    unfold procHeader
    rw [hr]
    dsimp only
    rw [if_pos (by simpa using padmap_band_any e hgood)]

/-- A 201 group header written from a good entry is consumed by one loop
iteration: it opens a fresh group and loads the entry's slot arrays. -/
theorem stepsTo_hdr201 (out : DecOutput) (s : SlotState) (e : EncEntry)
    (hgood : GoodEntry e) :
    ∃ out2, StepsTo out s
        (writeU16 201 ++ ((padCarriers (normalizeCarriers e.carriers)).map
          (fun c => writeU16 c.band ++ writeU8 c.bclass ++ writeU8 c.ant)).flatten) out2
        { band := (padCarriers (normalizeCarriers e.carriers)).map (fun c => c.band),
          bclass :=
            (padCarriers (normalizeCarriers e.carriers)).map (fun c => c.bclass),
          ant := (padCarriers (normalizeCarriers e.carriers)).map (fun c => c.ant),
          ulclass := zeros6, currentDescType := 201,
          currentGroupIdx := Int.ofNat out.groups.length } ∧
      out2.combos = out.combos ∧ out2.errors = out.errors ∧
      out2.groups.length = out.groups.length + 1 := by
  refine ⟨{ out with stat201 := out.stat201 + 1, groups := out.groups ++
    [{ descType := 201,
       band := (padCarriers (normalizeCarriers e.carriers)).map (fun c => c.band),
       bclass := (padCarriers (normalizeCarriers e.carriers)).map (fun c => c.bclass),
       ant := (padCarriers (normalizeCarriers e.carriers)).map (fun c => c.ant),
       combos := [] }] }, ?_, rfl, rfl, by simp⟩
  apply StepsTo_single
  · simp [writeU16]
  · intro rest
    simp only [List.append_assoc]
    have h16 := readU16_write 201
      (((padCarriers (normalizeCarriers e.carriers)).map
        (fun c => writeU16 c.band ++ writeU8 c.bclass ++ writeU8 c.ant)).flatten ++ rest)
    rw [show (201 % 65536) = 201 from rfl] at h16
    simp only [List.append_assoc] at h16
    have hstep : stepIter out s (writeU16 201 ++
        (((padCarriers (normalizeCarriers e.carriers)).map
          (fun c => writeU16 c.band ++ (writeU8 c.bclass ++ writeU8 c.ant))).flatten ++
            rest)) =
        procHeader { out with stat201 := out.stat201 + 1 } 201 (readSlots201 6)
          (((padCarriers (normalizeCarriers e.carriers)).map
            (fun c => writeU16 c.band ++ (writeU8 c.bclass ++ writeU8 c.ant))).flatten ++
              rest) := by
      simp [stepIter, h16]
    rw [hstep]
    have hr := readSlots201_write (padCarriers (normalizeCarriers e.carriers)) rest
    rw [padCarriers_length, padmap_mod_band e hgood, padmap_mod_bclass e hgood,
      padmap_mod_ant e hgood] at hr
    simp only [List.append_assoc] at hr
    unfold procHeader
    rw [hr]
    dsimp only
    rw [if_pos (by simpa using padmap_band_any e hgood)]

/-- The strategy-B entry key is the per-slot key triples of the padded
normalized carriers. -/
theorem entryKeyB_padmap (e : EncEntry) :
    entryKeyB e = (padCarriers (normalizeCarriers e.carriers)).map dlKeySlot := by
  unfold entryKeyB getDLKey padCarriers
  rw [List.map_map]
  rfl

/-- On a good entry the slot triples are recovered from the entry key by
zeroing the pad slots (key `(0,1,0)`); real slots have a nonzero band, so
the key determines the slot triples. -/
theorem slotTriples_of_key (e : EncEntry) (h : GoodEntry e) :
    slotTriples e = (entryKeyB e).map
      (fun t => if t.1 = 0 then ((0, 0, 0) : Nat × Nat × Nat) else t) := by
  rw [entryKeyB_padmap, List.map_map]
  unfold slotTriples
  apply List.map_congr_left
  intro c hc
  rcases padded_cases e h c hc with hm | hm
  · obtain ⟨-, -, -, -, hb1, -, hc1, -, hant, -⟩ := h.2.1 c hm
    simp only [Function.comp, dlKeySlot]
    rw [if_pos (by omega : c.bclass ≠ 0),
      if_pos (by rcases hant with h2 | h2 <;> omega : c.ant ≠ 0),
      if_neg (by omega : ¬ c.band = 0)]
  · rw [hm]
    rfl

/-- Good entries with equal strategy-B keys occupy identical slot
arrays. -/
theorem padmaps_eq_of_key (e1 e2 : EncEntry) (h1 : GoodEntry e1)
    (h2 : GoodEntry e2) (hk : entryKeyB e1 = entryKeyB e2) :
    (padCarriers (normalizeCarriers e1.carriers)).map (fun c => c.band) =
      (padCarriers (normalizeCarriers e2.carriers)).map (fun c => c.band) ∧
    (padCarriers (normalizeCarriers e1.carriers)).map (fun c => c.bclass) =
      (padCarriers (normalizeCarriers e2.carriers)).map (fun c => c.bclass) ∧
    (padCarriers (normalizeCarriers e1.carriers)).map (fun c => c.ant) =
      (padCarriers (normalizeCarriers e2.carriers)).map (fun c => c.ant) := by
  have ht : slotTriples e1 = slotTriples e2 := by
    rw [slotTriples_of_key e1 h1, slotTriples_of_key e2 h2, hk]
  refine ⟨?_, ?_, ?_⟩
  · have := congrArg (List.map (fun t : Nat × Nat × Nat => t.1)) ht
    simpa [slotTriples, List.map_map, Function.comp] using this
  · have := congrArg (List.map (fun t : Nat × Nat × Nat => t.2.1)) ht
    simpa [slotTriples, List.map_map, Function.comp] using this
  · have := congrArg (List.map (fun t : Nat × Nat × Nat => t.2.2)) ht
    simpa [slotTriples, List.map_map, Function.comp] using this

/-- Running the member records of one group: each record appends its
entry's observable combo and only touches the uplink slot array.
Parametric in the record writer (`encUL138` or `encUL202`) through its
single-step lemma. -/
theorem stepsTo_members (encRec : EncEntry → Bytes)
    (hstep : ∀ (out : DecOutput) (s : SlotState) (e : EncEntry) (g : Nat),
      GoodEntry e →
      s.band = (padCarriers (normalizeCarriers e.carriers)).map (fun c => c.band) →
      s.bclass =
        (padCarriers (normalizeCarriers e.carriers)).map (fun c => c.bclass) →
      s.ant = (padCarriers (normalizeCarriers e.carriers)).map (fun c => c.ant) →
      s.currentGroupIdx = Int.ofNat g → g < out.groups.length →
      ∃ out2 u cb,
        StepsTo out s (encRec e) out2 { s with ulclass := u } ∧
        out2.combos = out.combos ++ [cb] ∧
        decodedTupleOf cb = inputTupleOf e ∧
        out2.errors = out.errors ∧ out2.groups.length = out.groups.length)
    (e0 : EncEntry) (h0 : GoodEntry e0) :
    ∀ (es : List EncEntry) (out : DecOutput) (s : SlotState) (g : Nat),
      (∀ e ∈ es, GoodEntry e) →
      (∀ e ∈ es, entryKeyB e = entryKeyB e0) →
      s.band = (padCarriers (normalizeCarriers e0.carriers)).map (fun c => c.band) →
      s.bclass =
        (padCarriers (normalizeCarriers e0.carriers)).map (fun c => c.bclass) →
      s.ant = (padCarriers (normalizeCarriers e0.carriers)).map (fun c => c.ant) →
      s.currentGroupIdx = Int.ofNat g → g < out.groups.length →
      ∃ out2 s2 cbs,
        StepsTo out s ((es.map encRec).flatten) out2 s2 ∧
        out2.combos = out.combos ++ cbs ∧
        cbs.map decodedTupleOf = es.map inputTupleOf ∧
        out2.errors = out.errors ∧ out2.groups.length = out.groups.length := by
  intro es
  induction es with
  | nil =>
    intro out s g _ _ _ _ _ _ _
    exact ⟨out, s, [], StepsTo_nil out s, by simp, rfl, rfl, rfl⟩
  | cons e es ih =>
    intro out s g hgood hkey hband hbcl hant hgi hglt
    have hge : GoodEntry e := hgood e (List.mem_cons_self _ _)
    obtain ⟨hb, hc, ha⟩ := padmaps_eq_of_key e0 e h0 hge
      (hkey e (List.mem_cons_self _ _)).symm
    obtain ⟨out1, u, cb, hsteps, hcombos, htup, herr, hglen⟩ :=
      hstep out s e g hge (by rw [hband, hb]) (by rw [hbcl, hc]) (by rw [hant, ha])
        hgi hglt
    obtain ⟨out2, s2, cbs, hsteps2, hcombos2, htup2, herr2, hglen2⟩ :=
      ih out1 { s with ulclass := u } g
        (fun e' he' => hgood e' (List.mem_cons_of_mem _ he'))
        (fun e' he' => hkey e' (List.mem_cons_of_mem _ he'))
        hband hbcl hant hgi (by rw [hglen]; exact hglt)
    refine ⟨out2, s2, cb :: cbs, ?_, ?_, ?_, ?_, ?_⟩
    · have htr := StepsTo_trans hsteps hsteps2
      simpa using htr
    · rw [hcombos2, hcombos]
      simp
    · simp [htup, htup2]
    · rw [herr2, herr]
    · rw [hglen2, hglen]

/-- The head default of a nonempty list is a member. -/
theorem getD_zero_mem {α : Type} (l : List α) (d : α) (h : l ≠ []) :
    l.getD 0 d ∈ l := by
  cases l with
  | nil => exact absurd rfl h
  | cons a t => simp [List.getD]

/-- A whole 137 group block (header plus one 138 record per member, all
members good, on the common key, with MIMO 2 throughout) decodes to one
fresh group and exactly the members' observable combos, in text order. -/
theorem stepsTo_group137 (out : DecOutput) (s : SlotState) (group : List EncEntry)
    (hne : group ≠ [])
    (hgood : ∀ e ∈ group, GoodEntry e)
    (hkey : ∀ e ∈ group, entryKeyB e = entryKeyB (group.getD 0 {}))
    (hant2 : ∀ e ∈ group, ∀ c ∈ e.carriers, c.ant = 2) :
    ∃ out2 s2 cbs,
      StepsTo out s (encGroupB137 group) out2 s2 ∧
      out2.combos = out.combos ++ cbs ∧
      cbs.map decodedTupleOf = (sortEntriesByText group).map inputTupleOf ∧
      out2.errors = out.errors ∧
      out2.groups.length = out.groups.length + 1 := by
  have hg0 : group.getD 0 {} ∈ group := getD_zero_mem group {} hne
  obtain ⟨out1, hhdr, hc1, he1, hg1⟩ :=
    stepsTo_hdr137 out s (group.getD 0 {}) (hgood _ hg0) (hant2 _ hg0)
  have hsortmem : ∀ e ∈ sortEntriesByText group, e ∈ group := fun e he =>
    (List.perm_insertionSort entryTextLe group).mem_iff.mp he
  obtain ⟨out2, s2, cbs, hmem, hc2, ht2, he2, hg2⟩ :=
    stepsTo_members encUL138
      (fun o st e g hg hb hc ha hgi hglt =>
        stepsTo_encUL138 o st e g hg hb hc ha hgi hglt)
      (group.getD 0 {}) (hgood _ hg0) (sortEntriesByText group) out1
      { band := (padCarriers (normalizeCarriers (group.getD 0 {}).carriers)).map
          (fun c => c.band),
        bclass := (padCarriers (normalizeCarriers (group.getD 0 {}).carriers)).map
          (fun c => c.bclass),
        ant := (padCarriers (normalizeCarriers (group.getD 0 {}).carriers)).map
          (fun c => c.ant),
        ulclass := zeros6, currentDescType := 137,
        currentGroupIdx := Int.ofNat out.groups.length }
      out.groups.length
      (fun e he => hgood e (hsortmem e he))
      (fun e he => hkey e (hsortmem e he))
      rfl rfl rfl rfl (by rw [hg1]; omega)
  refine ⟨out2, s2, cbs, ?_, ?_, ht2, ?_, ?_⟩
  · have htr := StepsTo_trans hhdr hmem
    simpa [encGroupB137, List.append_assoc] using htr
  · rw [hc2, hc1]
  · rw [he2, he1]
  · rw [hg2, hg1]

/-- A whole 201 group block (header plus one 202 record per member). -/
theorem stepsTo_group201 (out : DecOutput) (s : SlotState) (group : List EncEntry)
    (hne : group ≠ [])
    (hgood : ∀ e ∈ group, GoodEntry e)
    (hkey : ∀ e ∈ group, entryKeyB e = entryKeyB (group.getD 0 {})) :
    ∃ out2 s2 cbs,
      StepsTo out s (encGroupB201 group) out2 s2 ∧
      out2.combos = out.combos ++ cbs ∧
      cbs.map decodedTupleOf = (sortEntriesByText group).map inputTupleOf ∧
      out2.errors = out.errors ∧
      out2.groups.length = out.groups.length + 1 := by
  have hg0 : group.getD 0 {} ∈ group := getD_zero_mem group {} hne
  obtain ⟨out1, hhdr, hc1, he1, hg1⟩ :=
    stepsTo_hdr201 out s (group.getD 0 {}) (hgood _ hg0)
  have hsortmem : ∀ e ∈ sortEntriesByText group, e ∈ group := fun e he =>
    (List.perm_insertionSort entryTextLe group).mem_iff.mp he
  obtain ⟨out2, s2, cbs, hmem, hc2, ht2, he2, hg2⟩ :=
    stepsTo_members encUL202
      (fun o st e g hg hb hc ha hgi hglt =>
        stepsTo_encUL202 o st e g hg hb hc ha hgi hglt)
      (group.getD 0 {}) (hgood _ hg0) (sortEntriesByText group) out1
      { band := (padCarriers (normalizeCarriers (group.getD 0 {}).carriers)).map
          (fun c => c.band),
        bclass := (padCarriers (normalizeCarriers (group.getD 0 {}).carriers)).map
          (fun c => c.bclass),
        ant := (padCarriers (normalizeCarriers (group.getD 0 {}).carriers)).map
          (fun c => c.ant),
        ulclass := zeros6, currentDescType := 201,
        currentGroupIdx := Int.ofNat out.groups.length }
      out.groups.length
      (fun e he => hgood e (hsortmem e he))
      (fun e he => hkey e (hsortmem e he))
      rfl rfl rfl rfl (by rw [hg1]; omega)
  refine ⟨out2, s2, cbs, ?_, ?_, ht2, ?_, ?_⟩
  · have htr := StepsTo_trans hhdr hmem
    simpa [encGroupB201, List.append_assoc] using htr
  · rw [hc2, hc1]
  · rw [he2, he1]
  · rw [hg2, hg1]

/-- The insertion-dedup fold keeps the accumulator duplicate-free. -/
theorem dedupAux_nodup : ∀ (l acc : List (List (Nat × Nat × Nat))), acc.Nodup →
    (List.foldl (fun acc k => if acc.contains k then acc else acc ++ [k]) acc l).Nodup := by
  intro l
  induction l with
  | nil =>
    intro acc h
    exact h
  | cons k l ih =>
    intro acc h
    simp only [List.foldl_cons]
    by_cases hc : acc.contains k = true
    · rw [if_pos hc]
      exact ih acc h
    · rw [if_neg hc]
      apply ih
      have hk : k ∉ acc := by simpa [List.elem_iff] using hc
      simp [List.nodup_append, h, hk]

/-- Membership in the insertion-dedup fold. -/
theorem dedupAux_mem : ∀ (l acc : List (List (Nat × Nat × Nat)))
    (a : List (Nat × Nat × Nat)),
    (a ∈ List.foldl (fun acc k => if acc.contains k then acc else acc ++ [k]) acc l ↔
      a ∈ acc ∨ a ∈ l) := by
  intro l
  induction l with
  | nil =>
    intro acc a
    simp
  | cons k l ih =>
    intro acc a
    simp only [List.foldl_cons]
    by_cases hc : acc.contains k = true
    · rw [if_pos hc, ih]
      have hk : k ∈ acc := by simpa [List.elem_iff] using hc
      constructor
      · rintro (h | h)
        · exact Or.inl h
        · exact Or.inr (List.mem_cons_of_mem _ h)
      · rintro (h | h)
        · exact Or.inl h
        · rcases List.mem_cons.mp h with h | h
          · exact Or.inl (h ▸ hk)
          · exact Or.inr h
    · rw [if_neg hc, ih]
      simp only [List.mem_append, List.mem_singleton, List.mem_cons]
      tauto

/-- `dedupFirst` returns a duplicate-free list. -/
theorem dedupFirst_nodup (l : List (List (Nat × Nat × Nat))) :
    (dedupFirst l).Nodup := dedupAux_nodup l [] List.nodup_nil

/-- `dedupFirst` keeps exactly the elements of its input. -/
theorem dedupFirst_mem (l : List (List (Nat × Nat × Nat)))
    (a : List (Nat × Nat × Nat)) : a ∈ dedupFirst l ↔ a ∈ l := by
  unfold dedupFirst
  rw [dedupAux_mem]
  simp

/-- Partitioning a list by a duplicate-free covering key list and
flattening recovers the list up to permutation. -/
theorem flatten_filter_perm {α β : Type} [DecidableEq β] (key : α → β) :
    ∀ (ks : List β) (l : List α), ks.Nodup → (∀ a ∈ l, key a ∈ ks) →
    ((ks.map (fun k => l.filter (fun a => key a = k))).flatten).Perm l := by
  intro ks
  induction ks with
  | nil =>
    intro l _ hcov
    cases l with
    | nil => simp
    | cons a t => exact absurd (hcov a (List.mem_cons_self _ _)) (by simp)
  | cons k ks ih =>
    intro l hnd hcov
    simp only [List.map_cons, List.flatten_cons]
    have hnd2 := List.nodup_cons.mp hnd
    have hsub : ∀ k2 ∈ ks, l.filter (fun a => key a = k2) =
        (l.filter (fun a => ¬ key a = k)).filter (fun a => key a = k2) := by
      intro k2 hk2
      rw [List.filter_filter]
      apply List.filter_congr'
      intro a ha
      by_cases hak : key a = k2
      · have hkk : k2 ≠ k := by
          intro hcon
          exact hnd2.1 (hcon ▸ hk2)
        simp [hak, hkk]
      · simp [hak]
    have hmapeq : ks.map (fun k2 => l.filter (fun a => key a = k2)) =
        ks.map (fun k2 =>
          (l.filter (fun a => ¬ key a = k)).filter (fun a => key a = k2)) :=
      List.map_congr_left hsub
    rw [hmapeq]
    have hihp := ih (l.filter (fun a => ¬ key a = k)) hnd2.2 (fun a ha => by
      have hal := List.mem_filter.mp ha
      have hmem := hcov a hal.1
      have hnk : ¬ key a = k := by simpa using hal.2
      rcases List.mem_cons.mp hmem with h | h
      · exact absurd h hnk
      · exact h)
    refine ((hihp.append_left (l.filter (fun a => key a = k))).trans ?_)
    have : (fun a => decide (¬ key a = k)) = (fun a => ! decide (key a = k)) := by
      funext a
      simp [decide_not]
    rw [this]
    exact List.filter_append_perm _ l

/-- Flattening the strategy-B DL-key grouping of entries with nonempty
carriers permutes the entries. -/
theorem groupDL_flatten_perm (es : List EncEntry)
    (hne : ∀ e ∈ es, e.carriers ≠ []) :
    ((groupEntriesByDL true es).flatten).Perm es := by
  unfold groupEntriesByDL
  rw [if_neg (by simp)]
  dsimp only
  have hkeyed : es.filter (fun e => ¬ e.carriers.isEmpty) = es :=
    List.filter_eq_self.mpr (fun e he => by
      simpa [List.isEmpty_iff] using hne e he)
  rw [hkeyed]
  have hks := List.perm_insertionSort dlKeyLe (dedupFirst (es.map entryKeyB))
  refine ((hks.map (fun k => es.filter (fun e => entryKeyB e = k))).flatten.trans ?_)
  apply flatten_filter_perm entryKeyB
  · exact dedupFirst_nodup _
  · intro e he
    rw [dedupFirst_mem]
    exact List.mem_map_of_mem _ he

/-- Running one format class's group blocks in sequence, given the
single-block lemma of the class. -/
theorem stepsTo_blocks (encGrp : List EncEntry → Bytes) (Q : List EncEntry → Prop)
    (hblock : ∀ (out : DecOutput) (s : SlotState) (group : List EncEntry), Q group →
      ∃ out2 s2 cbs,
        StepsTo out s (encGrp group) out2 s2 ∧
        out2.combos = out.combos ++ cbs ∧
        cbs.map decodedTupleOf = (sortEntriesByText group).map inputTupleOf ∧
        out2.errors = out.errors ∧ out2.groups.length = out.groups.length + 1) :
    ∀ (gs : List (List EncEntry)) (out : DecOutput) (s : SlotState),
      (∀ g ∈ gs, Q g) →
      ∃ out2 s2 cbs,
        StepsTo out s ((gs.map encGrp).flatten) out2 s2 ∧
        out2.combos = out.combos ++ cbs ∧
        cbs.map decodedTupleOf =
          (gs.map (fun g => (sortEntriesByText g).map inputTupleOf)).flatten ∧
        out2.errors = out.errors := by
  intro gs
  induction gs with
  | nil =>
    intro out s _
    exact ⟨out, s, [], StepsTo_nil out s, by simp, by simp, rfl⟩
  | cons g gs ih =>
    intro out s hQ
    obtain ⟨out1, s1, cbs1, h1, hc1, ht1, he1, -⟩ :=
      hblock out s g (hQ g (List.mem_cons_self _ _))
    obtain ⟨out2, s2, cbs2, h2, hc2, ht2, he2⟩ :=
      ih out1 s1 (fun g2 hg2 => hQ g2 (List.mem_cons_of_mem _ hg2))
    refine ⟨out2, s2, cbs1 ++ cbs2, ?_, ?_, ?_, ?_⟩
    · simpa using StepsTo_trans h1 h2
    · rw [hc2, hc1, List.append_assoc]
    · simp [ht1, ht2]
    · rw [he2, he1]

/-- Good carriers never trigger the digit format: MIMO is 2 or 4. -/
theorem goodEntry_not_full (e : EncEntry) (hgood : GoodEntry e) :
    needsFullFormat e.carriers = false := by
  unfold needsFullFormat
  rw [List.any_eq_false]
  intro c hc
  rcases (hgood.2.1 c hc).2.2.2.2.2.2.2.2.1 with h | h <;> simp [h]

/-- `entryFormat` with auto-detect on, as a plain conditional on the
minimum format and the extended-format test. -/
theorem entryFormat_true (dt : Nat) (e : EncEntry) :
    entryFormat true dt e =
      (if determineMinimumFormat e.carriers = 333 then 333
       else if determineMinimumFormat e.carriers = 201 ∨
           needsExtendedFormat e.carriers = true then 201
       else 137) := by
  unfold entryFormat
  simp

/-- A good entry is classified to format 137 or 201 under auto-detect. -/
theorem entryFormat_cases (dt : Nat) (e : EncEntry) (hgood : GoodEntry e) :
    entryFormat true dt e = 137 ∨ entryFormat true dt e = 201 := by
  have hmin : determineMinimumFormat e.carriers = 201 ∨
      determineMinimumFormat e.carriers = 137 := by
    unfold determineMinimumFormat
    rw [goodEntry_not_full e hgood]
    by_cases hext : needsExtendedFormat e.carriers = true
    · rw [hext]
      simp
    · simp only [Bool.not_eq_true] at hext
      rw [hext]
      simp
  rw [entryFormat_true]
  split_ifs with hA hB
  · rcases hmin with h | h <;> omega
  · exact Or.inr rfl
  · exact Or.inl rfl

/-- An entry routed to format 137 has MIMO 2 on every carrier. -/
theorem format137_ant2 (dt : Nat) (e : EncEntry) (hgood : GoodEntry e)
    (hf : entryFormat true dt e = 137) : ∀ c ∈ e.carriers, c.ant = 2 := by
  intro c hc
  rcases (hgood.2.1 c hc).2.2.2.2.2.2.2.2.1 with h2 | h4
  · exact h2
  · exfalso
    have hext : needsExtendedFormat e.carriers = true := by
      unfold needsExtendedFormat
      rw [List.any_eq_true]
      exact ⟨c, hc, by simp [h4]⟩
    rw [entryFormat_true] at hf
    split_ifs at hf with hA hB
    · omega
    · omega
    · exact hB (Or.inr hext)

/-- The members-and-key properties of every strategy-B DL-key group of a
list of good entries: nonempty, members come from the list, and all
members share the first member's key. -/
theorem groupDL_props (es : List EncEntry) (hgood : ∀ e ∈ es, GoodEntry e) :
    ∀ g ∈ groupEntriesByDL true es, g ≠ [] ∧ (∀ e ∈ g, e ∈ es) ∧
      (∀ e ∈ g, entryKeyB e = entryKeyB (g.getD 0 {})) := by
  intro g hg
  unfold groupEntriesByDL at hg
  rw [if_neg (by simp)] at hg
  dsimp only at hg
  have hkeyed : es.filter (fun e => ¬ e.carriers.isEmpty) = es :=
    List.filter_eq_self.mpr (fun e he => by
      simpa [List.isEmpty_iff] using (hgood e he).1)
  rw [hkeyed] at hg
  obtain ⟨k, hk, hgk⟩ := List.mem_map.mp hg
  have hkmem : k ∈ es.map entryKeyB := by
    rw [← dedupFirst_mem]
    exact (List.perm_insertionSort dlKeyLe _).mem_iff.mp hk
  obtain ⟨e0, he0, hke0⟩ := List.mem_map.mp hkmem
  have hne : g ≠ [] := by
    intro hcon
    have hmem : e0 ∈ es.filter (fun e => entryKeyB e = k) :=
      List.mem_filter.mpr ⟨he0, by simp [hke0]⟩
    rw [hgk, hcon] at hmem
    exact absurd hmem (List.not_mem_nil e0)
  refine ⟨hne, ?_, ?_⟩
  · intro e he
    rw [← hgk] at he
    exact (List.mem_filter.mp he).1
  · intro e he
    have h0 : g.getD 0 {} ∈ g := getD_zero_mem g {} hne
    rw [← hgk] at he h0
    have hek : entryKeyB e = k := by simpa using (List.mem_filter.mp he).2
    have h0k : entryKeyB ((es.filter (fun e => entryKeyB e = k)).getD 0 {}) = k := by
      simpa using (List.mem_filter.mp h0).2
    rw [← hgk, hek, h0k]

/-- Sorting the members of each group before flattening only permutes the
flattened tuple list. -/
theorem sorted_flatten_perm (gs : List (List EncEntry)) :
    ((gs.map (fun g => (sortEntriesByText g).map inputTupleOf)).flatten).Perm
      ((gs.map (fun g => g.map inputTupleOf)).flatten) := by
  induction gs with
  | nil => simp
  | cons g gs ih =>
    simp only [List.map_cons, List.flatten_cons]
    exact ((List.perm_insertionSort entryTextLe g).map inputTupleOf).append ih

/-- `splitByFormat` with auto-detect on is the three classification
filters. -/
theorem splitByFormat_true (dt : Nat) (entries : List EncEntry) :
    splitByFormat true dt entries =
      (entries.filter (fun e => ¬ e.carriers.isEmpty ∧ entryFormat true dt e = 137),
       entries.filter (fun e => ¬ e.carriers.isEmpty ∧ entryFormat true dt e = 201),
       entries.filter (fun e => ¬ e.carriers.isEmpty ∧ entryFormat true dt e = 333)) := by
  unfold splitByFormat
  simp

/-- On good entries the 137 and 201 classification filters partition the
entry list. -/
theorem goodFilter_partition (dt : Nat) (entries : List EncEntry)
    (hgood : ∀ e ∈ entries, GoodEntry e) :
    (entries.filter (fun e => ¬ e.carriers.isEmpty ∧ entryFormat true dt e = 137) ++
     entries.filter
       (fun e => ¬ e.carriers.isEmpty ∧ entryFormat true dt e = 201)).Perm
      entries := by
  have hq : entries.filter
      (fun e => ¬ e.carriers.isEmpty ∧ entryFormat true dt e = 201) =
      entries.filter (fun e =>
        ! (decide (¬ e.carriers.isEmpty ∧ entryFormat true dt e = 137))) := by
    apply List.filter_congr'
    intro e he
    have hge := hgood e he
    have hne : e.carriers.isEmpty = false := by
      simpa [List.isEmpty_iff] using hge.1
    rcases entryFormat_cases dt e hge with h | h <;> simp [hne, h]
  rw [hq]
  exact List.filter_append_perm _ entries

/-- No good entry is classified to the digit format 333. -/
theorem goodFilter_e333 (dt : Nat) (entries : List EncEntry)
    (hgood : ∀ e ∈ entries, GoodEntry e) :
    entries.filter
      (fun e => ¬ e.carriers.isEmpty ∧ entryFormat true dt e = 333) = [] := by
  rw [List.filter_eq_nil_iff]
  intro e he
  rcases entryFormat_cases dt e (hgood e he) with h | h <;> simp [h]

/-- Grouping no entries yields no groups. -/
theorem groupDL_empty : groupEntriesByDL true [] = [] := rfl

/-- Decoding the strategy-B auto-detect encoding of good entries
reproduces, up to permutation, the entries' observable tuples, with no
decode errors. -/
theorem autoDetect_roundtrip (fv dt : Nat) (orig : List DecGroup)
    (entries : List EncEntry) (hgood : ∀ e ∈ entries, GoodEntry e) :
    (decodePlain (encodeAutoDetect (mkArgsB fv dt orig entries))).errors = [] ∧
    ((decodePlain (encodeAutoDetect
        (mkArgsB fv dt orig entries))).combos.map decodedTupleOf).Perm
      (entries.map inputTupleOf) := by
  have hsplit : splitByFormat true dt entries =
      (entries.filter (fun e => ¬ e.carriers.isEmpty ∧ entryFormat true dt e = 137),
       entries.filter (fun e => ¬ e.carriers.isEmpty ∧ entryFormat true dt e = 201),
       []) := by
    rw [splitByFormat_true, goodFilter_e333 dt entries hgood]
  obtain ⟨nd, henc⟩ : ∃ nd, encodeAutoDetect (mkArgsB fv dt orig entries) =
      writeU16 fv ++ (writeU16 nd ++
        (((groupEntriesByDL true (entries.filter
            (fun e => ¬ e.carriers.isEmpty ∧ entryFormat true dt e = 137))).map
          encGroupB137).flatten ++
         ((groupEntriesByDL true (entries.filter
            (fun e => ¬ e.carriers.isEmpty ∧ entryFormat true dt e = 201))).map
          encGroupB201).flatten)) := by
    refine ⟨((groupEntriesByDL true (entries.filter
        (fun e => ¬ e.carriers.isEmpty ∧ entryFormat true dt e = 137))).map
          (fun g => 1 + g.length)).sum +
      ((groupEntriesByDL true (entries.filter
        (fun e => ¬ e.carriers.isEmpty ∧ entryFormat true dt e = 201))).map
          (fun g => 1 + g.length)).sum, ?_⟩
    unfold encodeAutoDetect mkArgsB
    dsimp only
    rw [hsplit]
    dsimp only
    rw [groupDL_empty]
    simp [List.append_assoc]
  have hgood137 : ∀ e ∈ entries.filter
      (fun e => ¬ e.carriers.isEmpty ∧ entryFormat true dt e = 137), GoodEntry e :=
    fun e he => hgood e (List.mem_of_mem_filter he)
  have hgood201 : ∀ e ∈ entries.filter
      (fun e => ¬ e.carriers.isEmpty ∧ entryFormat true dt e = 201), GoodEntry e :=
    fun e he => hgood e (List.mem_of_mem_filter he)
  rw [henc]
  unfold decodePlain decodeBody decodeTry
  rw [readU16_write]
  dsimp only
  rw [readU16_write]
  dsimp only
  obtain ⟨o1, s1, cbs1, hB1, hc1, ht1, heE1⟩ :=
    stepsTo_blocks encGroupB137
      (fun group => group ≠ [] ∧ (∀ e ∈ group, GoodEntry e) ∧
        (∀ e ∈ group, entryKeyB e = entryKeyB (group.getD 0 {})) ∧
        (∀ e ∈ group, ∀ c ∈ e.carriers, c.ant = 2))
      (fun o st grp hQ => stepsTo_group137 o st grp hQ.1 hQ.2.1 hQ.2.2.1 hQ.2.2.2)
      (groupEntriesByDL true (entries.filter
        (fun e => ¬ e.carriers.isEmpty ∧ entryFormat true dt e = 137)))
      _ initSlots
      (by
        intro g hg
        obtain ⟨hne', hsub, hkey⟩ := groupDL_props _ hgood137 g hg
        refine ⟨hne', fun e he => hgood137 e (hsub e he), hkey, ?_⟩
        intro e he c hc
        have hef := hsub e he
        have hfmt : entryFormat true dt e = 137 := by
          have h2 := (List.mem_filter.mp hef).2
          simp only [decide_eq_true_eq] at h2
          exact h2.2
        exact format137_ant2 dt e (hgood137 e hef) hfmt c hc)
  obtain ⟨o2, s2, cbs2, hB2, hc2, ht2, heE2⟩ :=
    stepsTo_blocks encGroupB201
      (fun group => group ≠ [] ∧ (∀ e ∈ group, GoodEntry e) ∧
        (∀ e ∈ group, entryKeyB e = entryKeyB (group.getD 0 {})))
      (fun o st grp hQ => stepsTo_group201 o st grp hQ.1 hQ.2.1 hQ.2.2)
      (groupEntriesByDL true (entries.filter
        (fun e => ¬ e.carriers.isEmpty ∧ entryFormat true dt e = 201)))
      o1 s1
      (by
        intro g hg
        obtain ⟨hne', hsub, hkey⟩ := groupDL_props _ hgood201 g hg
        exact ⟨hne', fun e he => hgood201 e (hsub e he), hkey⟩)
  have hsteps := StepsTo_trans hB1 hB2
  have hloop := hsteps []
    ((((groupEntriesByDL true (entries.filter
        (fun e => ¬ e.carriers.isEmpty ∧ entryFormat true dt e = 137))).map
      encGroupB137).flatten ++
     ((groupEntriesByDL true (entries.filter
        (fun e => ¬ e.carriers.isEmpty ∧ entryFormat true dt e = 201))).map
      encGroupB201).flatten).length + 1) (by simp)
  simp only [List.append_nil] at hloop
  rw [hloop]
  have hnil : ∀ (f : Nat), decodeLoop (f + 1) o2 s2 [] = (o2, none) := by
    intro f
    simp [decodeLoop]
  rw [hnil]
  dsimp only
  constructor
  · rw [heE2, heE1]
    simp [initOutput]
  · have hcombos : o2.combos = cbs1 ++ cbs2 := by
      rw [hc2, hc1]
      simp [initOutput]
    rw [hcombos]
    have hmaps : (cbs1 ++ cbs2).map decodedTupleOf =
        ((groupEntriesByDL true (entries.filter
            (fun e => ¬ e.carriers.isEmpty ∧ entryFormat true dt e = 137))).map
          (fun g => (sortEntriesByText g).map inputTupleOf)).flatten ++
        ((groupEntriesByDL true (entries.filter
            (fun e => ¬ e.carriers.isEmpty ∧ entryFormat true dt e = 201))).map
          (fun g => (sortEntriesByText g).map inputTupleOf)).flatten := by
      simp [ht1, ht2]
    rw [hmaps]
    have hstep1 := (sorted_flatten_perm (groupEntriesByDL true (entries.filter
      (fun e => ¬ e.carriers.isEmpty ∧ entryFormat true dt e = 137)))).append
      (sorted_flatten_perm (groupEntriesByDL true (entries.filter
        (fun e => ¬ e.carriers.isEmpty ∧ entryFormat true dt e = 201))))
    refine hstep1.trans ?_
    rw [← List.map_flatten, ← List.map_flatten]
    have hne137 : ∀ e ∈ entries.filter
        (fun e => ¬ e.carriers.isEmpty ∧ entryFormat true dt e = 137),
        e.carriers ≠ [] := fun e he => (hgood137 e he).1
    have hne201 : ∀ e ∈ entries.filter
        (fun e => ¬ e.carriers.isEmpty ∧ entryFormat true dt e = 201),
        e.carriers ≠ [] := fun e he => (hgood201 e he).1
    have hstep2 := ((groupDL_flatten_perm _ hne137).map inputTupleOf).append
      ((groupDL_flatten_perm _ hne201).map inputTupleOf)
    refine hstep2.trans ?_
    rw [← List.map_append]
    exact (goodFilter_partition dt entries hgood).map inputTupleOf

/-- A strategy-B buffer is never detected as zlib-compressed when the
format version's low byte is not 0x78. -/
theorem isZlib_auto (args : EncArgs) (hfv : args.formatVersion % 256 ≠ 0x78) :
    isZlibCompressed (encodeAutoDetect args) = false := by
  unfold encodeAutoDetect
  dsimp only
  simp [writeU16, isZlibCompressed, hfv]

/-- Claim C1, counterexample: the duplicate-band combo `3A2A-3A2A`
satisfies every hypothesis of the claim (non-empty, MIMO 2, total CC
2 ≤ 6, strategy B), yet its encode/decode round trip loses `hasULCA`: the
two uplink pairs carry the same band, so both attach to slot 0 and the
decoded uplink count collapses to one. -/
theorem c1_counterexample :
    dupBandArgs.encodeEntries ≠ [] ∧
    (∀ e ∈ dupBandArgs.encodeEntries, ∀ c ∈ e.carriers, c.ant = 2 ∨ c.ant = 4) ∧
    (∀ e ∈ dupBandArgs.encodeEntries,
      (e.carriers.map (fun c => classToCC (ClassVal.num c.bclass))).sum ≤ 6) ∧
    dupBandArgs.autoDescriptorType = true ∧
    dupBandArgs.optimizeGrouping = true ∧
    encodeToBuffer dupBandArgs = .ok (encodeAutoDetect dupBandArgs) ∧
    ¬ (((decodePlain (encodeAutoDetect dupBandArgs)).combos.map
        decodedTupleOf).Perm (dupBandArgs.encodeEntries.map inputTupleOf)) :=
  ⟨by decide, by decide, by decide, rfl, rfl, rfl, by decide⟩

/-- Claim C1, amended: for every argument object requesting strategy B
(auto-detect on, grouping optimization on, original grouping off) whose
format version's low byte is not the zlib magic 0x78, and whose combo
entry list is non-empty and consists of good entries — legacy numeric
carriers with in-range band (1..65535) and class (1..6), MIMO 2 or 4,
byte-sized uplink class, pairwise distinct bands and total CC at most 6 —
the encode succeeds, the buffer is not mistaken for zlib data, and
decoding it reproduces, with no errors and up to permutation, the input
multiset of per-combo (carrier triples, streams, hasULCA) observations. -/
theorem c1_amended (args : EncArgs)
    (hauto : args.autoDescriptorType = true)
    (hopt : args.optimizeGrouping = true)
    (hpres : args.preserveOriginalGrouping = false)
    (hfv : args.formatVersion % 256 ≠ 0x78)
    (hne : args.encodeEntries ≠ [])
    (hgood : ∀ e ∈ args.encodeEntries, GoodEntry e) :
    ∃ buf, encodeToBuffer args = .ok buf ∧ isZlibCompressed buf = false ∧
      (decodePlain buf).errors = [] ∧
      ((decodePlain buf).combos.map decodedTupleOf).Perm
        (args.encodeEntries.map inputTupleOf) := by
  obtain ⟨es, fv, dt, og, ad, pg, orig⟩ := args
  replace hauto : ad = true := hauto
  replace hopt : og = true := hopt
  replace hpres : pg = false := hpres
  replace hfv : fv % 256 ≠ 0x78 := hfv
  replace hne : es ≠ [] := hne
  replace hgood : ∀ e ∈ es, GoodEntry e := hgood
  subst hauto hopt hpres
  refine ⟨encodeAutoDetect (mkArgsB fv dt orig es), ?_,
    isZlib_auto (mkArgsB fv dt orig es) hfv,
    (autoDetect_roundtrip fv dt orig es hgood).1,
    (autoDetect_roundtrip fv dt orig es hgood).2⟩
  show encodeToBuffer (mkArgsB fv dt orig es) =
    Except.ok (encodeAutoDetect (mkArgsB fv dt orig es))
  unfold encodeToBuffer
  dsimp only [mkArgsB]
  rw [if_neg (by simpa [List.isEmpty_iff] using hne), if_neg (by simp)]

/-- Claim C1, witness: the amended round trip at the single good combo
`3A2A` with strategy B and format version 1. -/
theorem c1_witness :
    ∃ buf, encodeToBuffer (mkArgsB 1 201 [] [entry3A2A]) = .ok buf ∧
      isZlibCompressed buf = false ∧
      (decodePlain buf).errors = [] ∧
      ((decodePlain buf).combos.map decodedTupleOf).Perm
        ((mkArgsB 1 201 [] [entry3A2A]).encodeEntries.map inputTupleOf) :=
  c1_amended (mkArgsB 1 201 [] [entry3A2A]) rfl rfl rfl (by decide) (by decide)
    (by unfold GoodEntry GoodCarrier; decide)

end EDcoder
